import Mathlib

/-!
Pagination, result walkers and metadata helpers of the command line client

A shallow embedding of

* the four pagination helpers of the `api` command in `pkg/cmd/api/pagination.go`
  (`findNextPage`, `findEndCursor`, `addPerPage` and `paginatedArrayReader.Read`),
  namespace `CmdApi`;
* the result walkers `GetCaches`, `listRepos` and `searchRepos`, namespace `Walkers`;
* the field selection compiler, the metadata lookups, the batch query and the
  project paths of the package `api`, namespace `Api`;
* the order of the reviewers of `pr view` (`sortReviewerStates`), namespace `PrView`;
* the capability detection of `internal/featuredetection`, namespace
  `FeatureDetection`;

together with the properties established about them. The definitions come first,
the theorems after them.

Conventions of the embedding:

* a Go `byte` is a natural number (only equality with ASCII codes is ever used);
* a Go `string` is a list of characters; every byte the embedded functions test
  is ASCII, so a non-ASCII character stands for its multi-byte encoding;
* an `io.Reader` is a state type with a `Read` step function that returns the
  bytes it stored in the slice it was given, the error, and its next state.
-/

namespace CmdApi

/-! ## Readers -/

/-- A Go `byte`. -/
abbrev Byte := Nat

/-- Code of `[`. -/
abbrev bOpen : Byte := 91
/-- Code of `]`. -/
abbrev bClose : Byte := 93
/-- Code of `,`. -/
abbrev bComma : Byte := 44
/-- Code of the space character. -/
abbrev bSpace : Byte := 32

/-- The errors a `Read` call can return: `io.EOF`, or any other error. -/
inductive IOError where
  | EOF
  | other (msg : String)
  deriving DecidableEq, Repr

/-- The `io.Reader` interface over a state type `σ`: `Read s len` is a call of
`Read(p)` with `len(p) = len`; it returns the bytes stored in `p[0:n]`, the error
(`none` is `nil`) and the next state of the reader. -/
structure IOReader (σ : Type) where
  Read : σ → Nat → List Byte × Option IOError × σ

/-- The wrapped reader delivers the stream `rem s`: a `Read` stores no more bytes
than the slice holds, the bytes are the next bytes of the stream, and `io.EOF` is
only reported once the stream is exhausted. -/
structure IOReader.Streams {σ : Type} (rd : IOReader σ) (rem : σ → List Byte) : Prop where
  length_le : ∀ s len, (rd.Read s len).1.length ≤ len
  rem_eq : ∀ s len, rem s = (rd.Read s len).1 ++ rem (rd.Read s len).2.2
  eof_rem : ∀ s len, (rd.Read s len).2.1 = some IOError.EOF → rem (rd.Read s len).2.2 = []

/-- A reader over an in-memory body, in the manner of `bytes.Reader`, that may
deliver short reads: `script` bounds the sizes of the coming reads (once it is
used up a read fills the slice). At the end of the body it returns `(0, io.EOF)`. -/
structure Source where
  data : List Byte
  script : List Nat
  deriving DecidableEq, Repr

/-- One `Read` of a `Source` into a slice of length `len`. -/
def Source.Read (s : Source) (len : Nat) : List Byte × Option IOError × Source :=
  if s.data = [] then ([], some IOError.EOF, s)
  else
    let k := match s.script with
      | [] => len
      | c :: _ => min c len
    (s.data.take k, none, { data := s.data.drop k, script := s.script.tail })

/-- The `io.Reader` of a `Source`. -/
def sourceReader : IOReader Source := ⟨Source.Read⟩

/-- Type `paginatedArrayReader`: the state of the wrapped reader and the four fields. -/
structure paginatedArrayReader (σ : Type) where
  Reader : σ
  isFirstPage : Bool
  isLastPage : Bool
  isSubsequentRead : Bool := false
  cachedByte : Byte := 0

/-- Method `(*paginatedArrayReader).Read`, called with a slice `p` of length `len`.
The slice is represented by its first `n` bytes (no byte past `n` is read by the
method); the result is `p[0:n]` for the returned `n`, the returned error, and the
reader after the call. -/
def paginatedArrayReader.Read {σ : Type} (rd : IOReader σ) (r : paginatedArrayReader σ)
    (len : Nat) : List Byte × Option IOError × paginatedArrayReader σ :=
  -- if r.cachedByte != 0 && len(p) > 0 {
  --     p[0] = r.cachedByte; n, err = r.Reader.Read(p[1:]); n += 1; r.cachedByte = 0
  -- } else { n, err = r.Reader.Read(p) }
  let useCache : Bool := r.cachedByte != 0 && decide (len > 0)
  let res := if useCache then rd.Read r.Reader (len - 1) else rd.Read r.Reader len
  -- the list `p` is `p[0:n]`, so that `n` is `p.length`
  let p : List Byte := if useCache then r.cachedByte :: res.1 else res.1
  let cached : Byte := if useCache then 0 else r.cachedByte
  -- if !r.isSubsequentRead && !r.isFirstPage && n > 0 && p[0] == '[' {
  --     if n > 1 && p[1] == ']' { p[0] = ' ' } else { p[0] = ',' } }
  let p : List Byte :=
    if (!r.isSubsequentRead && !r.isFirstPage) && decide (p.length > 0)
        && p[0]? == some bOpen then
      if decide (p.length > 1) && p[1]? == some bClose then p.set 0 bSpace else p.set 0 bComma
    else p
  -- if !r.isLastPage && n > 0 && p[n-1] == ']' { r.cachedByte = p[n-1]; n -= 1 }
  let withhold : Bool := !r.isLastPage && decide (p.length > 0) && p[p.length - 1]? == some bClose
  let cached : Byte := if withhold then bClose else cached
  -- r.isSubsequentRead = true; return n, err
  (p.take (if withhold then p.length - 1 else p.length), res.2.1,
    { r with Reader := res.2.2, cachedByte := cached, isSubsequentRead := true })

/-- The result of a sequence of `Read` calls. -/
structure ReadLog (σ : Type) where
  out : List Byte
  err : Option IOError
  reader : paginatedArrayReader σ

/-- A caller's read loop (`io.Copy`, `io.ReadAll`): one `Read` per buffer length of
`bufs`, appending the delivered bytes, until a `Read` returns an error. -/
def readLoop {σ : Type} (rd : IOReader σ) :
    paginatedArrayReader σ → List Nat → ReadLog σ
  | r, [] => ⟨[], none, r⟩
  | r, len :: bufs =>
    let res := paginatedArrayReader.Read rd r len
    match res.2.1 with
    | some e => ⟨res.1, some e, res.2.2⟩
    | none =>
      let rest := readLoop rd res.2.2 bufs
      ⟨res.1 ++ rest.out, rest.err, rest.reader⟩

/-- The reader `api.go` builds for a page: the body wrapped with the two page flags. -/
def pageReader (body : List Byte) (script : List Nat) (isFirstPage isLastPage : Bool) :
    paginatedArrayReader Source :=
  { Reader := { data := body, script := script }, isFirstPage := isFirstPage,
    isLastPage := isLastPage }

/-- Bytes obtained by draining the page readers of `pages` in order with buffers of
length `buf` and concatenating what they deliver: each page is read until its reader
reports `io.EOF` (`none` when that takes more than `fuel` reads, or on another
error). A page is given as its body and the script of short reads of its wrapped
reader; the first page is wrapped with `isFirstPage`, the last with `isLastPage`. -/
def drainPages (buf fuel : Nat) : Bool → List (List Byte × List Nat) → Option (List Byte)
  | _, [] => some []
  | first, (body, script) :: rest =>
    let log := readLoop sourceReader (pageReader body script first rest.isEmpty)
      (List.replicate fuel buf)
    if log.err = some IOError.EOF then
      (drainPages buf fuel false rest).map (fun tail => log.out ++ tail)
    else none

/-- The bytes in front of the wrapped reader's chunk: the cached byte, if any. -/
def cachedPart (c : Byte) : List Byte := if c = 0 then [] else [c]

/-- The length of the slice the wrapped reader is handed by a `Read` with a buffer of
length `len`. -/
def innerLen {σ : Type} (r : paginatedArrayReader σ) (len : Nat) : Nat :=
  if r.cachedByte ≠ 0 ∧ len > 0 then len - 1 else len

/-- The buffer prefix `p[0:n]` of a `Read` before its two rewrites. -/
def rawBuf {σ : Type} (rd : IOReader σ) (r : paginatedArrayReader σ) (len : Nat) : List Byte :=
  if r.cachedByte ≠ 0 ∧ len > 0 then r.cachedByte :: (rd.Read r.Reader (len - 1)).1
  else (rd.Read r.Reader len).1

/-- The leading-byte rewrite of `Read` as a function of the buffer prefix. -/
def rewriteHead (active : Bool) : List Byte → List Byte
  | 91 :: 93 :: t => if active then 32 :: 93 :: t else 91 :: 93 :: t
  | 91 :: t => if active then 44 :: t else 91 :: t
  | p => p

/-- List `a` is list `b`, or `b` with a leading `[` replaced by `,` or by a space
(possible on a page that is not the first only). -/
def HeadRewritten (first : Bool) (a b : List Byte) : Prop :=
  a = b ∨ (first = false ∧ b.head? = some bOpen ∧ a.tail = b.tail ∧
    (a.head? = some bComma ∨ a.head? = some bSpace))

instance (first : Bool) (a b : List Byte) : Decidable (HeadRewritten first a b) := by
  unfold HeadRewritten; infer_instance

/-- The page `[[1],2]`, first of several. -/
def nestedPage : paginatedArrayReader Source :=
  pageReader [91, 91, 49, 93, 44, 50, 93] [] true false

/-! ## `addPerPage` -/

/-- A Go `string`. -/
abbrev GoString := List Char

/-- Function `strings.IndexRune(s, r)` for an ASCII rune: the index of the first
occurrence of `r` in `s`, or `-1`. -/
def IndexRune : GoString → Char → Int
  | [], _ => -1
  | c :: t, r => if c = r then 0 else if IndexRune t r < 0 then -1 else IndexRune t r + 1

/-- Function `strings.Cut(s, sep)` for a one-byte separator: the text before the first
`sep`, the text after it, and whether `sep` occurs (if not, `before` is `s`). -/
def Cut (sep : Char) : GoString → GoString × GoString × Bool
  | [] => ([], [], false)
  | c :: t => if c = sep then ([], t, true) else (c :: (Cut sep t).1, (Cut sep t).2.1, (Cut sep t).2.2)

/-- Function `ishex` of `net/url`. -/
def ishex (c : Char) : Bool :=
  ('0' ≤ c && c ≤ '9') || ('a' ≤ c && c ≤ 'f') || ('A' ≤ c && c ≤ 'F')

/-- Function `unhex` of `net/url`. -/
def unhex (c : Char) : Nat :=
  if '0' ≤ c ∧ c ≤ '9' then c.toNat - '0'.toNat
  else if 'a' ≤ c ∧ c ≤ 'f' then c.toNat - 'a'.toNat + 10
  else if 'A' ≤ c ∧ c ≤ 'F' then c.toNat - 'A'.toNat + 10
  else 0

/-- Function `url.QueryUnescape`: `%XX` becomes the byte `XX`, `+` becomes a space;
`none` is the error returned for a `%` that two hexadecimal digits do not follow. -/
def QueryUnescape : GoString → Option GoString
  | [] => some []
  | c :: t =>
    if c = '%' then
      match t with
      | a :: b :: t' =>
        if ishex a && ishex b then
          (QueryUnescape t').map (fun u => Char.ofNat (unhex a * 16 + unhex b) :: u)
        else none
      | _ => none
    else if c = '+' then (QueryUnescape t).map (fun u => ' ' :: u)
    else (QueryUnescape t).map (fun u => c :: u)

/-- The pieces of a query between its `&` separators. -/
def splitAmp : GoString → List GoString
  | [] => [[]]
  | c :: t =>
    if c = '&' then [] :: splitAmp t
    else match splitAmp t with
      | [] => [[c]]
      | piece :: rest => (c :: piece) :: rest

/-- Type `url.Values`, as the list of its (key, value) pairs in the order in which
`parseQuery` appends them. -/
abbrev Values := List (GoString × GoString)

/-- Method `Values.Get`: the first value of `key`, or the empty string. -/
def Values.Get : Values → GoString → GoString
  | [], _ => []
  | (k, v) :: rest, key => if k = key then v else Values.Get rest key

/-- Method `Values.Has`: whether `key` has a value. -/
def Values.Has : Values → GoString → Bool
  | [], _ => false
  | (k, _) :: rest, key => k = key || Values.Has rest key

/-- The loop of `parseQuery` of `net/url` over the pieces of the query (the loop cuts
one piece off the query at each `&` until the query is empty): a piece with a `;`
or with an invalid escape is an error and is skipped, an empty piece is skipped, any
other piece is cut at its first `=` into a key and a value, both unescaped. The
result is the values and whether an error was met. -/
def parseQueryLoop : List GoString → Values × Bool
  | [] => ([], false)
  | piece :: rest =>
    if piece.contains ';' then ((parseQueryLoop rest).1, true)
    else if piece = [] then parseQueryLoop rest
    else
      match QueryUnescape (Cut '=' piece).1 with
      | none => ((parseQueryLoop rest).1, true)
      | some key =>
        match QueryUnescape (Cut '=' piece).2.1 with
        | none => ((parseQueryLoop rest).1, true)
        | some value => ((key, value) :: (parseQueryLoop rest).1, (parseQueryLoop rest).2)

/-- Function `url.ParseQuery`: the values parsed, and whether `err != nil`. -/
def ParseQuery (query : GoString) : Values × Bool :=
  parseQueryLoop (splitAmp query)

/-- The verb `%d` of `fmt.Sprintf`: the decimal form of an integer. -/
def formatInt : Int → GoString
  | Int.ofNat n => Nat.toDigits 10 n
  | Int.negSucc n => '-' :: Nat.toDigits 10 (n + 1)

/-- The key `per_page`. -/
def perPageKey : GoString := "per_page".toList

/-- Whether the map `params` has the key `key`. -/
def hasKey {α : Type} (params : List (GoString × α)) (key : GoString) : Bool :=
  params.any (fun kv => kv.1 = key)

/-- Function `addPerPage`. The map `params` is the list of its entries. -/
def addPerPage {α : Type} (p : GoString) (perPage : Int) (params : List (GoString × α)) :
    GoString :=
  -- if _, hasPerPage := params["per_page"]; hasPerPage { return p }
  if hasKey params perPageKey then p
  else
    let idx := IndexRune p '?'
    if idx ≥ 0 then
      -- if qp, err := url.ParseQuery(p[idx+1:]); err == nil && qp.Get("per_page") != "" { return p }
      let qp := ParseQuery (p.drop (idx + 1).toNat)
      if qp.2 = false ∧ qp.1.Get perPageKey ≠ [] then p
      else p ++ "&".toList ++ "per_page=".toList ++ formatInt perPage
    else p ++ "?".toList ++ "per_page=".toList ++ formatInt perPage

/-- The characters `%d` can produce. -/
def isIntChar (c : Char) : Bool := c.isDigit || c = '-'

/-- The query string of a path: the text after its first `?` (empty if it has none). -/
def queryOf (p : GoString) : GoString := (Cut '?' p).2.1

/-- The number of values the key `key` has. -/
def Values.count (vs : Values) (key : GoString) : Nat :=
  (vs.filter (fun kv => kv.1 = key)).length

/-! ## `findEndCursor` -/

/-- A value returned by `(*json.Decoder).Token`: a delimiter (`json.Delim`, one of
`[`, `]`, `{`, `}`), a string, a boolean, a number or `nil`. -/
inductive Token where
  | delim (c : Char)
  | str (s : GoString)
  | bool (b : Bool)
  | num (text : GoString)
  | null
  deriving DecidableEq, Repr

/-- The local variables of `findEndCursor`. The slice `stack` is kept with its last
element first: `stack[len(stack)-1]` is the head of the list. -/
structure Walker where
  idx : Nat := 0
  stack : List Char := []
  lastKey : GoString := []
  contextKey : GoString := []
  endCursor : GoString := []
  hasNextPage : Bool := false
  foundEndCursor : Bool := false
  foundNextPage : Bool := false
  deriving DecidableEq, Repr

/-- What the body of the loop of `findEndCursor` does with one token: the loop goes on
(`next`), the loop is left by `break loop` (`stop`), or the slice expression
`stack[:len(stack)-1]` is out of range (`panic`). -/
inductive Step where
  | next (w : Walker)
  | stop (w : Walker)
  | panic
  deriving DecidableEq, Repr

/-- The key `pageInfo`. -/
def pageInfoKey : GoString := "pageInfo".toList
/-- The key `endCursor`. -/
def endCursorKey : GoString := "endCursor".toList
/-- The key `hasNextPage`. -/
def hasNextPageKey : GoString := "hasNextPage".toList

/-- The `switch` on the token `t` in the loop of `findEndCursor`. -/
def step (w : Walker) (t : Token) : Step :=
  match t with
  | Token.delim c =>
    if c = '{' ∨ c = '[' then
      -- stack = append(stack, tt); contextKey = lastKey; idx = 0
      Step.next { w with stack := c :: w.stack, contextKey := w.lastKey, idx := 0 }
    else if c = '}' ∨ c = ']' then
      -- stack = stack[:len(stack)-1]; contextKey = ""; idx = 0
      match w.stack with
      | [] => Step.panic
      | _ :: below => Step.next { w with stack := below, contextKey := [], idx := 0 }
    else Step.next w
  | Token.str s =>
    -- isKey := len(stack) > 0 && stack[len(stack)-1] == '{' && idx%2 == 0; idx++
    let isKey : Bool := decide (w.stack.length > 0) && w.stack.head? == some '{'
      && decide (w.idx % 2 = 0)
    let w1 := { w with idx := w.idx + 1 }
    if isKey then Step.next { w1 with lastKey := s }
    else if w.contextKey = pageInfoKey ∧ w.lastKey = endCursorKey then
      -- endCursor = tt; foundEndCursor = true; if foundNextPage { break loop }
      let w2 := { w1 with endCursor := s, foundEndCursor := true }
      if w.foundNextPage then Step.stop w2 else Step.next w2
    else Step.next w1
  | Token.bool b =>
    let w1 := { w with idx := w.idx + 1 }
    if w.contextKey = pageInfoKey ∧ w.lastKey = hasNextPageKey then
      -- hasNextPage = tt; foundNextPage = true; if foundEndCursor { break loop }
      let w2 := { w1 with hasNextPage := b, foundNextPage := true }
      if w.foundEndCursor then Step.stop w2 else Step.next w2
    else Step.next w1
  | _ => Step.next { w with idx := w.idx + 1 }

/-- The loop of `findEndCursor` over the tokens the decoder yields. -/
def walk : Walker → List Token → Step
  | w, [] => Step.next w
  | w, t :: ts =>
    match step w t with
    | Step.next w1 => walk w1 ts
    | Step.stop w1 => Step.stop w1
    | Step.panic => Step.panic

/-- The end of `findEndCursor`: `if hasNextPage { return endCursor }; return ""`. -/
def Walker.result (w : Walker) : GoString :=
  if w.hasNextPage then w.endCursor else []

/-- Function `findEndCursor` on the stream of the decoder: the tokens `dec.Token()`
returns, after which it returns `io.EOF` (`failed = false`) or another error
(`failed = true`). The result `none` is a run-time panic. -/
def findEndCursor (tokens : List Token) (failed : Bool) : Option GoString :=
  match walk {} tokens with
  | Step.panic => none
  | Step.stop w => some w.result
  | Step.next w => if failed then some [] else some w.result

mutual
/-- A JSON document. -/
inductive JSON where
  | null
  | bool (b : Bool)
  | num (text : GoString)
  | str (s : GoString)
  | arr (elems : Elems)
  | obj (members : Members)
/-- The elements of an array. -/
inductive Elems where
  | nil
  | cons (v : JSON) (rest : Elems)
/-- The members of an object. -/
inductive Members where
  | nil
  | cons (key : GoString) (v : JSON) (rest : Members)
end

mutual
/-- The tokens `dec.Token()` returns for a document: the delimiters, the keys and the
scalar values in order (commas and colons are not tokens). -/
def JSON.tokens : JSON → List Token
  | JSON.null => [Token.null]
  | JSON.bool b => [Token.bool b]
  | JSON.num t => [Token.num t]
  | JSON.str s => [Token.str s]
  | JSON.arr es => Token.delim '[' :: (es.tokens ++ [Token.delim ']'])
  | JSON.obj ms => Token.delim '{' :: (ms.tokens ++ [Token.delim '}'])
/-- The tokens of the elements of an array. -/
def Elems.tokens : Elems → List Token
  | Elems.nil => []
  | Elems.cons v rest => v.tokens ++ rest.tokens
/-- The tokens of the members of an object. -/
def Members.tokens : Members → List Token
  | Members.nil => []
  | Members.cons k v rest => Token.str k :: (v.tokens ++ rest.tokens)
end

/-- Whether a value is a scalar. -/
def JSON.isScalar : JSON → Bool
  | JSON.arr _ => false
  | JSON.obj _ => false
  | _ => true

mutual
/-- No object of the document has a key `pageInfo`. -/
def JSON.quiet : JSON → Bool
  | JSON.arr es => es.quiet
  | JSON.obj ms => ms.quiet
  | _ => true
/-- No object of the elements has a key `pageInfo`. -/
def Elems.quiet : Elems → Bool
  | Elems.nil => true
  | Elems.cons v rest => v.quiet && rest.quiet
/-- No key `pageInfo` among the members or inside their values. -/
def Members.quiet : Members → Bool
  | Members.nil => true
  | Members.cons k v rest => k != pageInfoKey && v.quiet && rest.quiet
end

/-- The value is the string `c`. -/
def JSON.isStr (c : GoString) : JSON → Bool
  | JSON.str s => decide (s = c)
  | _ => false

/-- The value is the boolean `b`. -/
def JSON.isBool (b : Bool) : JSON → Bool
  | JSON.bool x => decide (x = b)
  | _ => false

/-- The members of a `pageInfo` object: `hasNextPage` is the boolean `b` and
`endCursor` the string `c` (in either order, each met once before both are known),
and every member before and between them is a scalar. `sc` and `sn` tell whether
`endCursor` and `hasNextPage` were met already. -/
def Members.pageInfo (b : Bool) (c : GoString) : Bool → Bool → Members → Bool
  | _, _, Members.nil => false
  | sc, sn, Members.cons k v rest =>
    if k = endCursorKey then
      !sc && v.isStr c && (sn || Members.pageInfo b c true sn rest)
    else if k = hasNextPageKey then
      !sn && v.isBool b && (sc || Members.pageInfo b c sc true rest)
    else v.isScalar && Members.pageInfo b c sc sn rest

/-- The value is an object with the members of a `pageInfo` object. -/
def JSON.isPageInfo (b : Bool) (c : GoString) : JSON → Bool
  | JSON.obj ms => Members.pageInfo b c false false ms
  | _ => false

mutual
/-- The first key `pageInfo` of the document, in document order, has as its value an
object with the members `hasNextPage = b` and `endCursor = c`, in the sense of
`Members.pageInfo`. The object may sit at any depth, under objects and in arrays. -/
def JSON.hasPageInfo (b : Bool) (c : GoString) : JSON → Bool
  | JSON.arr es => es.hasPageInfo b c
  | JSON.obj ms => ms.hasPageInfo b c
  | _ => false
/-- The same for the elements of an array. -/
def Elems.hasPageInfo (b : Bool) (c : GoString) : Elems → Bool
  | Elems.nil => false
  | Elems.cons v rest => if v.quiet then rest.hasPageInfo b c else v.hasPageInfo b c
/-- The same for the members of an object. -/
def Members.hasPageInfo (b : Bool) (c : GoString) : Members → Bool
  | Members.nil => false
  | Members.cons k v rest =>
    if k = pageInfoKey then v.isPageInfo b c
    else if v.quiet then rest.hasPageInfo b c else v.hasPageInfo b c
end

/-- The walker is not in, and not about to enter, a `pageInfo` context. -/
def Walker.Calm (w : Walker) : Prop :=
  w.lastKey ≠ pageInfoKey ∧ w.contextKey ≠ pageInfoKey

/-- Walker `w1` has the stack and the findings of `w`. -/
def Walker.Same (w w1 : Walker) : Prop :=
  w1.stack = w.stack ∧ w1.endCursor = w.endCursor ∧ w1.hasNextPage = w.hasNextPage
    ∧ w1.foundEndCursor = w.foundEndCursor ∧ w1.foundNextPage = w.foundNextPage

/-- The next token is in value position: in an object, a key came just before it. -/
def Walker.ValPos (w : Walker) : Prop :=
  w.stack.head? = some '{' → w.idx % 2 = 1

/-- The next token is in key position, if the walker is in an object. -/
def Walker.KeyPos (w : Walker) : Prop :=
  w.stack.head? = some '{' → w.idx % 2 = 0

/-- The elements `es` followed by the elements `fs`. -/
def Elems.append : Elems → Elems → Elems
  | Elems.nil, fs => fs
  | Elems.cons v es, fs => Elems.cons v (es.append fs)

/-- The members `ms` followed by the members `ns`. -/
def Members.append : Members → Members → Members
  | Members.nil, ns => ns
  | Members.cons k v ms, ns => Members.cons k v (ms.append ns)

/-- The elements of a list. -/
def Elems.ofList : List JSON → Elems
  | [] => Elems.nil
  | v :: vs => Elems.cons v (Elems.ofList vs)

/-- The members of a list of keys and values. -/
def Members.ofList : List (String × JSON) → Members
  | [] => Members.nil
  | (k, v) :: kvs => Members.cons k.toList v (Members.ofList kvs)

/-- One level of nesting around a value: the value is an element of an array, with
the elements before and after it, or the value of the key `key` of an object, with
the members before and after it. -/
inductive Frame where
  | inArr (before after : Elems)
  | inObj (before : Members) (key : GoString) (after : Members)

/-- The array or object of a frame around the value `v`. -/
def Frame.plug : Frame → JSON → JSON
  | Frame.inArr before after, v => JSON.arr (before.append (Elems.cons v after))
  | Frame.inObj before key after, v => JSON.obj (before.append (Members.cons key v after))

/-- The document made of the frames `fs`, outermost first, around the value `v`. -/
def plug : List Frame → JSON → JSON
  | [], v => v
  | f :: fs, v => f.plug (plug fs v)

/-- Nothing before the framed value has a key `pageInfo`, and the key of the framed
value is not `pageInfo`. -/
def Frame.ok : Frame → Bool
  | Frame.inArr before _ => before.quiet
  | Frame.inObj before key _ => before.quiet && key != pageInfoKey

/-- The document `{"pageInfo":{"edges":[],"hasNextPage":true,"endCursor":"c"}}`. -/
def docArrayMember : JSON :=
  JSON.obj (Members.ofList [("pageInfo", JSON.obj (Members.ofList [
    ("edges", JSON.arr Elems.nil), ("hasNextPage", JSON.bool true),
    ("endCursor", JSON.str "c".toList)]))])

/-- The document `[{"pageInfo":null},{"endCursor":"x","hasNextPage":true}]`. -/
def docStaleKey : JSON :=
  JSON.arr (Elems.ofList [
    JSON.obj (Members.ofList [("pageInfo", JSON.null)]),
    JSON.obj (Members.ofList [("endCursor", JSON.str "x".toList),
      ("hasNextPage", JSON.bool true)])])

/-- The document
`{"data":{"search":{"pageInfo":{"facets":{},"hasNextPage":true,"endCursor":"c"}}}}`. -/
def docObjectMember : JSON :=
  JSON.obj (Members.ofList [("data", JSON.obj (Members.ofList [("search",
    JSON.obj (Members.ofList [("pageInfo", JSON.obj (Members.ofList [
      ("facets", JSON.obj Members.nil), ("hasNextPage", JSON.bool true),
      ("endCursor", JSON.str "c".toList)]))]))]))])

/-- The document
`{"nodes":[{"id":1,"pageInfo":null},{"endCursor":CURSOR,"hasNextPage":true}]}`. -/
def docSibling (cursor : String) : JSON :=
  JSON.obj (Members.ofList [("nodes", JSON.arr (Elems.ofList [
    JSON.obj (Members.ofList [("id", JSON.num "1".toList), ("pageInfo", JSON.null)]),
    JSON.obj (Members.ofList [("endCursor", JSON.str cursor.toList),
      ("hasNextPage", JSON.bool true)])]))])

/-- The document `{"nodes":[{"id":1,"pageInfo":null}]}`. -/
def docNoSibling : JSON :=
  JSON.obj (Members.ofList [("nodes", JSON.arr (Elems.ofList [
    JSON.obj (Members.ofList [("id", JSON.num "1".toList), ("pageInfo", JSON.null)])]))])

/-- The document
`{"data":{"repository":{"issues":{"nodes":[{"number":1}],"pageInfo":{"hasNextPage":B,"endCursor":"Y3Vyc29y"}}}}}`. -/
def docIssues (b : Bool) : JSON :=
  JSON.obj (Members.ofList [("data", JSON.obj (Members.ofList [("repository",
    JSON.obj (Members.ofList [("issues", JSON.obj (Members.ofList [
      ("nodes", JSON.arr (Elems.ofList [JSON.obj (Members.ofList [("number", JSON.num "1".toList)])])),
      ("pageInfo", JSON.obj (Members.ofList [("hasNextPage", JSON.bool b),
        ("endCursor", JSON.str "Y3Vyc29y".toList)]))]))]))]))])

/-- The frames of the `comments` object in the document
`{"data":{"nodes":[{"id":1},{"title":"t","comments":COMMENTS}]}}`. -/
def commentsFrames : List Frame :=
  [Frame.inObj Members.nil "data".toList Members.nil,
   Frame.inObj Members.nil "nodes".toList Members.nil,
   Frame.inArr (Elems.ofList [JSON.obj (Members.ofList [("id", JSON.num "1".toList)])]) Elems.nil,
   Frame.inObj (Members.ofList [("title", JSON.str "t".toList)]) "comments".toList Members.nil]

/-- The members
`"startCursor":"s","hasNextPage":true,"hasPreviousPage":false,"endCursor":"e"`. -/
def commentsInfo : Members :=
  Members.ofList [("startCursor", JSON.str "s".toList), ("hasNextPage", JSON.bool true),
    ("hasPreviousPage", JSON.bool false), ("endCursor", JSON.str "e".toList)]

/-- The members `"nodes":[{"pageInfo":{"hasNextPage":true,"endCursor":"z"}}]`. -/
def commentsAfter : Members :=
  Members.ofList [("nodes", JSON.arr (Elems.ofList [JSON.obj (Members.ofList [
    ("pageInfo", JSON.obj (Members.ofList [("hasNextPage", JSON.bool true),
      ("endCursor", JSON.str "z".toList)]))])]))]

/-! ## `findNextPage` -/

/-- The character `"`. -/
def dquote : Char := Char.ofNat 34

/-- The class `\s` of Go regular expressions: tab, line feed, form feed, carriage
return and space. -/
def isSpaceRE (c : Char) : Bool :=
  c = Char.ofNat 9 || c = Char.ofNat 10 || c = Char.ofNat 12 || c = Char.ofNat 13 || c = ' '

/-- The text `rel="`. -/
def relOpen : GoString := "rel=".toList ++ [dquote]

/-- The text left of `s` after the literal `lit`, if `s` starts with it. -/
def stripLiteral : GoString → GoString → Option GoString
  | [], s => some s
  | _ :: _, [] => none
  | a :: lit, c :: s => if a = c then stripLiteral lit s else none

/-- A match of `linkRE`, the expression `<([^>]+)>;\s*rel="([^"]+)"`, at the start
of `s`: the two submatches and the text after the match. Each repetition is
followed by a character outside of its class, so that there is at most one match at
a given start: `<`, the characters up to the next `>` (at least one), `>;`, the
white space that follows, `rel="`, the characters up to the next `"` (at least
one), and that `"`. -/
def matchLinkRE (s : GoString) : Option (GoString × GoString × GoString) :=
  match s with
  | '<' :: s1 =>
    let url := Cut '>' s1
    if url.2.2 = true ∧ url.1 ≠ [] then
      match url.2.1 with
      | ';' :: s3 =>
        match stripLiteral relOpen (s3.dropWhile isSpaceRE) with
        | some s5 =>
          let rel := Cut dquote s5
          if rel.2.2 = true ∧ rel.1 ≠ [] then some (url.1, rel.1, rel.2.1) else none
        | none => none
      | _ => none
    else none
  | _ => none

/-- The successive non-overlapping matches of `linkRE` in a text, leftmost first
(`linkRE.FindAllStringSubmatch(s, -1)`), each given by its two submatches. The
number `skip` counts the characters of the current match still to pass over. -/
def findAllLinks : Nat → GoString → List (GoString × GoString)
  | _, [] => []
  | skip + 1, _ :: t => findAllLinks skip t
  | 0, c :: t =>
    match matchLinkRE (c :: t) with
    | some m => (m.1, m.2.1) :: findAllLinks ((c :: t).length - m.2.2.length - 1) t
    | none => findAllLinks 0 t

/-- The loop of `findNextPage` over the matches. -/
def firstNext : List (GoString × GoString) → GoString × Bool
  | [] => ([], false)
  | m :: ms => if m.2 = "next".toList then (m.1, true) else firstNext ms

/-- Function `findNextPage`, as a function of `resp.Header.Get("Link")` (the empty
string when the header is absent). -/
def findNextPage (link : GoString) : GoString × Bool :=
  firstNext (findAllLinks 0 link)

/-- An entry of a `Link` header: a target and its parameters, written
`<target>; name="value"; ...`. -/
structure LinkValue where
  target : GoString
  params : List (GoString × GoString)

/-- The text `; name="value"` of a parameter. -/
def renderParam (p : GoString × GoString) : GoString :=
  "; ".toList ++ p.1 ++ "=".toList ++ [dquote] ++ p.2 ++ [dquote]

/-- The text of an entry. -/
def LinkValue.render (l : LinkValue) : GoString :=
  "<".toList ++ l.target ++ ">".toList ++ (l.params.map renderParam).flatten

/-- The text of a header: its entries separated by `, `. -/
def renderLinks : List LinkValue → GoString
  | [] => []
  | [l] => l.render
  | l :: ls => l.render ++ ", ".toList ++ renderLinks ls

/-- The relation type of an entry: the value of its first parameter `rel`. -/
def LinkValue.rel (l : LinkValue) : GoString :=
  match l.params.find? (fun p => p.1 = "rel".toList) with
  | some p => p.2
  | none => []

/-- What the header says the next page is: the target of the first entry whose
relation type is `next`, if there is one. -/
def nextOfLinks : List LinkValue → GoString × Bool
  | [] => ([], false)
  | l :: ls => if l.rel = "next".toList then (l.target, true) else nextOfLinks ls

/-- The parameters of an entry `findNextPage` reads: `rel` comes first, with a
non-empty value without `"`, and no `<` occurs in the parameters after it. -/
def plainParams : List (GoString × GoString) → Bool
  | [] => false
  | p :: more =>
    decide (p.1 = "rel".toList) && !p.2.isEmpty && !p.2.contains dquote
      && more.all (fun q => !q.1.contains '<' && !q.2.contains '<')

/-- An entry `findNextPage` reads: a non-empty target without `>`, and parameters
as in `plainParams`. -/
def LinkValue.plain (l : LinkValue) : Bool :=
  !l.target.isEmpty && !l.target.contains '>' && plainParams l.params

/-- The header `<https://api.github.com/r?page=2>; title="x"; rel="next"`. -/
def relSecond : List LinkValue :=
  [⟨"https://api.github.com/r?page=2".toList,
    [("title".toList, "x".toList), ("rel".toList, "next".toList)]⟩]

/-- The header
`<https://api.github.com/r?page=1>; rel="prev", <https://api.github.com/r?page=3>; rel="next"; title="x", <https://api.github.com/r?page=9>; rel="last"`. -/
def threeLinks : List LinkValue :=
  [⟨"https://api.github.com/r?page=1".toList, [("rel".toList, "prev".toList)]⟩,
   ⟨"https://api.github.com/r?page=3".toList,
     [("rel".toList, "next".toList), ("title".toList, "x".toList)]⟩,
   ⟨"https://api.github.com/r?page=9".toList, [("rel".toList, "last".toList)]⟩]

/-- The text `linkRE` matches for a target and a relation type:
`<target>; rel="rel"`. -/
def linkText (target rel : GoString) : GoString :=
  "<".toList ++ target ++ ">".toList ++ "; ".toList ++ relOpen ++ rel ++ [dquote]

/-! ## The token decoder and the wrapped reader -/

/-- The stack of open delimiters of the decoder after a closing delimiter whose
opening one is `opener`: `none` when the innermost open delimiter is not `opener`
(the decoder then returns an error in place of the delimiter). -/
def popDelim (opener : Char) : List Char → Option (List Char)
  | [] => none
  | top :: below => if top = opener then some below else none

/-- The delimiters that `(*json.Decoder).Token` has returned and that are not closed
yet (the innermost first) after it returned `tokens`, when `stack` were open
before; `none` when a closing delimiter does not match the innermost open one.
The decoder of `encoding/json` returns an error in place of such a delimiter
("Token guarantees that the delimiters it returns will be properly nested and
matched"), and a `json.Delim` is one of the four delimiters. -/
def openDelims : List Char → List Token → Option (List Char)
  | stack, [] => some stack
  | stack, Token.delim c :: ts =>
    if c = '{' ∨ c = '[' then openDelims (c :: stack) ts
    else if c = '}' then
      match popDelim '{' stack with
      | some below => openDelims below ts
      | none => none
    else if c = ']' then
      match popDelim '[' stack with
      | some below => openDelims below ts
      | none => none
    else none
  | stack, Token.str _ :: ts => openDelims stack ts
  | stack, Token.bool _ :: ts => openDelims stack ts
  | stack, Token.num _ :: ts => openDelims stack ts
  | stack, Token.null :: ts => openDelims stack ts

/-- Both values, `endCursor` and `hasNextPage`, have been found. -/
def Walker.foundBoth (w : Walker) : Bool := w.foundEndCursor && w.foundNextPage

/-- The state of a `paginatedArrayReader` after a sequence of `Read` calls, one for
each buffer length of `bufs`, whatever the calls return. -/
def afterReads {σ : Type} (rd : IOReader σ) :
    paginatedArrayReader σ → List Nat → paginatedArrayReader σ
  | r, [] => r
  | r, len :: bufs => afterReads rd (paginatedArrayReader.Read rd r len).2.2 bufs

/-- Whether a `Read` with a buffer of length `len` rewrites the first byte of what the
wrapped reader gave it: the test
`!r.isSubsequentRead && !r.isFirstPage && n > 0 && p[0] == '['`. -/
def rewritesHead {σ : Type} (rd : IOReader σ) (r : paginatedArrayReader σ) (len : Nat) : Bool :=
  (!r.isSubsequentRead && !r.isFirstPage) && decide ((rawBuf rd r len).length > 0)
    && (rawBuf rd r len)[0]? == some bOpen

/-- A read loop on the wrapped reader itself: one `Read` per buffer length of `bufs`,
until a `Read` returns an error; the bytes delivered, the error and the state of the
reader after it. -/
def innerLoop {σ : Type} (rd : IOReader σ) : σ → List Nat → List Byte × Option IOError × σ
  | s, [] => ([], none, s)
  | s, len :: bufs =>
    match (rd.Read s len).2.1 with
    | some e => ((rd.Read s len).1, some e, (rd.Read s len).2.2)
    | none =>
      ((rd.Read s len).1 ++ (innerLoop rd (rd.Read s len).2.2 bufs).1,
        (innerLoop rd (rd.Read s len).2.2 bufs).2.1,
        (innerLoop rd (rd.Read s len).2.2 bufs).2.2)

end CmdApi

/-!
Result walkers of `pkg/cmd/cache/shared/shared.go` (`GetCaches`) and of
`pkg/cmd/repo/list/http.go` (`listRepos`, `searchRepos`).

A server is a function from the request (the path of a REST request, the
`endCursor` variable of a GraphQL request) to the response or the error of the
call. The loops take a bound `fuel` on the number of requests; `none` is a walk
that needs more requests than `fuel`.
-/

namespace Walkers

open CmdApi

/-- A Go `error` value. -/
abbrev GoError := String

/-- What a call of a Go function with the results `(*T, error)` does: it returns its
two results (`none` is `nil`), or it panics. -/
inductive Outcome (α : Type) where
  | returned (result : Option α) (err : Option GoError)
  | panic
  deriving DecidableEq, Repr

/-- A finished walk: what the function did, and the number of requests it sent. -/
structure Run (α : Type) where
  outcome : Outcome α
  requests : Nat
  deriving DecidableEq, Repr

/-! ### `GetCaches` -/

/-- Type `Cache`; the two times are kept as numbers. -/
structure Cache where
  CreatedAt : Int
  Id : Int
  Key : GoString
  LastAccessedAt : Int
  Ref : GoString
  SizeInBytes : Int
  Version : GoString
  deriving DecidableEq, Repr

/-- Type `CachePayload`. -/
structure CachePayload where
  ActionsCaches : List Cache
  TotalCount : Int
  deriving DecidableEq, Repr

/-- Type `GetCachesOptions`; the field `Sort` is named `SortField` here. -/
structure GetCachesOptions where
  Limit : Int
  Order : GoString
  SortField : GoString

/-- Method `client.RESTWithNext` for the `GET` requests of `GetCaches`: for a path,
the decoded response and the path of the next page (empty when there is none), or
the error. -/
abbrev RESTWithNext := GoString → Except GoError (CachePayload × GoString)

/-- The path of the first request of `GetCaches`, for the repository `fullName`
(`ghrepo.FullName(repo)`). -/
def GetCaches.firstPath (fullName : GoString) (opts : GetCachesOptions) : GoString :=
  -- perPage := 100; if opts.Limit > 0 && opts.Limit < 100 { perPage = opts.Limit }
  let perPage : Int := if opts.Limit > 0 ∧ opts.Limit < 100 then opts.Limit else 100
  let path := "repos/".toList ++ fullName ++ "/actions/caches".toList
    ++ "?per_page=".toList ++ formatInt perPage
  let path := if opts.SortField ≠ [] then path ++ "&sort=".toList ++ opts.SortField else path
  if opts.Order ≠ [] then path ++ "&direction=".toList ++ opts.Order else path

/-- The loop `for path != ""` of `GetCaches`; `sent` counts the requests. -/
def GetCaches.loop (client : RESTWithNext) (opts : GetCachesOptions) :
    Nat → GoString → Option CachePayload → Nat → Option (Run CachePayload)
  | 0, path, result, sent =>
    if path = [] then some ⟨Outcome.returned result none, sent⟩ else none
  | fuel + 1, path, result, sent =>
    if path = [] then some ⟨Outcome.returned result none, sent⟩
    else
      match client path with
      | Except.error err => some ⟨Outcome.returned none (some err), sent + 1⟩
      | Except.ok (response, next) =>
        -- if result == nil { result = &response } else { result.ActionsCaches = append(...) }
        let result1 : CachePayload :=
          match result with
          | none => response
          | some r => { r with ActionsCaches := r.ActionsCaches ++ response.ActionsCaches }
        -- if opts.Limit > 0 && len(result.ActionsCaches) >= opts.Limit { ...; break pagination }
        if opts.Limit > 0 ∧ (result1.ActionsCaches.length : Int) ≥ opts.Limit then
          some ⟨Outcome.returned
            (some { result1 with
              ActionsCaches := result1.ActionsCaches.take opts.Limit.toNat }) none, sent + 1⟩
        else GetCaches.loop client opts fuel next (some result1) (sent + 1)

/-- Function `GetCaches`. -/
def GetCaches (fuel : Nat) (client : RESTWithNext) (fullName : GoString)
    (opts : GetCachesOptions) : Option (Run CachePayload) :=
  GetCaches.loop client opts fuel (GetCaches.firstPath fullName opts) none 0

/-- The caches of a list of pages, in order. -/
def cachesOf (pages : List CachePayload) : List Cache :=
  (pages.map (fun p => p.ActionsCaches)).flatten

/-- The pages the server gives from `path` on, until it gives no next path. -/
inductive RestPages (client : RESTWithNext) : GoString → List CachePayload → Prop where
  | last {path : GoString} {page : CachePayload} :
      client path = Except.ok (page, []) → RestPages client path [page]
  | more {path next : GoString} {page : CachePayload} {pages : List CachePayload} :
      client path = Except.ok (page, next) → next ≠ [] → RestPages client next pages →
      RestPages client path (page :: pages)

/-- The pages the server gives from `path` on, each with a next path, up to the path
`stop`. -/
inductive RestPrefix (client : RESTWithNext) : GoString → List CachePayload → GoString → Prop where
  | nil {path : GoString} : RestPrefix client path [] path
  | cons {path next stop : GoString} {page : CachePayload} {pages : List CachePayload} :
      client path = Except.ok (page, next) → next ≠ [] → RestPrefix client next pages stop →
      RestPrefix client path (page :: pages) stop

/-! ### `listRepos` and `searchRepos` -/

/-- Type `api.Repository`, declared outside of the files at hand: `NameWithOwner` is
the only field read here, `ID` stands for the others. -/
structure Repository where
  ID : GoString
  NameWithOwner : GoString
  deriving DecidableEq, Repr

/-- Type `RepositoryList`. -/
structure RepositoryList where
  Owner : GoString := []
  Repositories : List Repository := []
  TotalCount : Int := 0
  FromSearch : Bool := false
  deriving DecidableEq, Repr

/-- Type `FilterOptions`. -/
structure FilterOptions where
  Visibility : GoString := []
  Fork : Bool := false
  Source : Bool := false
  Language : GoString := []
  Topic : List GoString := []
  Archived : Bool := false
  NonArchived : Bool := false
  Fields : List GoString := []

/-- The local type `result` of `listRepos`: a decoded response. -/
structure ListResult where
  Login : GoString
  Nodes : List Repository
  TotalCount : Int
  HasNextPage : Bool
  EndCursor : GoString

/-- The local type `result` of `searchRepos`: a decoded response. -/
structure SearchResult where
  RepositoryCount : Int
  Nodes : List Repository
  HasNextPage : Bool
  EndCursor : GoString

/-- Method `apiClient.GraphQL` for the two queries: the response, or the error, as a
function of the variable `endCursor` (`none` while it is not set). The query and
the other variables do not change during a walk. -/
structure GraphQLClient where
  list : Option GoString → Except GoError ListResult
  search : Option GoString → Except GoError SearchResult

/-- The loop over `owner.Repositories.Nodes` in `listRepos`: the repositories after
it, and whether it ended with `break pagination`. -/
def listNodes (limit : Int) : List Repository → List Repository → List Repository × Bool
  | [], repos => (repos, false)
  | repo :: rest, repos =>
    -- listResult.Repositories = append(listResult.Repositories, repo)
    -- if len(listResult.Repositories) >= limit { break pagination }
    if ((repos ++ [repo]).length : Int) ≥ limit then (repos ++ [repo], true)
    else listNodes limit rest (repos ++ [repo])

/-- The loop over `result.Search.Nodes` in `searchRepos`: the list after it and
whether it ended with `break pagination`; `none` when the slice expression
`repo.NameWithOwner[:idx]` is out of range. -/
def searchNodes (limit : Int) : List Repository → RepositoryList → Option (RepositoryList × Bool)
  | [], listResult => some (listResult, false)
  | repo :: rest, listResult =>
    -- if listResult.Owner == "" && repo.NameWithOwner != "" {
    --     idx := strings.IndexRune(repo.NameWithOwner, '/'); listResult.Owner = repo.NameWithOwner[:idx] }
    let owner : Option GoString :=
      if listResult.Owner = [] ∧ repo.NameWithOwner ≠ [] then
        if IndexRune repo.NameWithOwner '/' < 0 then none
        else some (repo.NameWithOwner.take (IndexRune repo.NameWithOwner '/').toNat)
      else some listResult.Owner
    match owner with
    | none => none
    | some o =>
      let listResult1 : RepositoryList :=
        { listResult with Owner := o, Repositories := listResult.Repositories ++ [repo] }
      if (listResult1.Repositories.length : Int) ≥ limit then some (listResult1, true)
      else searchNodes limit rest listResult1

/-- The loop `pagination` of `searchRepos`; `sent` counts the requests. -/
def searchRepos.loop (client : GraphQLClient) (limit : Int) :
    Nat → Option GoString → RepositoryList → Nat → Option (Run RepositoryList)
  | 0, _, _, _ => none
  | fuel + 1, endCursor, listResult, sent =>
    match client.search endCursor with
    | Except.error err => some ⟨Outcome.returned none (some err), sent + 1⟩
    | Except.ok result =>
      match searchNodes limit result.Nodes
          { listResult with TotalCount := result.RepositoryCount } with
      | none => some ⟨Outcome.panic, sent + 1⟩
      | some (listResult1, true) => some ⟨Outcome.returned (some listResult1) none, sent + 1⟩
      | some (listResult1, false) =>
        if !result.HasNextPage then some ⟨Outcome.returned (some listResult1) none, sent + 1⟩
        else searchRepos.loop client limit fuel (some result.EndCursor) listResult1 (sent + 1)

/-- Function `searchRepos`. The text of the query and the variables `query` and
`perPage` are left to the client. -/
def searchRepos (fuel : Nat) (client : GraphQLClient) (limit : Int) :
    Option (Run RepositoryList) :=
  searchRepos.loop client limit fuel none { FromSearch := true } 0

/-- The loop `pagination` of `listRepos`; `sent` counts the requests. -/
def listRepos.loop (client : GraphQLClient) (limit : Int) :
    Nat → Option GoString → RepositoryList → Nat → Option (Run RepositoryList)
  | 0, _, _, _ => none
  | fuel + 1, endCursor, listResult, sent =>
    match client.list endCursor with
    | Except.error err => some ⟨Outcome.returned none (some err), sent + 1⟩
    | Except.ok res =>
      -- listResult.TotalCount = owner.Repositories.TotalCount; listResult.Owner = owner.Login
      let listResult1 : RepositoryList :=
        { listResult with TotalCount := res.TotalCount, Owner := res.Login }
      match listNodes limit res.Nodes listResult1.Repositories with
      | (repos, true) =>
        some ⟨Outcome.returned (some { listResult1 with Repositories := repos }) none, sent + 1⟩
      | (repos, false) =>
        if !res.HasNextPage then
          some ⟨Outcome.returned (some { listResult1 with Repositories := repos }) none, sent + 1⟩
        else
          listRepos.loop client limit fuel (some res.EndCursor)
            { listResult1 with Repositories := repos } (sent + 1)

/-- The test of `listRepos` that sends the request to `searchRepos`. -/
def FilterOptions.needsSearch (filter : FilterOptions) : Bool :=
  decide (filter.Language ≠ []) || filter.Archived || filter.NonArchived
    || decide (filter.Topic.length > 0) || decide (filter.Visibility = "internal".toList)

/-- Function `listRepos`. The text of the query and the variables other than
`endCursor` are left to the client. -/
def listRepos (fuel : Nat) (client : GraphQLClient) (limit : Int) (filter : FilterOptions) :
    Option (Run RepositoryList) :=
  if filter.needsSearch then searchRepos fuel client limit
  else listRepos.loop client limit fuel none {} 0

/-- The repositories of a list of pages, in order. -/
def reposOf {ρ : Type} (nodes : ρ → List Repository) (pages : List ρ) : List Repository :=
  (pages.map nodes).flatten

/-- The pages the server gives from the cursor `cur` on, until one has
`hasNextPage = false`. -/
inductive GraphPages {ρ : Type} (fetch : Option GoString → Except GoError ρ)
    (hasNext : ρ → Bool) (endCursor : ρ → GoString) : Option GoString → List ρ → Prop where
  | last {cur : Option GoString} {page : ρ} :
      fetch cur = Except.ok page → hasNext page = false →
      GraphPages fetch hasNext endCursor cur [page]
  | more {cur : Option GoString} {page : ρ} {pages : List ρ} :
      fetch cur = Except.ok page → hasNext page = true →
      GraphPages fetch hasNext endCursor (some (endCursor page)) pages →
      GraphPages fetch hasNext endCursor cur (page :: pages)

/-- The pages the server gives from the cursor `cur` on, each with
`hasNextPage = true`, up to the cursor `stop`. -/
inductive GraphPrefix {ρ : Type} (fetch : Option GoString → Except GoError ρ)
    (hasNext : ρ → Bool) (endCursor : ρ → GoString) :
    Option GoString → List ρ → Option GoString → Prop where
  | nil {cur : Option GoString} : GraphPrefix fetch hasNext endCursor cur [] cur
  | cons {cur stop : Option GoString} {page : ρ} {pages : List ρ} :
      fetch cur = Except.ok page → hasNext page = true →
      GraphPrefix fetch hasNext endCursor (some (endCursor page)) pages stop →
      GraphPrefix fetch hasNext endCursor cur (page :: pages) stop

/-- The caches gathered in `result` (none while `result` is `nil`). -/
def cachesSoFar : Option CachePayload → List Cache
  | none => []
  | some r => r.ActionsCaches

/-- The value of `result` after a response was added to it. -/
def addResponse (result : Option CachePayload) (response : CachePayload) : CachePayload :=
  match result with
  | none => response
  | some r => { r with ActionsCaches := r.ActionsCaches ++ response.ActionsCaches }

/-- The number of repositories at which the loops of `listRepos` and `searchRepos`
stop: `limit`, and one when `limit` is zero or negative (the test
`len(listResult.Repositories) >= limit` follows an `append`). -/
def stopAt (limit : Int) : Nat := (max limit 1).toNat

/-- The slice expression `repo.NameWithOwner[:idx]` of `searchRepos` is in range
whenever it is evaluated for `repo`: the name is empty or has a `/`. -/
def Repository.sliceable (repo : Repository) : Bool :=
  repo.NameWithOwner.isEmpty || repo.NameWithOwner.contains '/'

/-- A cache with the number `id`. -/
def cacheNo (id : Int) : Cache :=
  { CreatedAt := 0, Id := id, Key := [], LastAccessedAt := 0, Ref := [], SizeInBytes := 0,
    Version := [] }

/-- A server with three pages of caches for the repository `O/R`, asked with a limit
of three: caches 1 and 2, then 3 and 4, then 5; the request of the page `p3` fails
when `broken` is set. -/
def cacheServer (broken : Bool) : RESTWithNext := fun path =>
  if path = "repos/O/R/actions/caches?per_page=3".toList then
    Except.ok (⟨[cacheNo 1, cacheNo 2], 5⟩, "p2".toList)
  else if path = "p2".toList then Except.ok (⟨[cacheNo 3, cacheNo 4], 5⟩, "p3".toList)
  else if path = "p3".toList ∧ broken = false then Except.ok (⟨[cacheNo 5], 5⟩, [])
  else Except.error "HTTP 502"

/-- The three pages of `cacheServer`. -/
def cachePages : List CachePayload :=
  [⟨[cacheNo 1, cacheNo 2], 5⟩, ⟨[cacheNo 3, cacheNo 4], 5⟩, ⟨[cacheNo 5], 5⟩]

/-- A server whose first page of caches for the repository `O/R`, asked without a
limit, has the caches 1 and 2 and a link to `p2`; every other request fails. -/
def brokenCacheServer : RESTWithNext := fun path =>
  if path = "repos/O/R/actions/caches?per_page=100".toList then
    Except.ok (⟨[cacheNo 1, cacheNo 2], 5⟩, "p2".toList)
  else Except.error "HTTP 502"

/-- A repository of the owner `octocat` with the name `name`. -/
def repoNamed (name : String) : Repository :=
  { ID := name.toList, NameWithOwner := "octocat/".toList ++ name.toList }

/-- The pages of `repoServer` as answers to the query of `listRepos`. -/
def listPages : List ListResult :=
  [⟨"octocat".toList, [repoNamed "r1", repoNamed "r2"], 5, true, "c1".toList⟩,
   ⟨"octocat".toList, [repoNamed "r3"], 5, true, "c2".toList⟩,
   ⟨"octocat".toList, [repoNamed "r4", repoNamed "r5"], 5, false, []⟩]

/-- The pages of `repoServer` as answers to the query of `searchRepos`. -/
def searchPages : List SearchResult :=
  [⟨5, [repoNamed "r1", repoNamed "r2"], true, "c1".toList⟩,
   ⟨5, [repoNamed "r3"], true, "c2".toList⟩,
   ⟨5, [repoNamed "r4", repoNamed "r5"], false, []⟩]

/-- A server with three pages of repositories: 1 and 2, then 3, then 4 and 5; the
request of the third page fails when `broken` is set. -/
def repoServer (broken : Bool) : GraphQLClient where
  list := fun cur =>
    if cur = none then Except.ok ⟨"octocat".toList, [repoNamed "r1", repoNamed "r2"], 5, true, "c1".toList⟩
    else if cur = some "c1".toList then
      Except.ok ⟨"octocat".toList, [repoNamed "r3"], 5, true, "c2".toList⟩
    else if cur = some "c2".toList ∧ broken = false then
      Except.ok ⟨"octocat".toList, [repoNamed "r4", repoNamed "r5"], 5, false, []⟩
    else Except.error "HTTP 502"
  search := fun cur =>
    if cur = none then Except.ok ⟨5, [repoNamed "r1", repoNamed "r2"], true, "c1".toList⟩
    else if cur = some "c1".toList then Except.ok ⟨5, [repoNamed "r3"], true, "c2".toList⟩
    else if cur = some "c2".toList ∧ broken = false then
      Except.ok ⟨5, [repoNamed "r4", repoNamed "r5"], false, []⟩
    else Except.error "HTTP 502"

/-- The pages the server gives to `listRepos` under `filter`, from the first request
on, as the lists of their nodes: the pages of the search when the filter needs
it, the pages of the owner otherwise. -/
def ServerPages (client : GraphQLClient) (filter : FilterOptions)
    (nodes : List (List Repository)) : Prop :=
  if filter.needsSearch = true then
    ∃ pages, GraphPages client.search SearchResult.HasNextPage SearchResult.EndCursor none pages
      ∧ pages.map SearchResult.Nodes = nodes
  else
    ∃ pages, GraphPages client.list ListResult.HasNextPage ListResult.EndCursor none pages
      ∧ pages.map ListResult.Nodes = nodes

/-! ### The owner of a search result -/

/-- The value of the slice expression `repo.NameWithOwner[:idx]` of `searchRepos`, where
`idx` is `strings.IndexRune(repo.NameWithOwner, '/')`, when it is in range. -/
def ownerPart (repo : Repository) : GoString :=
  repo.NameWithOwner.take (IndexRune repo.NameWithOwner '/').toNat

/-- The owner part of the first of the repositories that has one that is not empty; the
empty string when there is none. -/
def firstOwner (repos : List Repository) : GoString :=
  match repos.find? (fun repo => decide (ownerPart repo ≠ [])) with
  | some repo => ownerPart repo
  | none => []

/-- A server that answers the search with one page that has the repositories `nodes`. -/
def onePageSearch (nodes : List Repository) : GraphQLClient where
  list := fun _ => Except.error "no such query"
  search := fun _ => Except.ok ⟨nodes.length, nodes, false, []⟩

end Walkers

/-!
## The field selection compiler, the metadata lookups and the batch query

The files `api/query_builder.go` and `api/queries_repo.go` are not among the
sources at hand; their tests are. The definitions of this part follow the text
of the specification (§3, §4.2, §4.3) and the values in the tests.
-/

namespace Api

open CmdApi

/-! ### Field selection compiler -/

/-- Modelled from the spec: the two object kinds of the field selection compiler
(§4.2); the file `api/query_builder.go` is missing from the sources. -/
inductive Kind where
  | issue
  | pullRequest
  deriving DecidableEq, Repr

/-- Modelled from the spec: an entry of the table `FieldSpec` (§3), the source of which
(`api/query_builder.go`) is missing: the fragment of a field and the kind outside
of which the field does not exist (`none` when it exists on both). The capability
gate of an entry is left out: the two functions below take the field names only. -/
structure FieldSpec where
  fragment : GoString
  only : Option Kind := none
  deriving DecidableEq, Repr

/-- Modelled from the spec: the table `FieldSpec` (§3) of `api/query_builder.go`, which is
missing: at most one entry for a name. -/
abbrev FieldTable := GoString → Option FieldSpec

/-- Modelled from the spec: whether a field exists on `kind` (§4.2, third item); the code
of `api/query_builder.go` is missing. -/
def FieldSpec.validFor (spec : FieldSpec) (kind : Kind) : Bool :=
  match spec.only with
  | none => true
  | some k => decide (k = kind)

/-- Modelled from the spec: the fragment a field name gives for `kind` (§4.2): none when
the name is absent from the table or exists on the other kind only; the code of
`api/query_builder.go` is missing. -/
def fragmentOf (table : FieldTable) (kind : Kind) (field : GoString) : Option GoString :=
  match table field with
  | none => none
  | some spec => if spec.validFor kind then some spec.fragment else none

/-- Modelled from the spec: the loop over `fields` of the compiler (§4.2), which appends
the fragment of each retained field to `q`; the code of `api/query_builder.go`
is missing. -/
def compileFields (table : FieldTable) (kind : Kind) :
    List GoString → List GoString → List GoString
  | [], q => q
  | field :: rest, q =>
    match fragmentOf table kind field with
    | none => compileFields table kind rest q
    | some fragment => compileFields table kind rest (q ++ [fragment])

/-- Function `strings.Join(elems, sep)`. -/
def Join : List GoString → GoString → GoString
  | [], _ => []
  | [a], _ => a
  | a :: b :: rest, sep => a ++ sep ++ Join (b :: rest) sep

/-- Modelled from the spec: function `IssueGraphQL` of `api/query_builder.go`, which is
missing (§4.2): the fragments of the retained fields, joined with `,`. -/
def IssueGraphQL (table : FieldTable) (fields : List GoString) : GoString :=
  Join (compileFields table Kind.issue fields []) ",".toList

/-- Modelled from the spec: function `PullRequestGraphQL` of `api/query_builder.go`, which
is missing (§4.2): the fragments of the retained fields, joined with `,`. -/
def PullRequestGraphQL (table : FieldTable) (fields : List GoString) : GoString :=
  Join (compileFields table Kind.pullRequest fields []) ",".toList

/-- Modelled from the spec: the names of the fields that exist on issues only (§4.2; test
`invalid fields`); the list, in `api/query_builder.go`, is missing. -/
def issueOnlyFields : List GoString := ["isPinned".toList, "stateReason".toList]

/-- Modelled from the spec: the entries of the table that the spec (§8) and the tests
`TestPullRequestGraphQL` and `TestIssueGraphQL` show; the table itself, in
`api/query_builder.go`, is missing. -/
def fieldTable : FieldTable := fun name =>
  if name = "number".toList then some { fragment := "number".toList }
  else if name = "title".toList then some { fragment := "title".toList }
  else if name = "author".toList then
    some { fragment := "author\x7blogin,...on User\x7bid,name\x7d\x7d".toList }
  else if name = "assignees".toList then
    some { fragment :=
      "assignees(first:100)\x7bnodes\x7bid,login,name\x7d,totalCount\x7d".toList }
  else if name = "files".toList then
    some { fragment :=
      "files(first: 100) \x7bnodes \x7badditions,deletions,path\x7d\x7d".toList }
  else if name = "projectItems".toList then
    some { fragment := ("projectItems(first:100)\x7bnodes\x7bid, project\x7bid,title\x7d, "
      ++ "status:fieldValueByName(name: \"Status\") \x7b ... on "
      ++ "ProjectV2ItemFieldSingleSelectValue\x7boptionId,name\x7d\x7d\x7d,"
      ++ "totalCount\x7d").toList }
  else if name = "isPinned".toList then
    some { fragment := "isPinned".toList, only := some Kind.issue }
  else if name = "stateReason".toList then
    some { fragment := "stateReason".toList, only := some Kind.issue }
  else none

/-! ### Metadata lookups -/

/-- Function `strings.EqualFold`, for the letters of ASCII: the equality that ignores
case ("case-insensitive match", §4.3). -/
def EqualFold (s t : GoString) : Bool :=
  decide (s.map Char.toLower = t.map Char.toLower)

/-- Modelled from the spec: type `RepoAssignee`, of the missing file
`api/queries_repo.go`, with the fields of the test `TestDisplayName`. -/
structure RepoAssignee where
  ID : GoString
  Login : GoString
  Name : GoString := []
  deriving DecidableEq, Repr

/-- Modelled from the spec: type `RepoLabel`, of the missing file `api/queries_repo.go`,
with the fields of the tests of `issue edit`. -/
structure RepoLabel where
  ID : GoString
  Name : GoString
  deriving DecidableEq, Repr

/-- Modelled from the spec: type `RepoProject`, of the missing file
`api/queries_repo.go`, with the fields of the test `Test_ProjectsToPaths`. -/
structure RepoProject where
  ID : GoString
  Name : GoString
  ResourcePath : GoString := []
  deriving DecidableEq, Repr

/-- Modelled from the spec: type `ProjectV2`, of the missing file `api/queries_repo.go`,
with the fields of the test `Test_ProjectsToPaths`. -/
structure ProjectV2 where
  ID : GoString
  Title : GoString
  ResourcePath : GoString := []
  deriving DecidableEq, Repr

/-- Modelled from the spec: a milestone of the metadata result, with the fields `id` and
`title` of the responses in `Test_RepoMetadata`; its type, in
`api/queries_repo.go`, is missing. -/
structure RepoMilestone where
  ID : GoString
  Title : GoString
  deriving DecidableEq, Repr

/-- Modelled from the spec: a team of the metadata result, with the fields `id` and `slug`
of the responses in `Test_RepoMetadata`; its type, in `api/queries_repo.go`, is
missing. -/
structure OrgTeam where
  ID : GoString
  Slug : GoString
  deriving DecidableEq, Repr

/-- Modelled from the spec: type `RepoMetadataResult` (`MetadataResult`, §3), of the
missing file `api/queries_repo.go`: for each kind the candidates in the order of
the responses of the server. -/
structure RepoMetadataResult where
  CurrentLogin : GoString := []
  AssignableUsers : List RepoAssignee := []
  Labels : List RepoLabel := []
  Projects : List RepoProject := []
  ProjectsV2 : List ProjectV2 := []
  Milestones : List RepoMilestone := []
  Teams : List OrgTeam := []
  deriving DecidableEq, Repr

/-- Modelled from the spec: the error of a lookup (§7, item c), which names the input
that could not be resolved; the text of the message, in `api/queries_repo.go`, is
missing. -/
structure NotFound where
  name : GoString
  deriving DecidableEq, Repr

/-- Modelled from the spec: the search for `name` among the candidates, in their order
("first match in enumeration order", §4.3): the ID of the first candidate whose key
equals `name` up to case; the code, in `api/queries_repo.go`, is missing. -/
def findID {α : Type} (key id : α → GoString) (name : GoString) : List α → Option GoString
  | [] => none
  | c :: rest => if EqualFold (key c) name then some (id c) else findID key id name rest

/-- Modelled from the spec: the loop over the requested names of `MembersToIDs`,
`TeamsToIDs` and `LabelsToIDs` (§4.3: "fail-fast", "no partial results"): `ids` has
the IDs found so far; a name that is not found ends the loop with `nil` and the
error. The code, in `api/queries_repo.go`, is missing. -/
def resolveNames (find : GoString → Option GoString) :
    List GoString → List GoString → List GoString × Option NotFound
  | [], ids => (ids, none)
  | name :: rest, ids =>
    match find name with
    | some id => resolveNames find rest (ids ++ [id])
    | none => ([], some ⟨name⟩)

/-- Modelled from the spec: method `MembersToIDs` (§4.3), of the missing file
`api/queries_repo.go`: the match is on the login. -/
def MembersToIDs (m : RepoMetadataResult) (names : List GoString) :
    List GoString × Option NotFound :=
  resolveNames (fun name => findID RepoAssignee.Login RepoAssignee.ID name m.AssignableUsers)
    names []

/-- Modelled from the spec: the slug of a team reference `org/slug` or `/slug` (§4.3): the
text after the first `/`, and the reference itself when it has none. -/
def teamSlug (name : GoString) : GoString :=
  if (Cut '/' name).2.2 then (Cut '/' name).2.1 else name

/-- Modelled from the spec: method `TeamsToIDs` (§4.3), of the missing file
`api/queries_repo.go`: the match is on the slug of the reference, as in
`Test_RepoMetadata` (`OWNER/core` for the team `Core`). -/
def TeamsToIDs (m : RepoMetadataResult) (names : List GoString) :
    List GoString × Option NotFound :=
  resolveNames (fun name => findID OrgTeam.Slug OrgTeam.ID (teamSlug name) m.Teams) names []

/-- Modelled from the spec: method `LabelsToIDs` (§4.3), of the missing file
`api/queries_repo.go`: the match is on the name. -/
def LabelsToIDs (m : RepoMetadataResult) (names : List GoString) :
    List GoString × Option NotFound :=
  resolveNames (fun name => findID RepoLabel.Name RepoLabel.ID name m.Labels) names []

/-- Modelled from the spec: the loop over the requested names of `ProjectsToIDs` (§4.3),
of the missing file `api/queries_repo.go`: a name is looked up among the v1
projects and, when none of them has it, among the v2 projects, as the two lists
of `Test_RepoMetadata` show; a name that is in neither ends the loop with no IDs
and the error. -/
def projectsLoop (m : RepoMetadataResult) :
    List GoString → List GoString → List GoString →
      List GoString × List GoString × Option NotFound
  | [], ids, idsV2 => (ids, idsV2, none)
  | name :: rest, ids, idsV2 =>
    match findID RepoProject.Name RepoProject.ID name m.Projects with
    | some id => projectsLoop m rest (ids ++ [id]) idsV2
    | none =>
      match findID ProjectV2.Title ProjectV2.ID name m.ProjectsV2 with
      | some id => projectsLoop m rest ids (idsV2 ++ [id])
      | none => ([], [], some ⟨name⟩)

/-- Modelled from the spec: method `ProjectsToIDs` (§4.3), of the missing file
`api/queries_repo.go`: the IDs of the v1 projects, those of the v2 projects, and
the error. -/
def ProjectsToIDs (m : RepoMetadataResult) (names : List GoString) :
    List GoString × List GoString × Option NotFound :=
  projectsLoop m names [] []

/-- Modelled from the spec: method `MilestoneToID` (§4.3), of the missing file
`api/queries_repo.go`: the match is on the title; the ID is empty when there is an
error. -/
def MilestoneToID (m : RepoMetadataResult) (title : GoString) : GoString × Option NotFound :=
  match findID RepoMilestone.Title RepoMilestone.ID title m.Milestones with
  | some id => (id, none)
  | none => ([], some ⟨title⟩)

/-- A candidate of the list has a key equal to `name` up to case. -/
def Matched {α : Type} (key : α → GoString) (candidates : List α) (name : GoString) : Prop :=
  ∃ c ∈ candidates, EqualFold (key c) name = true

/-- The candidate `c` is the first of the list with a key equal to `name` up to case. -/
def FirstMatch {α : Type} (key : α → GoString) (candidates : List α) (name : GoString)
    (c : α) : Prop :=
  ∃ before after, candidates = before ++ c :: after
    ∧ (∀ b ∈ before, EqualFold (key b) name = false) ∧ EqualFold (key c) name = true

/-- The first name of the list that no candidate matches is `name`. -/
def FirstUnmatched (matched : GoString → Prop) (names : List GoString) (name : GoString) :
    Prop :=
  ∃ pre post, names = pre ++ name :: post ∧ (∀ p ∈ pre, matched p) ∧ ¬ matched name

/-- The metadata of `Test_RepoMetadata`, in the order of the responses. -/
def testMetadata : RepoMetadataResult where
  CurrentLogin := "monalisa".toList
  AssignableUsers := [⟨"HUBOTID".toList, "hubot".toList, []⟩,
    ⟨"MONAID".toList, "MonaLisa".toList, []⟩]
  Labels := [⟨"FEATUREID".toList, "feature".toList⟩, ⟨"TODOID".toList, "TODO".toList⟩,
    ⟨"BUGID".toList, "bug".toList⟩]
  Projects := [⟨"CLEANUPID".toList, "Cleanup".toList, []⟩,
    ⟨"ROADMAPID".toList, "Roadmap".toList, []⟩, ⟨"TRIAGEID".toList, "Triage".toList, []⟩]
  ProjectsV2 := [⟨"CLEANUPV2ID".toList, "CleanupV2".toList, []⟩,
    ⟨"ROADMAPV2ID".toList, "RoadmapV2".toList, []⟩,
    ⟨"TRIAGEV2ID".toList, "TriageV2".toList, []⟩,
    ⟨"MONALISAV2ID".toList, "MonalisaV2".toList, []⟩]
  Milestones := [⟨"GAID".toList, "GA".toList⟩, ⟨"BIGONEID".toList, "Big One.oh".toList⟩]
  Teams := [⟨"OWNERSID".toList, "owners".toList⟩, ⟨"COREID".toList, "Core".toList⟩]

/-- Metadata in which two candidates of each kind are equal up to case. -/
def twinMetadata : RepoMetadataResult where
  AssignableUsers := [⟨"HUBOTID".toList, "hubot".toList, []⟩,
    ⟨"MONAID".toList, "MonaLisa".toList, []⟩, ⟨"TWINID".toList, "monalisa".toList, []⟩]
  Labels := [⟨"BUGID".toList, "bug".toList⟩, ⟨"TWINID".toList, "Bug".toList⟩]
  Projects := [⟨"ROADMAPID".toList, "Roadmap".toList, []⟩,
    ⟨"TWINID".toList, "roadmap".toList, []⟩]
  ProjectsV2 := [⟨"ROADMAPV2ID".toList, "RoadmapV2".toList, []⟩,
    ⟨"TWINV2ID".toList, "roadmapv2".toList, []⟩]
  Milestones := [⟨"GAID".toList, "GA".toList⟩, ⟨"TWINID".toList, "ga".toList⟩]
  Teams := [⟨"COREID".toList, "Core".toList⟩, ⟨"TWINID".toList, "core".toList⟩]

/-! ### The batch query of `RepoResolveMetadataIDs` -/

/-- Modelled from the spec: type `RepoResolveInput`, of the missing file
`api/queries_repo.go`, with the fields that `Test_RepoResolveMetadataIDs` sets. -/
structure RepoResolveInput where
  Assignees : List GoString := []
  Reviewers : List GoString := []
  Labels : List GoString := []
  deriving DecidableEq, Repr

/-- Modelled from the spec: the base repository (`ghrepo.Interface`, of which the tests
only are at hand): its owner and its name. -/
structure Repo where
  RepoOwner : GoString
  RepoName : GoString
  deriving DecidableEq, Repr

/-- The verb `%03d` of `fmt.Sprintf` for a number that is not negative: the decimal
form, with zeros before it up to three digits. -/
def pad3 (i : Nat) : GoString :=
  List.replicate (3 - (Nat.toDigits 10 i).length) '0' ++ Nat.toDigits 10 i

/-- Modelled from the spec: the alias of the sub-selection number `i` of a kind (§4.3:
`u000`, `u001`, ...); the format, in `api/queries_repo.go`, is missing. -/
def aliasOf (letter : Char) (i : Nat) : GoString := letter :: pad3 i

/-- Modelled from the spec: whether a reviewer is a team reference, `org/slug` or `/slug`
(§4.3); the test, in `api/queries_repo.go`, is missing. -/
def isTeamRef (r : GoString) : Bool := (Cut '/' r).2.2

/-- Modelled from the spec: whether the organization of a team reference is left out
(§4.3: it then is the owner of the base repository) or is `owner`. -/
def teamOfOwner (owner r : GoString) : Bool :=
  decide ((Cut '/' r).1 = []) || decide ((Cut '/' r).1 = owner)

/-- Modelled from the spec: whether `target` is among `users` already, for the comparison
`same`; the code, in `api/queries_repo.go`, is missing. -/
def hasUser (same : GoString → GoString → Bool) (users : List GoString) (target : GoString) :
    Bool :=
  users.any (fun u => same u target)

/-- Modelled from the spec: the loop over the reviewers of `RepoResolveMetadataIDs`, of
the missing file `api/queries_repo.go`: a team reference gives its slug to
`teams`, another reviewer is added to `users` unless it is listed already
(`Test_RepoResolveMetadataIDs`: `monalisa` is asked once). The comparison `same`
that tells whether a login is listed is a parameter. The result is `none` for a
team of another organization than `owner`: the spec has one block for each
organization and the test one organization only, so that the query for such an
input is not determined. -/
def splitReviewers (same : GoString → GoString → Bool) (owner : GoString) :
    List GoString → List GoString → List GoString → Option (List GoString × List GoString)
  | [], users, teams => some (users, teams)
  | r :: rest, users, teams =>
    if isTeamRef r then
      if teamOfOwner owner r then
        splitReviewers same owner rest users (teams ++ [(Cut '/' r).2.1])
      else none
    else if hasUser same users r then splitReviewers same owner rest users teams
    else splitReviewers same owner rest (users ++ [r]) teams

/-- Modelled from the spec: the loop `for i, name := range names` that writes one aliased
sub-selection for each name, starting with the number `i`; the code, in
`api/queries_repo.go`, is missing. -/
def writeLines (line : Nat → GoString → GoString) :
    List GoString → Nat → GoString → GoString
  | [], _, query => query
  | name :: rest, i, query => writeLines line rest (i + 1) (query ++ line i name)

/-- Modelled from the spec: the sub-selection of a user, as in the `expectedQuery` of
`Test_RepoResolveMetadataIDs`; `quote` writes a name as a string literal. -/
def userLine (quote : GoString → GoString) (i : Nat) (login : GoString) : GoString :=
  aliasOf 'u' i ++ ": user(login:".toList ++ quote login ++ ")\x7bid,login\x7d\n".toList

/-- Modelled from the spec: the sub-selection of a label, as in the `expectedQuery` of
`Test_RepoResolveMetadataIDs`. -/
def labelLine (quote : GoString → GoString) (i : Nat) (name : GoString) : GoString :=
  aliasOf 'l' i ++ ": label(name:".toList ++ quote name ++ ")\x7bid,name\x7d\n".toList

/-- Modelled from the spec: the sub-selection of a team, as in the `expectedQuery` of
`Test_RepoResolveMetadataIDs`. -/
def teamLine (quote : GoString → GoString) (i : Nat) (slug : GoString) : GoString :=
  aliasOf 't' i ++ ": team(slug:".toList ++ quote slug ++ ")\x7bid,slug\x7d\n".toList

/-- Modelled from the spec: the first line of the query, as in the `expectedQuery` of
`Test_RepoResolveMetadataIDs`. -/
def queryHead : GoString := "query RepositoryResolveMetadataIDs \x7b\n".toList

/-- Modelled from the spec: the line that closes a block, as in the `expectedQuery` of
`Test_RepoResolveMetadataIDs`. -/
def blockEnd : GoString := "\x7d\n".toList

/-- Modelled from the spec: the line that opens the block of the repository, as in the
`expectedQuery` of `Test_RepoResolveMetadataIDs`. -/
def repositoryHead (quote : GoString → GoString) (repo : Repo) : GoString :=
  "repository(owner:".toList ++ quote repo.RepoOwner ++ ",name:".toList ++ quote repo.RepoName
    ++ ")\x7b\n".toList

/-- Modelled from the spec: the line that opens the block of the organization, as in the
`expectedQuery` of `Test_RepoResolveMetadataIDs`. -/
def organizationHead (quote : GoString → GoString) (repo : Repo) : GoString :=
  "organization(login:".toList ++ quote repo.RepoOwner ++ ")\x7b\n".toList

/-- Modelled from the spec: the text of the query of `RepoResolveMetadataIDs` (§4.3), of
the missing file `api/queries_repo.go`, after the `expectedQuery` of
`Test_RepoResolveMetadataIDs`: the users, the labels in the block of the
repository, the teams in the block of the organization; a block without a
sub-selection is not written. The writing `quote` of a name as a string literal
and the comparison `same` of two logins are parameters. -/
def resolveQuery (quote : GoString → GoString) (same : GoString → GoString → Bool)
    (repo : Repo) (input : RepoResolveInput) : Option GoString :=
  match splitReviewers same repo.RepoOwner input.Reviewers input.Assignees [] with
  | none => none
  | some (users, teams) =>
    let query1 := writeLines (userLine quote) users 0 queryHead
    let query2 :=
      if input.Labels.length > 0 then
        writeLines (labelLine quote) input.Labels 0 (query1 ++ repositoryHead quote repo)
          ++ blockEnd
      else query1
    let query3 :=
      if teams.length > 0 then
        writeLines (teamLine quote) teams 0 (query2 ++ organizationHead quote repo) ++ blockEnd
      else query2
    some (query3 ++ blockEnd)

/-- A name between double quotes. -/
def plainQuote (name : GoString) : GoString := '"' :: name ++ ['"']

/-- The input of `Test_RepoResolveMetadataIDs`. -/
def testInput : RepoResolveInput where
  Assignees := ["monalisa".toList, "hubot".toList]
  Reviewers := ["monalisa".toList, "octocat".toList, "OWNER/core".toList, "/robots".toList]
  Labels := ["bug".toList, "help wanted".toList]

/-- The `expectedQuery` of `Test_RepoResolveMetadataIDs`. -/
def expectedQuery : GoString :=
  ("query RepositoryResolveMetadataIDs \x7b\n"
    ++ "u000: user(login:\"monalisa\")\x7bid,login\x7d\n"
    ++ "u001: user(login:\"hubot\")\x7bid,login\x7d\n"
    ++ "u002: user(login:\"octocat\")\x7bid,login\x7d\n"
    ++ "repository(owner:\"OWNER\",name:\"REPO\")\x7b\n"
    ++ "l000: label(name:\"bug\")\x7bid,name\x7d\n"
    ++ "l001: label(name:\"help wanted\")\x7bid,name\x7d\n"
    ++ "\x7d\n"
    ++ "organization(login:\"OWNER\")\x7b\n"
    ++ "t000: team(slug:\"core\")\x7bid,slug\x7d\n"
    ++ "t001: team(slug:\"robots\")\x7bid,slug\x7d\n"
    ++ "\x7d\n"
    ++ "\x7d\n").toList

/-- The sub-selections of a list of names, each with its number in the list. -/
def linesOf (line : Nat → GoString → GoString) (names : List GoString) : GoString :=
  (names.enum.map (fun p => line p.1 p.2)).flatten

/-! ### Project paths -/

/-- Modelled from the spec: the short path of a project (§4.3, `ProjectsToPaths`): the
resource path `/orgs/ORG/projects/N` or `/users/USER/projects/N` without its
routing part gives `ORG/N` or `USER/N`, and `/OWNER/REPO/projects/N` gives
`OWNER/REPO/N`; the code, in `api/queries_repo.go`, is missing. The result is
`none` for a resource path of another form, for which the spec has no short
path. -/
def shortPath (resourcePath : GoString) : Option GoString :=
  match resourcePath with
  | '/' :: rest =>
    let first := Cut '/' rest
    let second := Cut '/' first.2.1
    let third := Cut '/' second.2.1
    if first.2.2 ∧ second.2.2 ∧ third.2.2 ∧ third.1 = "projects".toList
        ∧ '/' ∉ third.2.1 then
      if first.1 = "orgs".toList ∨ first.1 = "users".toList then
        some (second.1 ++ '/' :: third.2.1)
      else some (first.1 ++ '/' :: second.1 ++ '/' :: third.2.1)
    else none
  | _ => none

/-- Modelled from the spec: the search for a project by its name, "case-sensitive exact
match against title/name" (§4.3): the resource path of the first candidate whose
key is `name`; the code, in `api/queries_repo.go`, is missing. -/
def findPath {α : Type} (key path : α → GoString) (name : GoString) : List α → Option GoString
  | [] => none
  | c :: rest => if key c = name then some (path c) else findPath key path name rest

/-- Modelled from the spec: the resource path of the project with the name `name`: a v1
project when there is one, as in `ProjectsToIDs`, and a v2 project otherwise. -/
def projectPath (projects : List RepoProject) (projectsV2 : List ProjectV2)
    (name : GoString) : Option GoString :=
  match findPath RepoProject.Name RepoProject.ResourcePath name projects with
  | some resourcePath => some resourcePath
  | none => findPath ProjectV2.Title ProjectV2.ResourcePath name projectsV2

/-- Modelled from the spec: the loop over the names of `ProjectsToPaths` (§4.3), of the
missing file `api/queries_repo.go`: the short path of the project of each name is
added to `paths`; a name without a project ends the loop with no paths and the
error (§7, item c). The result is `none` when a project has no short path. -/
def pathsLoop (projects : List RepoProject) (projectsV2 : List ProjectV2) :
    List GoString → List GoString → Option (List GoString × Option NotFound)
  | [], paths => some (paths, none)
  | name :: rest, paths =>
    match projectPath projects projectsV2 name with
    | none => some ([], some ⟨name⟩)
    | some resourcePath =>
      match shortPath resourcePath with
      | none => none
      | some path => pathsLoop projects projectsV2 rest (paths ++ [path])

/-- Modelled from the spec: function `ProjectsToPaths` (§4.3), of the missing file
`api/queries_repo.go`, with the arguments of `Test_ProjectsToPaths`. -/
def ProjectsToPaths (projects : List RepoProject) (projectsV2 : List ProjectV2)
    (names : List GoString) : Option (List GoString × Option NotFound) :=
  pathsLoop projects projectsV2 names []

/-- The three forms of a resource path (§4.3), each with its short path. The names are
without `/`, and the owner of a repository is not called `orgs` or `users`. -/
inductive PathForm : GoString → GoString → Prop where
  | org (org number : GoString) : '/' ∉ org → '/' ∉ number →
      PathForm ("/orgs/".toList ++ org ++ "/projects/".toList ++ number)
        (org ++ "/".toList ++ number)
  | user (user number : GoString) : '/' ∉ user → '/' ∉ number →
      PathForm ("/users/".toList ++ user ++ "/projects/".toList ++ number)
        (user ++ "/".toList ++ number)
  | repo (owner repo number : GoString) : '/' ∉ owner → '/' ∉ repo → '/' ∉ number →
      owner ≠ "orgs".toList → owner ≠ "users".toList →
      PathForm ("/".toList ++ owner ++ "/".toList ++ repo ++ "/projects/".toList ++ number)
        (owner ++ "/".toList ++ repo ++ "/".toList ++ number)

/-- A project of one of the two lists has the name `name` and the resource path
`resourcePath`. -/
def HasProject (projects : List RepoProject) (projectsV2 : List ProjectV2)
    (name resourcePath : GoString) : Prop :=
  (∃ p ∈ projects, p.Name = name ∧ p.ResourcePath = resourcePath)
  ∨ (∃ p ∈ projectsV2, p.Title = name ∧ p.ResourcePath = resourcePath)

/-- The v1 projects of `Test_ProjectsToPaths`. -/
def testProjects : List RepoProject :=
  [⟨"id1".toList, "My Project".toList, "/OWNER/REPO/projects/PROJECT_NUMBER".toList⟩,
   ⟨"id2".toList, "Org Project".toList, "/orgs/ORG/projects/PROJECT_NUMBER".toList⟩,
   ⟨"id3".toList, "Project".toList, "/orgs/ORG/projects/PROJECT_NUMBER_2".toList⟩]

/-- The v2 projects of `Test_ProjectsToPaths`. -/
def testProjectsV2 : List ProjectV2 :=
  [⟨"id4".toList, "My Project V2".toList, "/OWNER/REPO/projects/PROJECT_NUMBER_2".toList⟩,
   ⟨"id5".toList, "Org Project V2".toList, "/orgs/ORG/projects/PROJECT_NUMBER_3".toList⟩]

end Api

/-!
## The order of the reviewers in `pr view`

Function `sortReviewerStates` of `pkg/cmd/pr/view/view.go`.
-/

namespace PrView

open CmdApi

/-- Type `reviewerState`. -/
structure reviewerState where
  Name : GoString
  State : GoString
  deriving DecidableEq, Repr

/-- Constant `requestedReviewState`. -/
def requestedReviewState : GoString := "REQUESTED".toList

/-- The comparison `less` that `sortReviewerStates` gives to `sort.Slice`, on the two
elements it is called for. The order `<` of two Go strings is the order of the
dictionary on their bytes, which for UTF-8 is that on their characters. -/
def sortReviewerStates.less (i j : reviewerState) : Bool :=
  if i.State = requestedReviewState ∧ j.State ≠ requestedReviewState then false
  else if j.State = requestedReviewState ∧ i.State ≠ requestedReviewState then true
  else decide (i.Name < j.Name)

/-- Function `sort.Slice(x, less)`: it leaves a permutation of `x` in which no element
is `less` than an element before it. The order of elements none of which is
`less` than the other is not fixed by its contract ("the sort is not guaranteed to
be stable"); the definition takes the one of an insertion sort, and the theorems
hold for every such permutation. -/
def sortSlice {α : Type} (less : α → α → Bool) (x : List α) : List α :=
  x.insertionSort (fun a b => less b a = false)

/-- The results that the contract of `sort.Slice(x, less)` allows. -/
def SortSlice {α : Type} (less : α → α → Bool) (x out : List α) : Prop :=
  out.Perm x ∧ out.Pairwise (fun a b => less b a = false)

/-- Function `sortReviewerStates`. -/
def sortReviewerStates (reviewerStates : List reviewerState) : List reviewerState :=
  sortSlice sortReviewerStates.less reviewerStates

end PrView

/-!
## Capability detection

The file `internal/featuredetection/feature_detection.go` is not among the sources
at hand; its tests are. The definitions follow the text of the specification
(§3, §4.1) and the cases of the tests.
-/

namespace FeatureDetection

open CmdApi

/-- A Go `error` value. -/
abbrev GoError := String

/-- Type `IssueFeatures`, with the field that `TestIssueFeatures` sets. -/
structure IssueFeatures where
  StateReason : Bool := false
  deriving DecidableEq, Repr

/-- Type `PullRequestFeatures`, with the fields that `TestPullRequestFeatures` sets. -/
structure PullRequestFeatures where
  MergeQueue : Bool := false
  CheckRunAndStatusContextCounts : Bool := false
  CheckRunEvent : Bool := false
  deriving DecidableEq, Repr

/-- Type `RepositoryFeatures`, with the fields that `TestRepositoryFeatures` sets. -/
structure RepositoryFeatures where
  PullRequestTemplateQuery : Bool := false
  VisibilityField : Bool := false
  AutoMerge : Bool := false
  deriving DecidableEq, Repr

/-- A decoded response of a probe: the names of the fields of a type of the schema, by
the name of the type; a type that the response does not have, as in the response
with an empty `data` object, has no fields. -/
abbrev ProbeResponse := GoString → List GoString

/-- The client of a detector: the decoded response to the probe with the name `query`,
or the error of the request (a response that cannot be decoded is one). -/
abbrev Prober := GoString → Except GoError ProbeResponse

/-- Type `detector` (fields as in the tests): the host and the client. -/
structure detector where
  host : GoString
  httpClient : Prober

/-- What a detection returns: the features, the error (`none` is `nil`), and, as a ghost
value, the number of requests that were sent. -/
structure Detection (α : Type) where
  features : α
  err : Option GoError
  requests : Nat
  deriving DecidableEq, Repr

/-- Modelled from the spec: the field names of the type `typeName` that a probe gave; "an
empty/error response is treated as no optional fields" (§4.1). The code, in
`internal/featuredetection/feature_detection.go`, is missing. -/
def fieldsOf (response : Except GoError ProbeResponse) (typeName : GoString) : List GoString :=
  match response with
  | Except.error _ => []
  | Except.ok r => r typeName

/-- Modelled from the spec: the loop over the field names of a type that sets the flag of
the feature with the field `name` ("a field is present iff its name appears in the
returned field list", §4.1); the code, in
`internal/featuredetection/feature_detection.go`, is missing. -/
def hasField (name : GoString) : List GoString → Bool → Bool
  | [], flag => flag
  | field :: rest, flag => hasField name rest (if field = name then true else flag)

/-- Modelled from the spec: the loop over the field names of the type `Repository`, which
sets the three flags by the names of `TestRepositoryFeatures`; the code, in
`internal/featuredetection/feature_detection.go`, is missing. -/
def scanRepository : List GoString → RepositoryFeatures → RepositoryFeatures
  | [], features => features
  | field :: rest, features =>
    scanRepository rest
      (if field = "pullRequestTemplates".toList then
        { features with PullRequestTemplateQuery := true }
      else if field = "visibility".toList then { features with VisibilityField := true }
      else if field = "autoMergeAllowed".toList then { features with AutoMerge := true }
      else features)

/-- Modelled from the spec: method `IssueFeatures` (§4.1), of the missing file
`internal/featuredetection/feature_detection.go`: no probe for a host that is not
an enterprise host, and the probe `Issue_fields` otherwise. The test
`isEnterprise` of a host name (package `ghinstance`) is a parameter. -/
def detector.IssueFeatures (isEnterprise : GoString → Bool) (d : detector) :
    Detection IssueFeatures :=
  if !isEnterprise d.host then ⟨{ StateReason := true }, none, 0⟩
  else
    ⟨{ StateReason :=
        hasField "stateReason".toList
          (fieldsOf (d.httpClient "Issue_fields".toList) "Issue".toList) false },
      none, 1⟩

/-- Modelled from the spec: method `PullRequestFeatures` (§4.1), of the missing file
`internal/featuredetection/feature_detection.go`: two probes, the results of which
are merged. As the cases `github.com with all features` and `github.com with no
merge queue` of `TestPullRequestFeatures` show, the probes are sent to every host,
the public one too. The tests do not tell which of the field names they list
sets `MergeQueue` and `CheckRunAndStatusContextCounts`: the two names are
parameters. -/
def detector.PullRequestFeatures (mergeQueueField countsField : GoString) (d : detector) :
    Detection PullRequestFeatures :=
  let first := d.httpClient "PullRequest_fields".toList
  let second := d.httpClient "PullRequest_fields2".toList
  ⟨{ MergeQueue := hasField mergeQueueField (fieldsOf first "PullRequest".toList) false,
     CheckRunAndStatusContextCounts :=
       hasField countsField (fieldsOf first "StatusCheckRollupContextConnection".toList) false,
     CheckRunEvent := hasField "event".toList (fieldsOf second "WorkflowRun".toList) false },
    none, 2⟩

/-- Modelled from the spec: method `RepositoryFeatures` (§4.1), of the missing file
`internal/featuredetection/feature_detection.go`: no probe for a host that is not
an enterprise host, and the probe `Repository_fields` otherwise. -/
def detector.RepositoryFeatures (isEnterprise : GoString → Bool) (d : detector) :
    Detection RepositoryFeatures :=
  if !isEnterprise d.host then
    ⟨{ PullRequestTemplateQuery := true, VisibilityField := true, AutoMerge := true }, none, 0⟩
  else
    ⟨scanRepository (fieldsOf (d.httpClient "Repository_fields".toList) "Repository".toList) {},
      none, 1⟩

/-- A probe is empty or malformed for the type `typeName`: it is an error, or it has no
field of the type. -/
def EmptyProbe (response : Except GoError ProbeResponse) (typeName : GoString) : Prop :=
  fieldsOf response typeName = []

/-- Every host but `github.com` is an enterprise host, as in the tests. -/
def notGitHub (host : GoString) : Bool := decide (host ≠ "github.com".toList)

/-- The response with an empty `data` object to every probe. -/
def emptyClient : Prober := fun _ => Except.ok (fun _ => [])

/-- The client of the case `github.com with no merge queue` of
`TestPullRequestFeatures`. -/
def noMergeQueueClient : Prober := fun query =>
  if query = "PullRequest_fields".toList then
    Except.ok (fun typeName =>
      if typeName = "StatusCheckRollupContextConnection".toList then
        ["checkRunCount".toList, "checkRunCountsByState".toList, "statusContextCount".toList,
          "statusContextCountsByState".toList]
      else [])
  else if query = "PullRequest_fields2".toList then
    Except.ok (fun typeName => if typeName = "WorkflowRun".toList then ["event".toList] else [])
  else Except.error "no such query"

/-- A client whose responses have the fields of the cases with all features of the
three tests. -/
def fullClient : Prober := fun query =>
  if query = "Repository_fields".toList then
    Except.ok (fun typeName =>
      if typeName = "Repository".toList then
        ["pullRequestTemplates".toList, "visibility".toList, "autoMergeAllowed".toList]
      else [])
  else if query = "Issue_fields".toList then
    Except.ok (fun typeName => if typeName = "Issue".toList then ["stateReason".toList] else [])
  else if query = "PullRequest_fields".toList then
    Except.ok (fun typeName =>
      if typeName = "PullRequest".toList then
        ["isInMergeQueue".toList, "isMergeQueueEnabled".toList]
      else if typeName = "StatusCheckRollupContextConnection".toList then
        ["checkRunCount".toList, "checkRunCountsByState".toList]
      else [])
  else if query = "PullRequest_fields2".toList then
    Except.ok (fun typeName => if typeName = "WorkflowRun".toList then ["event".toList] else [])
  else Except.error "no such query"

end FeatureDetection
namespace CmdApi

/-! ## Lemmas on `paginatedArrayReader.Read` -/

theorem rewriteHead_false (p : List Byte) : rewriteHead false p = p := by
  unfold rewriteHead; split <;> simp

theorem rewriteHead_length (active : Bool) (p : List Byte) :
    (rewriteHead active p).length = p.length := by
  unfold rewriteHead; split <;> cases active <;> simp

theorem rewriteHead_tail (active : Bool) (p : List Byte) :
    (rewriteHead active p).tail = p.tail := by
  unfold rewriteHead; split <;> cases active <;> simp

theorem rewriteHead_eq (active : Bool) (p : List Byte) :
    (if active && decide (p.length > 0) && p[0]? == some bOpen then
       if decide (p.length > 1) && p[1]? == some bClose then p.set 0 bSpace else p.set 0 bComma
     else p) = rewriteHead active p := by
  rcases p with _ | ⟨a, _ | ⟨b, t⟩⟩
  · cases active <;> simp [rewriteHead]
  · cases active <;> by_cases ha : a = 91 <;> simp [rewriteHead, ha]
  · cases active <;> by_cases ha : a = 91 <;> by_cases hb : b = 93 <;>
      simp [rewriteHead, ha, hb]

theorem withhold_flag (last : Bool) (q : List Byte) :
    (!last && decide (q.length > 0) && q[q.length - 1]? == some bClose) =
      (!last && q.getLast? == some bClose) := by
  have h1 : q[q.length - 1]? = q.getLast? := by rw [List.getLast?_eq_getElem?]
  rw [h1]
  rcases q with _ | ⟨a, t⟩
  · cases last <;> simp
  · cases last <;> simp

theorem withhold_take (w : Bool) (q : List Byte) :
    q.take (if w then q.length - 1 else q.length) = if w then q.dropLast else q := by
  cases w <;> simp [List.dropLast_eq_take]

theorem Read_buf {σ : Type} (rd : IOReader σ) (r : paginatedArrayReader σ) (len : Nat) :
    paginatedArrayReader.Read rd r len =
      (let p := rewriteHead (!r.isSubsequentRead && !r.isFirstPage) (rawBuf rd r len)
       let w : Bool := !r.isLastPage && p.getLast? == some bClose
       (if w then p.dropLast else p,
        (rd.Read r.Reader (innerLen r len)).2.1,
        { r with Reader := (rd.Read r.Reader (innerLen r len)).2.2,
                 cachedByte := if w then bClose
                               else if r.cachedByte ≠ 0 ∧ len > 0 then 0 else r.cachedByte,
                 isSubsequentRead := true })) := by
  simp only [paginatedArrayReader.Read, rewriteHead_eq, withhold_flag, withhold_take]
  by_cases hu : r.cachedByte ≠ 0 ∧ len > 0
  · have hu' : (r.cachedByte != 0 && decide (len > 0)) = true := by simpa using hu
    simp only [hu', rawBuf, innerLen, if_true, if_pos hu]
  · have hu' : (r.cachedByte != 0 && decide (len > 0)) = false := by
      rw [Bool.eq_false_iff]
      intro h
      exact hu (by simpa using h)
    simp only [hu', rawBuf, innerLen, if_neg hu, if_false, Bool.false_eq_true]


theorem HeadRewritten.append {first : Bool} {a b : List Byte} (h : HeadRewritten first a b)
    (x : List Byte) : HeadRewritten first (a ++ x) (b ++ x) := by
  rcases h with h | ⟨h1, h2, h3, h4⟩
  · exact Or.inl (by rw [h])
  · rcases b with _ | ⟨b0, bt⟩
    · simp at h2
    · rcases a with _ | ⟨a0, at'⟩
      · simp at h4
      · refine Or.inr ⟨h1, by simpa using h2, ?_, by simpa using h4⟩
        simp only [List.tail_cons] at h3
        simp [h3]

theorem HeadRewritten.of_append_singleton {first : Bool} {a b : List Byte} {c : Byte}
    (h : HeadRewritten first (a ++ [c]) (b ++ [c])) : HeadRewritten first a b := by
  rcases h with h | ⟨h1, h2, h3, h4⟩
  · exact Or.inl (List.append_cancel_right h)
  · rcases b with _ | ⟨b0, bt⟩
    · rcases a with _ | ⟨a0, at'⟩
      · exact Or.inl rfl
      · have := congrArg List.length h3
        simp at this
    · rcases a with _ | ⟨a0, at'⟩
      · have := congrArg List.length h3
        simp at this
      · refine Or.inr ⟨h1, by simpa using h2, ?_, by simpa using h4⟩
        simp only [List.cons_append, List.tail_cons] at h3
        simpa using List.append_cancel_right h3

theorem rewriteHead_rel (first sub : Bool) (p : List Byte) :
    HeadRewritten first (rewriteHead (!sub && !first) p) p := by
  cases first
  · cases sub
    · unfold rewriteHead
      split
      · exact Or.inr ⟨rfl, by simp, by simp, by simp⟩
      · exact Or.inr ⟨rfl, by simp, by simp, by simp⟩
      · exact Or.inl rfl
    · simp only [Bool.not_true, Bool.false_and, rewriteHead_false]; exact Or.inl rfl
  · simp only [Bool.not_true, Bool.and_false, rewriteHead_false]; exact Or.inl rfl


theorem rewriteHead_getLast (active : Bool) (p : List Byte) :
    (rewriteHead active p).getLast? = some bClose ↔ p.getLast? = some bClose := by
  unfold rewriteHead
  split
  · cases active <;> simp [List.getLast?_cons_cons]
  · rename_i t _
    cases active
    · simp
    · rcases t with _ | ⟨b, t⟩ <;> simp [List.getLast?_cons_cons]
  · rfl

theorem dropLast_append_of_getLast {p : List Byte} {c : Byte} (h : p.getLast? = some c) :
    p.dropLast ++ [c] = p := by
  rcases List.eq_nil_or_concat p with rfl | ⟨l, x, rfl⟩
  · simp at h
  · simp at h
    simp [h]

@[simp] theorem Read_isLastPage {σ : Type} (rd : IOReader σ) (r : paginatedArrayReader σ)
    (len : Nat) : (paginatedArrayReader.Read rd r len).2.2.isLastPage = r.isLastPage := by
  rw [Read_buf]

@[simp] theorem Read_isFirstPage {σ : Type} (rd : IOReader σ) (r : paginatedArrayReader σ)
    (len : Nat) : (paginatedArrayReader.Read rd r len).2.2.isFirstPage = r.isFirstPage := by
  rw [Read_buf]

@[simp] theorem Read_isSubsequentRead {σ : Type} (rd : IOReader σ) (r : paginatedArrayReader σ)
    (len : Nat) : (paginatedArrayReader.Read rd r len).2.2.isSubsequentRead = true := by
  rw [Read_buf]

theorem Read_Reader {σ : Type} (rd : IOReader σ) (r : paginatedArrayReader σ)
    (len : Nat) : (paginatedArrayReader.Read rd r len).2.2.Reader
      = (rd.Read r.Reader (innerLen r len)).2.2 := by
  rw [Read_buf]

theorem Read_err {σ : Type} (rd : IOReader σ) (r : paginatedArrayReader σ)
    (len : Nat) : (paginatedArrayReader.Read rd r len).2.1
      = (rd.Read r.Reader (innerLen r len)).2.1 := by
  rw [Read_buf]

theorem Read_step {σ : Type} {rd : IOReader σ} {rem : σ → List Byte} (hs : rd.Streams rem)
    (r : paginatedArrayReader σ) (len : Nat) (hl : r.isLastPage = false)
    (hc : r.cachedByte = 0 ∨ r.cachedByte = bClose) :
    (paginatedArrayReader.Read rd r len).1
        ++ cachedPart (paginatedArrayReader.Read rd r len).2.2.cachedByte
      = rewriteHead (!r.isSubsequentRead && !r.isFirstPage)
          (cachedPart r.cachedByte ++ (rd.Read r.Reader (innerLen r len)).1)
    ∧ ((paginatedArrayReader.Read rd r len).2.2.cachedByte = 0
        ∨ (paginatedArrayReader.Read rd r len).2.2.cachedByte = bClose)
    ∧ ((paginatedArrayReader.Read rd r len).2.2.cachedByte = 0 →
        (cachedPart r.cachedByte ++ (rd.Read r.Reader (innerLen r len)).1).getLast?
          ≠ some bClose) := by
  rw [Read_buf]
  simp only [hl, Bool.not_false, Bool.true_and]
  rcases hc with hc | hc
  · -- nothing cached
    have hraw : rawBuf rd r len = (rd.Read r.Reader (innerLen r len)).1 := by
      simp [rawBuf, innerLen, hc]
    rw [hraw, hc]
    generalize (rd.Read r.Reader (innerLen r len)).1 = chunk
    generalize hact : (!r.isSubsequentRead && !r.isFirstPage) = active
    simp only [cachedPart, if_true, List.nil_append]
    by_cases hw : (rewriteHead active chunk).getLast? = some bClose
    · have hw' := (rewriteHead_getLast active chunk).1 hw
      simp [hw, hw', dropLast_append_of_getLast hw]
    · have hw' : ¬ chunk.getLast? = some bClose := fun h => hw ((rewriteHead_getLast _ _).2 h)
      simp [hw, hw']
  · -- a cached `]`
    have hne : r.cachedByte ≠ 0 := by rw [hc]; decide
    rcases Nat.eq_zero_or_pos len with h0 | hpos
    · have hin : innerLen r len = 0 := by simp [innerLen, h0]
      have hchunk : (rd.Read r.Reader 0).1 = [] := by
        have := hs.length_le r.Reader 0
        exact List.length_eq_zero.mp (Nat.le_zero.mp this)
      have hraw : rawBuf rd r len = [] := by simp [rawBuf, h0, hchunk]
      rw [hraw, hin, hchunk, hc]
      simp [cachedPart, rewriteHead, h0]
    · have hin : innerLen r len = len - 1 := by simp [innerLen, hne, hpos]
      have hraw : rawBuf rd r len = bClose :: (rd.Read r.Reader (len - 1)).1 := by
        simp [rawBuf, hne, hpos, hc]
      rw [hraw, hin, hc]
      generalize (rd.Read r.Reader (len - 1)).1 = chunk
      have hrw : ∀ a, rewriteHead a (bClose :: chunk) = bClose :: chunk := by
        intro a; simp [rewriteHead]
      simp only [hrw, cachedPart]
      by_cases hw : (bClose :: chunk).getLast? = some bClose
      · have := dropLast_append_of_getLast hw
        simp [hw, this, hrw]
      · simp [hw, hpos, hrw]


theorem getLast?_append_ne_nil (a : List Byte) {b : List Byte} (hb : b ≠ []) :
    (a ++ b).getLast? = b.getLast? := by
  rcases List.eq_nil_or_concat b with rfl | ⟨l, x, rfl⟩
  · exact absurd rfl hb
  · simp only [List.concat_eq_append]
    rw [← List.append_assoc]; simp

/-- What a sequence of `Read` calls on a page that is not the last preserves: the bytes
delivered, followed by the cached byte, are the bytes consumed from the wrapped
reader (up to the rewrite of the leading byte), and a consumed `]` that comes last
is the cached byte. -/
theorem readLoop_inv {σ : Type} {rd : IOReader σ} {rem : σ → List Byte} (hs : rd.Streams rem) :
    ∀ (bufs : List Nat) (r : paginatedArrayReader σ) (out0 consumed0 : List Byte),
      r.isLastPage = false →
      (r.cachedByte = 0 ∨ r.cachedByte = bClose) →
      HeadRewritten r.isFirstPage (out0 ++ cachedPart r.cachedByte) consumed0 →
      (r.isSubsequentRead = false → out0 = [] ∧ consumed0 = [] ∧ r.cachedByte = 0) →
      (r.cachedByte = 0 → consumed0.getLast? ≠ some bClose) →
      ∃ consumed1,
        consumed0 ++ rem r.Reader = consumed1 ++ rem (readLoop rd r bufs).reader.Reader
        ∧ HeadRewritten r.isFirstPage
            (out0 ++ (readLoop rd r bufs).out ++ cachedPart (readLoop rd r bufs).reader.cachedByte)
            consumed1
        ∧ ((readLoop rd r bufs).reader.cachedByte = 0 → consumed1.getLast? ≠ some bClose)
        ∧ ((readLoop rd r bufs).reader.cachedByte = 0
            ∨ (readLoop rd r bufs).reader.cachedByte = bClose)
        ∧ (readLoop rd r bufs).reader.isLastPage = false
        ∧ ((readLoop rd r bufs).err = some IOError.EOF →
            rem (readLoop rd r bufs).reader.Reader = []) := by
  intro bufs
  induction bufs with
  | nil =>
    intro r out0 consumed0 hl hc hrel _ hlast
    exact ⟨consumed0, rfl, by simpa [readLoop] using hrel, hlast, hc, hl, by simp [readLoop]⟩
  | cons len bufs ih =>
    intro r out0 consumed0 hl hc hrel hsub hlast
    obtain ⟨hstep, hc', hlast'⟩ := Read_step hs r len hl hc
    have hrem : rem r.Reader = (rd.Read r.Reader (innerLen r len)).1
        ++ rem (paginatedArrayReader.Read rd r len).2.2.Reader := by
      rw [Read_Reader]; exact hs.rem_eq _ _
    have hl' : (paginatedArrayReader.Read rd r len).2.2.isLastPage = false := by simpa using hl
    -- the invariant after this `Read`
    have hrel' : HeadRewritten r.isFirstPage
        (out0 ++ (paginatedArrayReader.Read rd r len).1
          ++ cachedPart (paginatedArrayReader.Read rd r len).2.2.cachedByte)
        (consumed0 ++ (rd.Read r.Reader (innerLen r len)).1) := by
      rw [List.append_assoc, hstep]
      cases hsr : r.isSubsequentRead
      · obtain ⟨h1, h2, h3⟩ := hsub hsr
        subst h1 h2
        rw [h3]
        simpa [cachedPart] using rewriteHead_rel r.isFirstPage false _
      · simp only [Bool.not_true, Bool.false_and, rewriteHead_false]
        rw [← List.append_assoc]
        exact hrel.append _
    have hlast'' : (paginatedArrayReader.Read rd r len).2.2.cachedByte = 0 →
        (consumed0 ++ (rd.Read r.Reader (innerLen r len)).1).getLast? ≠ some bClose := by
      intro h0
      have h := hlast' h0
      by_cases hch : (rd.Read r.Reader (innerLen r len)).1 = []
      · rw [hch] at h ⊢
        rw [List.append_nil] at h ⊢
        rcases hc with hc | hc
        · exact hlast hc
        · rw [hc] at h; simp [cachedPart] at h
      · rw [getLast?_append_ne_nil _ hch] at h ⊢
        exact h
    cases herr : (paginatedArrayReader.Read rd r len).2.1 with
    | some e =>
      have hloop : readLoop rd r (len :: bufs)
          = ⟨(paginatedArrayReader.Read rd r len).1, some e,
              (paginatedArrayReader.Read rd r len).2.2⟩ := by
        simp only [readLoop, herr]
      rw [hloop]
      refine ⟨consumed0 ++ (rd.Read r.Reader (innerLen r len)).1, ?_, hrel', hlast'', hc', hl', ?_⟩
      · rw [hrem, List.append_assoc]
      · intro he
        simp only [Option.some.injEq] at he
        rw [Read_Reader]
        apply hs.eof_rem
        rw [← Read_err, herr, he]
    | none =>
      have hloop : readLoop rd r (len :: bufs)
          = ⟨(paginatedArrayReader.Read rd r len).1
                ++ (readLoop rd (paginatedArrayReader.Read rd r len).2.2 bufs).out,
              (readLoop rd (paginatedArrayReader.Read rd r len).2.2 bufs).err,
              (readLoop rd (paginatedArrayReader.Read rd r len).2.2 bufs).reader⟩ := by
        simp only [readLoop, herr]
      rw [hloop]
      obtain ⟨consumed1, h1, h2, h3, h4, h5, h6⟩ :=
        ih (paginatedArrayReader.Read rd r len).2.2 (out0 ++ (paginatedArrayReader.Read rd r len).1)
          (consumed0 ++ (rd.Read r.Reader (innerLen r len)).1) hl' hc'
          (by simpa using hrel') (by simp) hlast''
      refine ⟨consumed1, ?_, ?_, h3, h4, h5, h6⟩
      · rw [hrem, ← List.append_assoc]; exact h1
      · simpa [List.append_assoc] using h2


theorem sourceReader_streams : sourceReader.Streams Source.data := by
  refine ⟨?_, ?_, ?_⟩
  · intro s len
    simp only [sourceReader, Source.Read]
    split
    · simp
    · rcases s.script with _ | ⟨c, t⟩
      · simp
      · simp only [List.length_take]
        omega
  · intro s len
    simp only [sourceReader, Source.Read]
    split
    · simp
    · simp
  · intro s len
    simp only [sourceReader, Source.Read]
    split
    · intro _; assumption
    · intro h; simp at h

/-- Claim C2 (amended): on a page that is not the last and whose body is `init`
followed by `]`, for every wrapped reader that streams the body and every sequence
`bufs` of buffer lengths: (1) if the reads drain the reader to `io.EOF`, the bytes
delivered are `init`, up to the rewrite of a leading `[` on a page that is not the
first, and the final `]` stays in `cachedByte`, undelivered; (2) at any moment the
bytes delivered followed by the withheld byte are, up to that rewrite, exactly the
bytes consumed from the wrapped reader, so a withheld `]` keeps its position;
(3) a `Read` that follows while a `]` is withheld either delivers nothing and keeps
it withheld, or delivers it as its first byte. -/
theorem Read_withholds_closing_bracket {σ : Type} (rd : IOReader σ) (rem : σ → List Byte)
    (hs : rd.Streams rem) (r : paginatedArrayReader σ) (init : List Byte) (bufs : List Nat)
    (hbody : rem r.Reader = init ++ [bClose]) (hlast : r.isLastPage = false)
    (hcache : r.cachedByte = 0) :
    ((readLoop rd r bufs).err = some IOError.EOF →
        HeadRewritten r.isFirstPage (readLoop rd r bufs).out init
        ∧ (readLoop rd r bufs).reader.cachedByte = bClose)
    ∧ (∃ consumed, consumed ++ rem (readLoop rd r bufs).reader.Reader = init ++ [bClose]
        ∧ HeadRewritten r.isFirstPage
            ((readLoop rd r bufs).out ++ cachedPart (readLoop rd r bufs).reader.cachedByte)
            consumed)
    ∧ ((readLoop rd r bufs).reader.cachedByte ≠ 0 → ∀ len,
        ((paginatedArrayReader.Read rd (readLoop rd r bufs).reader len).1 = []
          ∧ (paginatedArrayReader.Read rd (readLoop rd r bufs).reader len).2.2.cachedByte = bClose)
        ∨ (paginatedArrayReader.Read rd (readLoop rd r bufs).reader len).1.head? = some bClose) := by
  obtain ⟨consumed, h1, h2, h3, h4, h5, h6⟩ :=
    readLoop_inv hs bufs r [] [] hlast (Or.inl hcache)
      (by rw [hcache]; exact Or.inl rfl) (fun _ => ⟨rfl, rfl, hcache⟩) (fun _ => by simp)
  simp only [List.nil_append] at h1 h2
  refine ⟨?_, ⟨consumed, by rw [← h1, hbody], h2⟩, ?_⟩
  · intro heof
    rw [h6 heof, List.append_nil, hbody] at h1
    have hc : (readLoop rd r bufs).reader.cachedByte = bClose := by
      rcases h4 with h0 | h
      · exact absurd (by rw [← h1]; simp) (h3 h0)
      · exact h
    refine ⟨?_, hc⟩
    rw [hc, ← h1] at h2
    exact HeadRewritten.of_append_singleton (c := bClose) (by simpa [cachedPart] using h2)
  · intro hne len
    have hc : (readLoop rd r bufs).reader.cachedByte = bClose := by
      rcases h4 with h0 | h
      · exact absurd h0 hne
      · exact h
    obtain ⟨hstep, hc', -⟩ := Read_step hs (readLoop rd r bufs).reader len h5 (Or.inr hc)
    rw [hc] at hstep
    have hrw : ∀ a (chunk : List Byte),
        rewriteHead a (cachedPart bClose ++ chunk) = bClose :: chunk := by
      intro a chunk; simp [rewriteHead, cachedPart]
    rw [hrw] at hstep
    rcases hout : (paginatedArrayReader.Read rd (readLoop rd r bufs).reader len).1 with _ | ⟨x, t⟩
    · left
      refine ⟨rfl, ?_⟩
      rcases hc' with h0 | h
      · rw [hout, h0] at hstep; simp [cachedPart] at hstep
      · exact h
    · right
      rw [hout] at hstep
      simp only [List.cons_append, List.cons.injEq] at hstep
      simp [hstep.1]

theorem Read_withholds_closing_bracket_witness :
    (readLoop sourceReader (pageReader [91, 91, 49, 93, 44, 50, 93] [] true false)
        [4, 1, 4, 4]).err = some IOError.EOF
    ∧ HeadRewritten true
        (readLoop sourceReader (pageReader [91, 91, 49, 93, 44, 50, 93] [] true false)
          [4, 1, 4, 4]).out [91, 91, 49, 93, 44, 50] :=
  ⟨by decide,
   ((Read_withholds_closing_bracket sourceReader Source.data sourceReader_streams
      (pageReader [91, 91, 49, 93, 44, 50, 93] [] true false) [91, 91, 49, 93, 44, 50]
      [4, 1, 4, 4] rfl rfl rfl).1 (by decide)).1⟩


/-- Claim C2 as stated fails: reading the page `[[1],2]` with buffers of 4, 1, 4 and 4
bytes drains it to `io.EOF`; the first `Read` withholds the inner `]`, and the
`Read` that follows (buffer of one byte) returns `(0, nil)`: the withheld byte is
not its first byte. -/
theorem following_Read_delivers_nothing :
    (paginatedArrayReader.Read sourceReader nestedPage 4).1 = [91, 91, 49]
    ∧ (paginatedArrayReader.Read sourceReader nestedPage 4).2.2.cachedByte = bClose
    ∧ (paginatedArrayReader.Read sourceReader
        (paginatedArrayReader.Read sourceReader nestedPage 4).2.2 1).1 = []
    ∧ (paginatedArrayReader.Read sourceReader
        (paginatedArrayReader.Read sourceReader nestedPage 4).2.2 1).2.1 = none
    ∧ (readLoop sourceReader nestedPage [4, 1, 4, 4]).err = some IOError.EOF
    ∧ (readLoop sourceReader nestedPage [4, 1, 4, 4]).out = [91, 91, 49, 93, 44, 50] := by
  decide

/-- Claim C1 at the pages `[]`, `[1]`, each drained with buffers of 4096 bytes: the
readers deliver `[,1]`, which is not JSON. -/
theorem drainPages_empty_first_page :
    drainPages 4096 3 true [([91, 93], []), ([91, 49, 93], [])] = some [91, 44, 49, 93] := by
  decide

/-- Claim C3 at the empty page `[]`, wrapped as a page that is not the first: read
with buffers of one byte, or through a wrapped reader whose first read delivers one
byte, its leading `[` is delivered as `,` and not as a space. -/
theorem Read_empty_page_one_byte :
    (readLoop sourceReader (pageReader [91, 93] [] false true) [1, 1, 1]).out = [44, 93]
    ∧ (readLoop sourceReader (pageReader [91, 93] [] false true) [1, 1, 1]).err
        = some IOError.EOF
    ∧ (readLoop sourceReader (pageReader [91, 93] [1] false true) [4096, 4096, 4096]).out
        = [44, 93] := by
  decide

/-! ## Lemmas on `addPerPage` -/

theorem IndexRune_neg_one_le (p : GoString) (c : Char) : -1 ≤ IndexRune p c := by
  induction p with
  | nil => simp [IndexRune]
  | cons a t ih =>
    simp only [IndexRune]
    split
    · decide
    · split <;> omega

theorem IndexRune_nonneg_iff (p : GoString) (c : Char) : 0 ≤ IndexRune p c ↔ c ∈ p := by
  induction p with
  | nil => simp [IndexRune]
  | cons a t ih =>
    simp only [IndexRune, List.mem_cons]
    by_cases h : a = c
    · simp [h]
    · have h' : ¬ c = a := fun e => h e.symm
      simp only [h, h', if_false, false_or]
      rw [← ih]
      split <;> omega

theorem drop_IndexRune (p : GoString) (c : Char) (h : c ∈ p) :
    p.drop (IndexRune p c + 1).toNat = (Cut c p).2.1 := by
  induction p with
  | nil => simp at h
  | cons a t ih =>
    simp only [IndexRune, Cut]
    by_cases hac : a = c
    · simp [hac]
    · have hct : c ∈ t := by
        rcases List.mem_cons.mp h with e | e
        · exact absurd e.symm hac
        · exact e
      have h0 := (IndexRune_nonneg_iff t c).2 hct
      simp only [hac, if_false, not_lt.mpr h0]
      have : (IndexRune t c + 1 + 1).toNat = (IndexRune t c + 1).toNat + 1 := by omega
      rw [this, List.drop_succ_cons]
      exact ih hct

theorem Cut_append_sep (c : Char) (a b : GoString) (h : c ∉ a) :
    Cut c (a ++ c :: b) = (a, b, true) := by
  induction a with
  | nil => simp [Cut]
  | cons x t ih =>
    have hx : ¬ x = c := fun e => h (by simp [e])
    have ht : c ∉ t := fun e => h (by simp [e])
    simp [Cut, hx, ih ht]

theorem Cut_after_append (c : Char) (p x : GoString) (h : c ∈ p) :
    (Cut c (p ++ x)).2.1 = (Cut c p).2.1 ++ x := by
  induction p with
  | nil => simp at h
  | cons a t ih =>
    by_cases hac : a = c
    · simp [Cut, hac]
    · have hct : c ∈ t := by
        rcases List.mem_cons.mp h with e | e
        · exact absurd e.symm hac
        · exact e
      simp [Cut, hac, ih hct]

theorem Cut_of_not_mem (c : Char) (p : GoString) (h : c ∉ p) : Cut c p = (p, [], false) := by
  induction p with
  | nil => simp [Cut]
  | cons a t ih =>
    have hx : ¬ a = c := fun e => h (by simp [e])
    have ht : c ∉ t := fun e => h (by simp [e])
    simp [Cut, hx, ih ht]

theorem splitAmp_ne_nil (s : GoString) : splitAmp s ≠ [] := by
  induction s with
  | nil => simp [splitAmp]
  | cons c t ih =>
    simp only [splitAmp]
    split
    · simp
    · split <;> simp

theorem splitAmp_append (a b : GoString) :
    splitAmp (a ++ '&' :: b) = splitAmp a ++ splitAmp b := by
  induction a with
  | nil => simp [splitAmp]
  | cons c t ih =>
    simp only [List.cons_append, splitAmp]
    by_cases hc : c = '&'
    · simp [hc, ih]
    · simp only [hc, if_false, List.append_eq]
      rw [ih]
      rcases hs : splitAmp t with _ | ⟨piece, rest⟩
      · exact absurd hs (splitAmp_ne_nil t)
      · simp

theorem splitAmp_of_not_mem (s : GoString) (h : '&' ∉ s) : splitAmp s = [s] := by
  induction s with
  | nil => simp [splitAmp]
  | cons c t ih =>
    have hx : ¬ c = '&' := fun e => h (by simp [e])
    have ht : '&' ∉ t := fun e => h (by simp [e])
    simp [splitAmp, hx, ih ht]

theorem parseQueryLoop_append (xs ys : List GoString) :
    parseQueryLoop (xs ++ ys)
      = ((parseQueryLoop xs).1 ++ (parseQueryLoop ys).1,
         (parseQueryLoop xs).2 || (parseQueryLoop ys).2) := by
  induction xs with
  | nil => simp [parseQueryLoop]
  | cons piece rest ih =>
    by_cases h1 : ';' ∈ piece
    · simp [parseQueryLoop, h1, ih]
    · by_cases h2 : piece = []
      · simp [parseQueryLoop, h2, ih]
      · rcases hk : QueryUnescape (Cut '=' piece).1 with _ | key
        · simp [parseQueryLoop, h1, h2, hk, ih]
        · rcases hv : QueryUnescape (Cut '=' piece).2.1 with _ | value
          · simp [parseQueryLoop, h1, h2, hk, hv, ih]
          · simp [parseQueryLoop, h1, h2, hk, hv, ih]

theorem QueryUnescape_plain (s : GoString) (h : ∀ c ∈ s, c ≠ '%' ∧ c ≠ '+') :
    QueryUnescape s = some s := by
  induction s with
  | nil => simp [QueryUnescape]
  | cons c t ih =>
    have hc := h c (by simp)
    have ht := ih (fun x hx => h x (by simp [hx]))
    unfold QueryUnescape
    simp [hc.1, hc.2, ht]

theorem digitChar_isDigit (n : Nat) : (Nat.digitChar (n % 10)).isDigit = true := by
  have h : n % 10 < 10 := Nat.mod_lt _ (by decide)
  generalize n % 10 = m at h
  interval_cases m <;> decide

theorem toDigitsCore_chars (fuel : Nat) : ∀ (n : Nat) (ds : List Char),
    (∀ c ∈ ds, isIntChar c = true) → ∀ c ∈ Nat.toDigitsCore 10 fuel n ds, isIntChar c = true := by
  induction fuel with
  | zero => intro n ds h; simpa [Nat.toDigitsCore] using h
  | succ f ih =>
    intro n ds h
    have hd : ∀ c ∈ Nat.digitChar (n % 10) :: ds, isIntChar c = true := by
      intro c hc
      rcases List.mem_cons.mp hc with e | e
      · rw [e]; simp [isIntChar, digitChar_isDigit]
      · exact h c e
    simp only [Nat.toDigitsCore]
    split
    · exact hd
    · exact ih _ _ hd

theorem toDigitsCore_ne_nil (fuel : Nat) : ∀ (n : Nat) (ds : List Char),
    ds ≠ [] → Nat.toDigitsCore 10 fuel n ds ≠ [] := by
  induction fuel with
  | zero => intro n ds h; simpa [Nat.toDigitsCore] using h
  | succ f ih =>
    intro n ds _
    simp only [Nat.toDigitsCore]
    split
    · simp
    · exact ih _ _ (by simp)

theorem formatInt_chars (n : Int) : ∀ c ∈ formatInt n, isIntChar c = true := by
  cases n with
  | ofNat m =>
    exact toDigitsCore_chars _ _ _ (by simp)
  | negSucc m =>
    intro c hc
    rcases List.mem_cons.mp hc with e | e
    · rw [e]; decide
    · exact toDigitsCore_chars _ _ _ (by simp) c e

theorem formatInt_ne_nil (n : Int) : formatInt n ≠ [] := by
  cases n with
  | ofNat m =>
    show Nat.toDigitsCore 10 (m + 1) m [] ≠ []
    simp only [Nat.toDigitsCore]
    split
    · simp
    · exact toDigitsCore_ne_nil _ _ _ (by simp)
  | negSucc m => simp [formatInt]

theorem isIntChar_ne {c : Char} (h : isIntChar c = true) :
    c ≠ '%' ∧ c ≠ '+' ∧ c ≠ '&' ∧ c ≠ ';' ∧ c ≠ '=' ∧ c ≠ '?' := by
  refine ⟨?_, ?_, ?_, ?_, ?_, ?_⟩ <;> (intro e; rw [e] at h; revert h; decide)

theorem Values.Get_append (vs ws : Values) (key : GoString) :
    Values.Get (vs ++ ws) key = if Values.Has vs key then Values.Get vs key
      else Values.Get ws key := by
  induction vs with
  | nil => simp [Values.Get, Values.Has]
  | cons kv rest ih =>
    obtain ⟨k, v⟩ := kv
    by_cases hk : k = key
    · simp [Values.Get, Values.Has, hk]
    · simp [Values.Get, Values.Has, hk, ih]

theorem Values.Get_of_not_Has (vs : Values) (key : GoString) (h : Values.Has vs key = false) :
    Values.Get vs key = [] := by
  induction vs with
  | nil => simp [Values.Get]
  | cons kv rest ih =>
    obtain ⟨k, v⟩ := kv
    simp only [Values.Has, Bool.or_eq_false_iff, decide_eq_false_iff_not] at h
    simp [Values.Get, h.1, ih h.2]

theorem parseQueryLoop_perPage (n : Int) :
    parseQueryLoop ["per_page=".toList ++ formatInt n] = ([(perPageKey, formatInt n)], false) := by
  have hchars := formatInt_chars n
  have hsemi : ¬ ';' ∈ "per_page=".toList ++ formatInt n := by
    intro h
    rcases List.mem_append.mp h with h | h
    · revert h; decide
    · exact (isIntChar_ne (hchars _ h)).2.2.2.1 rfl
  have hcut : Cut '=' ("per_page=".toList ++ formatInt n) = (perPageKey, formatInt n, true) :=
    Cut_append_sep '=' perPageKey (formatInt n) (by decide)
  have hkey : QueryUnescape perPageKey = some perPageKey :=
    QueryUnescape_plain _ (by decide)
  have hval : QueryUnescape (formatInt n) = some (formatInt n) :=
    QueryUnescape_plain _ (fun c hc => ⟨(isIntChar_ne (hchars c hc)).1,
      (isIntChar_ne (hchars c hc)).2.1⟩)
  have hne : "per_page=".toList ++ formatInt n ≠ [] := by simp
  have hcont : ("per_page=".toList ++ formatInt n).contains ';' = false := by
    rw [Bool.eq_false_iff]
    intro h
    exact hsemi (by simpa using h)
  rw [parseQueryLoop]
  simp only [hcont, if_false, hne, hcut, hkey, hval, parseQueryLoop, Bool.false_eq_true]

theorem ParseQuery_append_perPage (q : GoString) (n : Int) :
    ParseQuery (q ++ "&".toList ++ "per_page=".toList ++ formatInt n)
      = ((ParseQuery q).1 ++ [(perPageKey, formatInt n)], (ParseQuery q).2) := by
  have hamp : '&' ∉ "per_page=".toList ++ formatInt n := by
    intro h
    rcases List.mem_append.mp h with h | h
    · revert h; decide
    · exact (isIntChar_ne (formatInt_chars n _ h)).2.2.1 rfl
  have hsplit : splitAmp (q ++ "&".toList ++ "per_page=".toList ++ formatInt n)
      = splitAmp q ++ ["per_page=".toList ++ formatInt n] := by
    have : q ++ "&".toList ++ "per_page=".toList ++ formatInt n
        = q ++ '&' :: ("per_page=".toList ++ formatInt n) := by simp
    rw [this, splitAmp_append, splitAmp_of_not_mem _ hamp]
  simp only [ParseQuery, hsplit, parseQueryLoop_append, parseQueryLoop_perPage, Bool.or_false]

theorem ParseQuery_perPage (n : Int) :
    ParseQuery ("per_page=".toList ++ formatInt n) = ([(perPageKey, formatInt n)], false) := by
  have hamp : '&' ∉ "per_page=".toList ++ formatInt n := by
    intro h
    rcases List.mem_append.mp h with h | h
    · revert h; decide
    · exact (isIntChar_ne (formatInt_chars n _ h)).2.2.1 rfl
  simp only [ParseQuery, splitAmp_of_not_mem _ hamp, parseQueryLoop_perPage]

/-- Function `addPerPage` by cases on its query. -/
theorem addPerPage_eq {α : Type} (p : GoString) (n : Int) (params : List (GoString × α)) :
    addPerPage p n params =
      if hasKey params perPageKey then p
      else if '?' ∈ p then
        if (ParseQuery (queryOf p)).2 = false ∧ (ParseQuery (queryOf p)).1.Get perPageKey ≠ []
        then p
        else p ++ "&".toList ++ "per_page=".toList ++ formatInt n
      else p ++ "?".toList ++ "per_page=".toList ++ formatInt n := by
  unfold addPerPage
  by_cases hk : hasKey params perPageKey = true
  · simp [hk]
  · by_cases hq : '?' ∈ p
    · have h0 := (IndexRune_nonneg_iff p '?').2 hq
      simp only [hk, hq, if_true, ge_iff_le, h0, drop_IndexRune p '?' hq, queryOf,
        Bool.false_eq_true, if_false]
    · have h0 : ¬ 0 ≤ IndexRune p '?' := fun h => hq ((IndexRune_nonneg_iff p '?').1 h)
      simp only [hk, hq, ge_iff_le, h0, Bool.false_eq_true, if_false]

theorem queryOf_append (p x : GoString) (h : '?' ∈ p) : queryOf (p ++ x) = queryOf p ++ x :=
  Cut_after_append '?' p x h

theorem queryOf_append_question (p x : GoString) (h : '?' ∉ p) :
    queryOf (p ++ "?".toList ++ x) = x := by
  have : p ++ "?".toList ++ x = p ++ '?' :: x := by simp
  rw [queryOf, this, Cut_append_sep '?' p x h]

theorem queryOf_of_not_mem (p : GoString) (h : '?' ∉ p) : queryOf p = [] := by
  rw [queryOf, Cut_of_not_mem '?' p h]

theorem Values.count_of_not_Has (vs : Values) (key : GoString) (h : Values.Has vs key = false) :
    Values.count vs key = 0 := by
  induction vs with
  | nil => simp [Values.count]
  | cons kv rest ih =>
    obtain ⟨k, v⟩ := kv
    simp only [Values.Has, Bool.or_eq_false_iff, decide_eq_false_iff_not] at h
    have := ih h.2
    simp only [Values.count] at this ⊢
    simp [List.filter_cons, h.1, this]

theorem append_ne_self (p x : GoString) (hx : x ≠ []) : p ++ x ≠ p := by
  intro h
  have := congrArg List.length h
  simp only [List.length_append] at this
  have hlen : 0 < x.length := List.length_pos.mpr hx
  omega

theorem perPage_suffix_ne_nil (sep : GoString) (n : Int) :
    sep ++ "per_page=".toList ++ formatInt n ≠ [] := by
  simp

/-- Claim C6: when `params` has no key `per_page` and the query of `p` carries no
`per_page` value, `addPerPage` returns `p` followed by `?per_page=` (no `?` in `p`)
or by `&per_page=` (a `?` in `p`) and the decimal form of `n`; `p` is a prefix of
the result. -/
theorem addPerPage_appends {α : Type} (p : GoString) (n : Int) (params : List (GoString × α))
    (hparams : hasKey params perPageKey = false)
    (hvalue : (ParseQuery (queryOf p)).1.Get perPageKey = []) :
    ('?' ∉ p → addPerPage p n params = p ++ "?per_page=".toList ++ formatInt n)
    ∧ ('?' ∈ p → addPerPage p n params = p ++ "&per_page=".toList ++ formatInt n)
    ∧ p <+: addPerPage p n params := by
  rw [addPerPage_eq]
  simp only [hparams, Bool.false_eq_true, if_false, hvalue, ne_eq, not_true_eq_false, and_false]
  refine ⟨?_, ?_, ?_⟩
  · intro h; simp [h]
  · intro h; simp [h]
  · split
    · exact ⟨"&".toList ++ "per_page=".toList ++ formatInt n, by simp⟩
    · exact ⟨"?".toList ++ "per_page=".toList ++ formatInt n, by simp⟩

theorem addPerPage_appends_witness :
    hasKey ([] : List (GoString × Unit)) perPageKey = false
    ∧ (ParseQuery (queryOf "repos/o/r/issues?state=open".toList)).1.Get perPageKey = []
    ∧ addPerPage "repos/o/r/issues?state=open".toList 30 ([] : List (GoString × Unit))
        = "repos/o/r/issues?state=open&per_page=30".toList :=
  ⟨by decide, by decide,
   ((addPerPage_appends "repos/o/r/issues?state=open".toList 30 ([] : List (GoString × Unit))
      (by decide) (by decide)).2.1 (by decide)).trans (by decide)⟩

/-- Claim C5 (amended): `addPerPage` returns `p` unchanged exactly when `params` has
the key `per_page`, or `p` contains `?` and the query after its first `?` parses
without error and gives `per_page` a non-empty first value. -/
theorem addPerPage_unchanged_iff {α : Type} (p : GoString) (n : Int)
    (params : List (GoString × α)) :
    addPerPage p n params = p ↔
      (hasKey params perPageKey = true
        ∨ ('?' ∈ p ∧ (ParseQuery (queryOf p)).2 = false
            ∧ (ParseQuery (queryOf p)).1.Get perPageKey ≠ [])) := by
  rw [addPerPage_eq]
  by_cases hk : hasKey params perPageKey = true
  · simp [hk]
  · by_cases hq : '?' ∈ p
    · by_cases hc : (ParseQuery (queryOf p)).2 = false
          ∧ (ParseQuery (queryOf p)).1.Get perPageKey ≠ []
      · simp [hk, hq, hc]
      · simp only [hk, hq, hc, if_false, if_true, Bool.false_eq_true, false_or, true_and,
          iff_false, List.append_assoc]
        exact append_ne_self _ _ (by simp)
    · simp only [hk, hq, if_false, Bool.false_eq_true, false_or, false_and, iff_false,
        List.append_assoc]
      exact append_ne_self _ _ (by simp)

/-- Claim C5 as stated fails: the query of `search?per_page=50&q=100%` has the
parameter `per_page=50`, yet `addPerPage` appends a second `per_page` (the query
does not parse: `%` starts an invalid escape). -/
theorem addPerPage_appends_despite_per_page :
    '?' ∈ "search?per_page=50&q=100%".toList
    ∧ "per_page=50".toList ∈ splitAmp (queryOf "search?per_page=50&q=100%".toList)
    ∧ (ParseQuery (queryOf "search?per_page=50&q=100%".toList)).1.Has perPageKey = true
    ∧ addPerPage "search?per_page=50&q=100%".toList 30 ([] : List (GoString × Unit))
        = "search?per_page=50&q=100%&per_page=30".toList
    ∧ addPerPage "search?per_page=50&q=100%".toList 30 ([] : List (GoString × Unit))
        ≠ "search?per_page=50&q=100%".toList := by
  decide

/-- Claim C4 as stated fails: on `search?q=100%`, whose query does not parse, the
second call appends `per_page` again. -/
theorem addPerPage_twice_duplicates :
    addPerPage (addPerPage "search?q=100%".toList 30 ([] : List (GoString × Unit))) 30
        ([] : List (GoString × Unit))
      = "search?q=100%&per_page=30&per_page=30".toList
    ∧ addPerPage "search?q=100%".toList 30 ([] : List (GoString × Unit))
      = "search?q=100%&per_page=30".toList := by
  decide

theorem Values.count_append (vs ws : Values) (key : GoString) :
    Values.count (vs ++ ws) key = Values.count vs key + Values.count ws key := by
  simp [Values.count, List.filter_append]

/-- Claim C4 (amended): `addPerPage` is idempotent at `p`, `n`, `params` exactly when
`params` has the key `per_page`, or the query of `p` (the text after its first `?`,
empty if there is none) parses without error and has no `per_page` parameter whose
first value is empty; in that case the path obtained by applying it twice has at
most one `per_page` value, unless `p` itself has more. -/
theorem addPerPage_idempotent_iff {α : Type} (p : GoString) (n : Int)
    (params : List (GoString × α)) :
    (addPerPage (addPerPage p n params) n params = addPerPage p n params ↔
      (hasKey params perPageKey = true
        ∨ ((ParseQuery (queryOf p)).2 = false
            ∧ ((ParseQuery (queryOf p)).1.Has perPageKey = true →
                (ParseQuery (queryOf p)).1.Get perPageKey ≠ []))))
    ∧ ((hasKey params perPageKey = true
        ∨ ((ParseQuery (queryOf p)).2 = false
            ∧ ((ParseQuery (queryOf p)).1.Has perPageKey = true →
                (ParseQuery (queryOf p)).1.Get perPageKey ≠ []))) →
      (ParseQuery (queryOf (addPerPage (addPerPage p n params) n params))).1.count perPageKey
        ≤ max 1 ((ParseQuery (queryOf p)).1.count perPageKey)) := by
  by_cases hk : hasKey params perPageKey = true
  · have h1 : ∀ q : GoString, addPerPage q n params = q := by
      intro q; rw [addPerPage_eq]; simp [hk]
    simp only [h1, hk, true_or, iff_true, true_implies, true_and]
    exact le_max_right _ _
  · have hN := formatInt_ne_nil n
    by_cases hq : '?' ∈ p
    · by_cases hc : (ParseQuery (queryOf p)).2 = false
          ∧ (ParseQuery (queryOf p)).1.Get perPageKey ≠ []
      · -- the page size is there already
        have h1 : addPerPage p n params = p := by
          rw [addPerPage_eq]; simp [hk, hq, hc]
        simp only [h1, hk, Bool.false_eq_true, false_or, true_iff]
        exact ⟨⟨hc.1, fun _ => hc.2⟩, fun _ => le_max_right _ _⟩
      · have h1 : addPerPage p n params = p ++ "&".toList ++ "per_page=".toList ++ formatInt n := by
          rw [addPerPage_eq]; simp only [hk, hq, hc, if_false, if_true, Bool.false_eq_true]
        have hq' : '?' ∈ p ++ "&".toList ++ "per_page=".toList ++ formatInt n := by
          simp [hq]
        have hquery : queryOf (p ++ "&".toList ++ "per_page=".toList ++ formatInt n)
            = queryOf p ++ "&".toList ++ "per_page=".toList ++ formatInt n := by
          rw [List.append_assoc, List.append_assoc, queryOf_append _ _ hq]
          simp
        have hparse := ParseQuery_append_perPage (queryOf p) n
        by_cases hH : (ParseQuery (queryOf p)).2 = false
            ∧ ((ParseQuery (queryOf p)).1.Has perPageKey = true →
                (ParseQuery (queryOf p)).1.Get perPageKey ≠ [])
        · -- the first call appends the page size, the second call finds it
          have hhas : (ParseQuery (queryOf p)).1.Has perPageKey = false := by
            rw [Bool.eq_false_iff]
            intro h
            exact hc ⟨hH.1, hH.2 h⟩
          have hget : (ParseQuery (queryOf (p ++ "&".toList ++ "per_page=".toList ++ formatInt n))).1.Get
              perPageKey = formatInt n := by
            rw [hquery, hparse, Values.Get_append, hhas]
            simp [Values.Get]
          have h2 : addPerPage (p ++ "&".toList ++ "per_page=".toList ++ formatInt n) n params
              = p ++ "&".toList ++ "per_page=".toList ++ formatInt n := by
            rw [addPerPage_eq]
            simp only [hk, hq', if_false, if_true, Bool.false_eq_true, hget]
            rw [hquery, hparse]
            simp [hH.1, hN]
          simp only [h1, h2, hk, Bool.false_eq_true, false_or, true_iff]
          refine ⟨hH, fun _ => ?_⟩
          rw [hquery, hparse, Values.count_append, Values.count_of_not_Has _ _ hhas]
          simp [Values.count]
        · -- the second call appends the page size again
          have h2 : addPerPage (p ++ "&".toList ++ "per_page=".toList ++ formatInt n) n params
              = p ++ "&".toList ++ "per_page=".toList ++ formatInt n
                  ++ "&".toList ++ "per_page=".toList ++ formatInt n := by
            rw [addPerPage_eq]
            have hcond : ¬ ((ParseQuery (queryOf (p ++ "&".toList ++ "per_page=".toList
                  ++ formatInt n))).2 = false
                ∧ (ParseQuery (queryOf (p ++ "&".toList ++ "per_page=".toList
                  ++ formatInt n))).1.Get perPageKey ≠ []) := by
              rw [hquery, hparse]
              simp only
              rintro ⟨he, hg⟩
              rw [Values.Get_append] at hg
              by_cases hhas : (ParseQuery (queryOf p)).1.Has perPageKey = true
              · simp only [hhas, if_true] at hg
                exact hc ⟨he, hg⟩
              · exact hH ⟨he, fun h => absurd h hhas⟩
            simp only [hk, hq', hcond, if_false, if_true, Bool.false_eq_true]
          simp only [h1, h2, hk, Bool.false_eq_true, false_or, hH, iff_false, false_implies,
            and_true]
          have := append_ne_self (p ++ "&".toList ++ "per_page=".toList ++ formatInt n)
            ("&".toList ++ "per_page=".toList ++ formatInt n) (by simp)
          intro h
          apply this
          simp only [List.append_assoc] at h ⊢
          exact h
    · -- no query: the first call appends `?per_page=`, the second call finds it
      have h1 : addPerPage p n params = p ++ "?".toList ++ "per_page=".toList ++ formatInt n := by
        rw [addPerPage_eq]; simp only [hk, hq, if_false, Bool.false_eq_true]
      have hq' : '?' ∈ p ++ "?".toList ++ "per_page=".toList ++ formatInt n := by simp
      have hquery : queryOf (p ++ "?".toList ++ "per_page=".toList ++ formatInt n)
          = "per_page=".toList ++ formatInt n := by
        rw [List.append_assoc, queryOf_append_question _ _ hq]
      have hparse0 : ParseQuery (queryOf p) = ([], false) := by
        rw [queryOf_of_not_mem p hq]; rfl
      have h2 : addPerPage (p ++ "?".toList ++ "per_page=".toList ++ formatInt n) n params
          = p ++ "?".toList ++ "per_page=".toList ++ formatInt n := by
        rw [addPerPage_eq]
        simp only [hk, hq', if_false, if_true, Bool.false_eq_true]
        rw [hquery, ParseQuery_perPage]
        simp [Values.Get, hN]
      simp only [h1, h2, hk, Bool.false_eq_true, false_or, true_iff, hparse0]
      refine ⟨⟨trivial, fun h => by simp [Values.Has] at h⟩, fun _ => ?_⟩
      rw [hquery, ParseQuery_perPage]
      simp [Values.count]


/-! ## Lemmas on `findEndCursor` -/

theorem walk_cons_next {w w1 : Walker} {t : Token} (ts : List Token)
    (h : step w t = Step.next w1) : walk w (t :: ts) = walk w1 ts := by
  simp [walk, h]

theorem walk_cons_stop {w w1 : Walker} {t : Token} (ts : List Token)
    (h : step w t = Step.stop w1) : walk w (t :: ts) = Step.stop w1 := by
  simp [walk, h]

theorem step_open (w : Walker) (c : Char) (h : c = '{' ∨ c = '[') :
    step w (Token.delim c)
      = Step.next { w with stack := c :: w.stack, contextKey := w.lastKey, idx := 0 } := by
  simp [step, h]

theorem step_close (w : Walker) (c top : Char) (below : List Char) (h : c = '}' ∨ c = ']')
    (hs : w.stack = top :: below) :
    step w (Token.delim c) = Step.next { w with stack := below, contextKey := [], idx := 0 } := by
  have h1 : ¬ (c = '{' ∨ c = '[') := by
    rcases h with h | h <;> (rw [h]; decide)
  simp [step, h, h1, hs]

theorem step_key (w : Walker) (s : GoString) (below : List Char) (hs : w.stack = '{' :: below)
    (hi : w.idx % 2 = 0) :
    step w (Token.str s) = Step.next { w with idx := w.idx + 1, lastKey := s } := by
  simp [step, hs, hi]

theorem not_isKey_of_ValPos (w : Walker) (h : w.ValPos) :
    (decide (w.stack.length > 0) && w.stack.head? == some '{' && decide (w.idx % 2 = 0))
      = false := by
  rw [Bool.eq_false_iff]
  intro hk
  simp only [Bool.and_eq_true, decide_eq_true_eq, beq_iff_eq] at hk
  have := h hk.1.2
  omega

/-- A scalar in value position, outside of a `pageInfo` context, only advances `idx`. -/
theorem step_scalar_calm (w : Walker) (v : JSON) (hv : v.isScalar = true) (hc : w.Calm)
    (hp : w.ValPos) :
    ∃ t, v.tokens = [t] ∧ step w t = Step.next { w with idx := w.idx + 1 } := by
  have hk := not_isKey_of_ValPos w hp
  cases v with
  | null => exact ⟨_, rfl, rfl⟩
  | num t => exact ⟨_, rfl, rfl⟩
  | bool b => exact ⟨_, rfl, by simp [step, hc.2]⟩
  | str s =>
    refine ⟨_, rfl, ?_⟩
    simp only [step, hk]
    simp [hc.2]
  | arr es => simp [JSON.isScalar] at hv
  | obj ms => simp [JSON.isScalar] at hv

theorem nil_ne_pageInfoKey : ([] : GoString) ≠ pageInfoKey := by decide

mutual
/-- Walking a document without a key `pageInfo`, from a calm walker in value position,
never leaves the loop: the walker comes back with its stack and findings, calm,
and in key position. -/
theorem walk_quiet_json : ∀ (v : JSON) (w : Walker) (rest : List Token),
    v.quiet = true → w.Calm → w.ValPos →
    ∃ w1, walk w (v.tokens ++ rest) = walk w1 rest ∧ w1.Calm ∧ w.Same w1 ∧ w1.KeyPos
  | JSON.null, w, rest, _, hc, hp =>
    ⟨{ w with idx := w.idx + 1 }, walk_cons_next rest rfl, hc, ⟨rfl, rfl, rfl, rfl, rfl⟩,
      fun h => by have := hp h; show (w.idx + 1) % 2 = 0; omega⟩
  | JSON.num _, w, rest, _, hc, hp =>
    ⟨{ w with idx := w.idx + 1 }, walk_cons_next rest rfl, hc, ⟨rfl, rfl, rfl, rfl, rfl⟩,
      fun h => by have := hp h; show (w.idx + 1) % 2 = 0; omega⟩
  | JSON.bool b, w, rest, _, hc, hp => by
    obtain ⟨t, ht, hstep⟩ := step_scalar_calm w (JSON.bool b) rfl hc hp
    rw [ht]
    exact ⟨{ w with idx := w.idx + 1 }, walk_cons_next rest hstep, hc, ⟨rfl, rfl, rfl, rfl, rfl⟩,
      fun h => by have := hp h; show (w.idx + 1) % 2 = 0; omega⟩
  | JSON.str s, w, rest, _, hc, hp => by
    obtain ⟨t, ht, hstep⟩ := step_scalar_calm w (JSON.str s) rfl hc hp
    rw [ht]
    exact ⟨{ w with idx := w.idx + 1 }, walk_cons_next rest hstep, hc, ⟨rfl, rfl, rfl, rfl, rfl⟩,
      fun h => by have := hp h; show (w.idx + 1) % 2 = 0; omega⟩
  | JSON.arr es, w, rest, hq, hc, _ => by
    obtain ⟨w1, h1, hc1, hs1⟩ := walk_quiet_elems es
      { w with stack := '[' :: w.stack, contextKey := w.lastKey, idx := 0 }
      (Token.delim ']' :: rest) (by simpa [JSON.quiet] using hq) ⟨hc.1, hc.1⟩ rfl
    have hstack : w1.stack = '[' :: w.stack := hs1.1
    refine ⟨{ w1 with stack := w.stack, contextKey := [], idx := 0 }, ?_, ⟨hc1.1, nil_ne_pageInfoKey⟩,
      ⟨rfl, hs1.2.1, hs1.2.2.1, hs1.2.2.2.1, hs1.2.2.2.2⟩, fun _ => rfl⟩
    show walk w (Token.delim '[' :: (es.tokens ++ [Token.delim ']']) ++ rest) = _
    rw [List.cons_append, walk_cons_next _ (step_open w '[' (Or.inr rfl)), List.append_assoc]
    rw [List.singleton_append, h1]
    exact walk_cons_next rest (step_close w1 ']' '[' w.stack (Or.inr rfl) hstack)
  | JSON.obj ms, w, rest, hq, hc, _ => by
    obtain ⟨w1, h1, hc1, hs1, _⟩ := walk_quiet_members ms
      { w with stack := '{' :: w.stack, contextKey := w.lastKey, idx := 0 }
      (Token.delim '}' :: rest) (by simpa [JSON.quiet] using hq) ⟨hc.1, hc.1⟩ rfl rfl
    have hstack : w1.stack = '{' :: w.stack := hs1.1
    refine ⟨{ w1 with stack := w.stack, contextKey := [], idx := 0 }, ?_, ⟨hc1.1, nil_ne_pageInfoKey⟩,
      ⟨rfl, hs1.2.1, hs1.2.2.1, hs1.2.2.2.1, hs1.2.2.2.2⟩, fun _ => rfl⟩
    show walk w (Token.delim '{' :: (ms.tokens ++ [Token.delim '}']) ++ rest) = _
    rw [List.cons_append, walk_cons_next _ (step_open w '{' (Or.inl rfl)), List.append_assoc]
    rw [List.singleton_append, h1]
    exact walk_cons_next rest (step_close w1 '}' '{' w.stack (Or.inl rfl) hstack)
/-- The same for the elements of an array. -/
theorem walk_quiet_elems : ∀ (es : Elems) (w : Walker) (rest : List Token),
    es.quiet = true → w.Calm → w.stack.head? = some '[' →
    ∃ w1, walk w (es.tokens ++ rest) = walk w1 rest ∧ w1.Calm ∧ w.Same w1
  | Elems.nil, w, rest, _, hc, _ => ⟨w, rfl, hc, ⟨rfl, rfl, rfl, rfl, rfl⟩⟩
  | Elems.cons v es, w, rest, hq, hc, hs => by
    have hq' : v.quiet = true ∧ es.quiet = true := by simpa [Elems.quiet] using hq
    obtain ⟨w1, h1, hc1, hs1, _⟩ := walk_quiet_json v w (es.tokens ++ rest) hq'.1 hc
      (fun h => by rw [hs] at h; simp at h)
    obtain ⟨w2, h2, hc2, hs2⟩ := walk_quiet_elems es w1 rest hq'.2 hc1 (by rw [hs1.1]; exact hs)
    refine ⟨w2, ?_, hc2, ?_⟩
    · show walk w (v.tokens ++ es.tokens ++ rest) = _
      rw [List.append_assoc, h1, h2]
    · exact ⟨hs2.1.trans hs1.1, hs2.2.1.trans hs1.2.1, hs2.2.2.1.trans hs1.2.2.1,
        hs2.2.2.2.1.trans hs1.2.2.2.1, hs2.2.2.2.2.trans hs1.2.2.2.2⟩
/-- The same for the members of an object. -/
theorem walk_quiet_members : ∀ (ms : Members) (w : Walker) (rest : List Token),
    ms.quiet = true → w.Calm → w.stack.head? = some '{' → w.idx % 2 = 0 →
    ∃ w1, walk w (ms.tokens ++ rest) = walk w1 rest ∧ w1.Calm ∧ w.Same w1 ∧ w1.idx % 2 = 0
  | Members.nil, w, rest, _, hc, _, hi => ⟨w, rfl, hc, ⟨rfl, rfl, rfl, rfl, rfl⟩, hi⟩
  | Members.cons k v ms, w, rest, hq, hc, hs, hi => by
    have hq' : (k ≠ pageInfoKey ∧ v.quiet = true) ∧ ms.quiet = true := by
      simpa [Members.quiet] using hq
    obtain ⟨below, hbelow⟩ : ∃ below, w.stack = '{' :: below := by
      rcases hw : w.stack with _ | ⟨top, below⟩
      · rw [hw] at hs; simp at hs
      · rw [hw] at hs; simp at hs; exact ⟨below, by rw [hs]⟩
    obtain ⟨w1, h1, hc1, hs1, hk1⟩ := walk_quiet_json v
      { w with idx := w.idx + 1, lastKey := k } (ms.tokens ++ rest) hq'.1.2
      ⟨hq'.1.1, hc.2⟩ (fun _ => by show (w.idx + 1) % 2 = 1; omega)
    have hstack1 : w1.stack = w.stack := hs1.1
    obtain ⟨w2, h2, hc2, hs2, hi2⟩ := walk_quiet_members ms w1 rest hq'.2 hc1
      (by rw [hstack1]; exact hs) (hk1 (by rw [hstack1]; exact hs))
    refine ⟨w2, ?_, hc2, ?_, hi2⟩
    · show walk w (Token.str k :: (v.tokens ++ ms.tokens) ++ rest) = _
      rw [List.cons_append, walk_cons_next _ (step_key w k below hbelow hi), List.append_assoc,
        h1, h2]
    · exact ⟨hs2.1.trans hs1.1, hs2.2.1.trans hs1.2.1, hs2.2.2.1.trans hs1.2.2.1,
        hs2.2.2.2.1.trans hs1.2.2.2.1, hs2.2.2.2.2.trans hs1.2.2.2.2⟩
end

theorem step_value_str (w : Walker) (s : GoString) (below : List Char)
    (hs : w.stack = '{' :: below) (hi : w.idx % 2 = 1) :
    step w (Token.str s) =
      if w.contextKey = pageInfoKey ∧ w.lastKey = endCursorKey then
        if w.foundNextPage then
          Step.stop { w with idx := w.idx + 1, endCursor := s, foundEndCursor := true }
        else Step.next { w with idx := w.idx + 1, endCursor := s, foundEndCursor := true }
      else Step.next { w with idx := w.idx + 1 } := by
  have hi' : ¬ w.idx % 2 = 0 := by omega
  simp [step, hs, hi']

theorem step_value_bool (w : Walker) (b : Bool) :
    step w (Token.bool b) =
      if w.contextKey = pageInfoKey ∧ w.lastKey = hasNextPageKey then
        if w.foundEndCursor then
          Step.stop { w with idx := w.idx + 1, hasNextPage := b, foundNextPage := true }
        else Step.next { w with idx := w.idx + 1, hasNextPage := b, foundNextPage := true }
      else Step.next { w with idx := w.idx + 1 } := by
  simp [step]

/-- A scalar member of a `pageInfo` object whose key is neither `endCursor` nor
`hasNextPage` only advances `idx`. -/
theorem step_scalar_other (w : Walker) (v : JSON) (below : List Char) (hv : v.isScalar = true)
    (hs : w.stack = '{' :: below) (hi : w.idx % 2 = 1)
    (h1 : w.lastKey ≠ endCursorKey) (h2 : w.lastKey ≠ hasNextPageKey) :
    ∃ t, v.tokens = [t] ∧ step w t = Step.next { w with idx := w.idx + 1 } := by
  cases v with
  | null => exact ⟨_, rfl, rfl⟩
  | num t => exact ⟨_, rfl, rfl⟩
  | bool b => exact ⟨_, rfl, by rw [step_value_bool]; simp [h2]⟩
  | str s => exact ⟨_, rfl, by rw [step_value_str w s below hs hi]; simp [h1]⟩
  | arr es => simp [JSON.isScalar] at hv
  | obj ms => simp [JSON.isScalar] at hv

theorem step_endCursor (w : Walker) (s : GoString) (below : List Char)
    (hs : w.stack = '{' :: below) (hi : w.idx % 2 = 1) (hc : w.contextKey = pageInfoKey)
    (hk : w.lastKey = endCursorKey) :
    (w.foundNextPage = true → step w (Token.str s)
        = Step.stop { w with idx := w.idx + 1, endCursor := s, foundEndCursor := true })
    ∧ (w.foundNextPage = false → step w (Token.str s)
        = Step.next { w with idx := w.idx + 1, endCursor := s, foundEndCursor := true }) := by
  rw [step_value_str w s below hs hi, if_pos ⟨hc, hk⟩]
  constructor <;> (intro h; simp [h])

theorem step_hasNextPage (w : Walker) (b : Bool) (hc : w.contextKey = pageInfoKey)
    (hk : w.lastKey = hasNextPageKey) :
    (w.foundEndCursor = true → step w (Token.bool b)
        = Step.stop { w with idx := w.idx + 1, hasNextPage := b, foundNextPage := true })
    ∧ (w.foundEndCursor = false → step w (Token.bool b)
        = Step.next { w with idx := w.idx + 1, hasNextPage := b, foundNextPage := true }) := by
  rw [step_value_bool, if_pos ⟨hc, hk⟩]
  constructor <;> (intro h; simp [h])

/-- Inside the `pageInfo` object the loop is left as soon as both values are known. -/
theorem walk_pageInfo_members (b : Bool) (c : GoString) :
    ∀ (ms : Members) (sc sn : Bool) (w : Walker) (rest : List Token),
      Members.pageInfo b c sc sn ms = true →
      w.contextKey = pageInfoKey → w.stack.head? = some '{' → w.idx % 2 = 0 →
      w.foundEndCursor = sc → w.foundNextPage = sn →
      (sc = true → w.endCursor = c) → (sn = true → w.hasNextPage = b) →
      (sc && sn) = false →
      ∃ w1, walk w (ms.tokens ++ rest) = Step.stop w1 ∧ w1.endCursor = c ∧ w1.hasNextPage = b
  | Members.nil, sc, sn, w, rest, h, _, _, _, _, _, _, _, _ => by
    simp [Members.pageInfo] at h
  | Members.cons k v ms, sc, sn, w, rest, h, hctx, hs, hi, hfe, hfn, hce, hcn, hboth => by
    obtain ⟨below, hbelow⟩ : ∃ below, w.stack = '{' :: below := by
      rcases hw : w.stack with _ | ⟨top, below⟩
      · rw [hw] at hs; simp at hs
      · rw [hw] at hs; simp at hs; exact ⟨below, by rw [hs]⟩
    have hkey := step_key w k below hbelow hi
    have hodd : (w.idx + 1) % 2 = 1 := by omega
    have heven : (w.idx + 1 + 1) % 2 = 0 := by omega
    unfold Members.pageInfo at h
    by_cases hk1 : k = endCursorKey
    · rw [if_pos hk1] at h
      simp only [Bool.and_eq_true, Bool.not_eq_true', Bool.or_eq_true] at h
      obtain ⟨⟨hsc, hv⟩, hrest⟩ := h
      cases v with
      | str s =>
        have hsc' : s = c := by simpa [JSON.isStr] using hv
        have hval := step_endCursor { w with idx := w.idx + 1, lastKey := k } s below hbelow hodd
          hctx hk1
        show ∃ w1, walk w (Token.str k :: ([Token.str s] ++ ms.tokens) ++ rest) = _ ∧ _
        rw [List.cons_append, walk_cons_next _ hkey, List.append_assoc, List.singleton_append]
        cases sn with
        | true => exact ⟨_, walk_cons_stop _ (hval.1 hfn), hsc', hcn rfl⟩
        | false =>
          rw [walk_cons_next _ (hval.2 hfn)]
          have hrest' : Members.pageInfo b c true false ms = true := by
            simpa using hrest
          exact walk_pageInfo_members b c ms true false _ rest hrest' hctx hs heven rfl hfn
            (fun _ => hsc') (fun h => by simp at h) rfl
      | null => simp [JSON.isStr] at hv
      | bool _ => simp [JSON.isStr] at hv
      | num _ => simp [JSON.isStr] at hv
      | arr _ => simp [JSON.isStr] at hv
      | obj _ => simp [JSON.isStr] at hv
    · by_cases hk2 : k = hasNextPageKey
      · rw [if_neg hk1, if_pos hk2] at h
        simp only [Bool.and_eq_true, Bool.not_eq_true', Bool.or_eq_true] at h
        obtain ⟨⟨hsn, hv⟩, hrest⟩ := h
        cases v with
        | bool x =>
          have hx : x = b := by simpa [JSON.isBool] using hv
          have hval := step_hasNextPage { w with idx := w.idx + 1, lastKey := k } x hctx hk2
          show ∃ w1, walk w (Token.str k :: ([Token.bool x] ++ ms.tokens) ++ rest) = _ ∧ _
          rw [List.cons_append, walk_cons_next _ hkey, List.append_assoc, List.singleton_append]
          cases sc with
          | true => exact ⟨_, walk_cons_stop _ (hval.1 hfe), hce rfl, hx⟩
          | false =>
            rw [walk_cons_next _ (hval.2 hfe)]
            have hrest' : Members.pageInfo b c false true ms = true := by
              simpa using hrest
            exact walk_pageInfo_members b c ms false true _ rest hrest' hctx hs heven hfe rfl
              (fun h => by simp at h) (fun _ => hx) rfl
        | null => simp [JSON.isBool] at hv
        | str _ => simp [JSON.isBool] at hv
        | num _ => simp [JSON.isBool] at hv
        | arr _ => simp [JSON.isBool] at hv
        | obj _ => simp [JSON.isBool] at hv
      · rw [if_neg hk1, if_neg hk2] at h
        simp only [Bool.and_eq_true] at h
        obtain ⟨t, ht, hval⟩ := step_scalar_other { w with idx := w.idx + 1, lastKey := k } v
          below h.1 hbelow hodd hk1 hk2
        show ∃ w1, walk w (Token.str k :: (v.tokens ++ ms.tokens) ++ rest) = _ ∧ _
        rw [ht, List.cons_append, walk_cons_next _ hkey, List.append_assoc,
          List.singleton_append, walk_cons_next _ hval]
        exact walk_pageInfo_members b c ms sc sn _ rest h.2 hctx hs heven hfe hfn hce hcn hboth

theorem head_cons_of_head? {w : Walker} {c : Char} (hs : w.stack.head? = some c) :
    ∃ below, w.stack = c :: below := by
  rcases hw : w.stack with _ | ⟨top, below⟩
  · rw [hw] at hs; simp at hs
  · rw [hw] at hs; simp at hs; exact ⟨below, by rw [hs]⟩

mutual
/-- Walking a document whose first key `pageInfo` holds the two values, from a calm
walker that has found nothing yet, leaves the loop with the two values. -/
theorem walk_hasPageInfo_json (b : Bool) (c : GoString) :
    ∀ (v : JSON) (w : Walker) (rest : List Token),
      v.hasPageInfo b c = true → w.Calm → w.foundEndCursor = false → w.foundNextPage = false →
      ∃ w1, walk w (v.tokens ++ rest) = Step.stop w1 ∧ w1.endCursor = c ∧ w1.hasNextPage = b
  | JSON.null, _, _, h, _, _, _ => by simp [JSON.hasPageInfo] at h
  | JSON.bool _, _, _, h, _, _, _ => by simp [JSON.hasPageInfo] at h
  | JSON.num _, _, _, h, _, _, _ => by simp [JSON.hasPageInfo] at h
  | JSON.str _, _, _, h, _, _, _ => by simp [JSON.hasPageInfo] at h
  | JSON.arr es, w, rest, h, hc, hfe, hfn => by
    obtain ⟨w1, h1, h2⟩ := walk_hasPageInfo_elems b c es
      { w with stack := '[' :: w.stack, contextKey := w.lastKey, idx := 0 }
      (Token.delim ']' :: rest) (by simpa [JSON.hasPageInfo] using h) ⟨hc.1, hc.1⟩ rfl hfe hfn
    refine ⟨w1, ?_, h2⟩
    show walk w (Token.delim '[' :: (es.tokens ++ [Token.delim ']']) ++ rest) = _
    rw [List.cons_append, walk_cons_next _ (step_open w '[' (Or.inr rfl)), List.append_assoc,
      List.singleton_append, h1]
  | JSON.obj ms, w, rest, h, hc, hfe, hfn => by
    obtain ⟨w1, h1, h2⟩ := walk_hasPageInfo_members b c ms
      { w with stack := '{' :: w.stack, contextKey := w.lastKey, idx := 0 }
      (Token.delim '}' :: rest) (by simpa [JSON.hasPageInfo] using h) ⟨hc.1, hc.1⟩ rfl rfl hfe hfn
    refine ⟨w1, ?_, h2⟩
    show walk w (Token.delim '{' :: (ms.tokens ++ [Token.delim '}']) ++ rest) = _
    rw [List.cons_append, walk_cons_next _ (step_open w '{' (Or.inl rfl)), List.append_assoc,
      List.singleton_append, h1]
/-- The same for the elements of an array. -/
theorem walk_hasPageInfo_elems (b : Bool) (c : GoString) :
    ∀ (es : Elems) (w : Walker) (rest : List Token),
      es.hasPageInfo b c = true → w.Calm → w.stack.head? = some '[' →
      w.foundEndCursor = false → w.foundNextPage = false →
      ∃ w1, walk w (es.tokens ++ rest) = Step.stop w1 ∧ w1.endCursor = c ∧ w1.hasNextPage = b
  | Elems.nil, _, _, h, _, _, _, _ => by simp [Elems.hasPageInfo] at h
  | Elems.cons v es, w, rest, h, hc, hs, hfe, hfn => by
    unfold Elems.hasPageInfo at h
    show ∃ w1, walk w (v.tokens ++ es.tokens ++ rest) = _ ∧ _
    rw [List.append_assoc]
    by_cases hq : v.quiet = true
    · rw [if_pos hq] at h
      obtain ⟨w1, h1, hc1, hs1, _⟩ := walk_quiet_json v w (es.tokens ++ rest) hq hc
        (fun h => by rw [hs] at h; simp at h)
      rw [h1]
      exact walk_hasPageInfo_elems b c es w1 rest h hc1 (by rw [hs1.1]; exact hs)
        (hs1.2.2.2.1.trans hfe) (hs1.2.2.2.2.trans hfn)
    · rw [if_neg hq] at h
      exact walk_hasPageInfo_json b c v w (es.tokens ++ rest) h hc hfe hfn
/-- The same for the members of an object. -/
theorem walk_hasPageInfo_members (b : Bool) (c : GoString) :
    ∀ (ms : Members) (w : Walker) (rest : List Token),
      ms.hasPageInfo b c = true → w.Calm → w.stack.head? = some '{' → w.idx % 2 = 0 →
      w.foundEndCursor = false → w.foundNextPage = false →
      ∃ w1, walk w (ms.tokens ++ rest) = Step.stop w1 ∧ w1.endCursor = c ∧ w1.hasNextPage = b
  | Members.nil, _, _, h, _, _, _, _, _ => by simp [Members.hasPageInfo] at h
  | Members.cons k v ms, w, rest, h, hc, hs, hi, hfe, hfn => by
    obtain ⟨below, hbelow⟩ := head_cons_of_head? hs
    unfold Members.hasPageInfo at h
    show ∃ w1, walk w (Token.str k :: (v.tokens ++ ms.tokens) ++ rest) = _ ∧ _
    rw [List.cons_append, walk_cons_next _ (step_key w k below hbelow hi), List.append_assoc]
    by_cases hk : k = pageInfoKey
    · rw [if_pos hk] at h
      cases v with
      | obj P =>
        have hP : Members.pageInfo b c false false P = true := by
          simpa [JSON.isPageInfo] using h
        obtain ⟨w1, h1, h2⟩ := walk_pageInfo_members b c P false false
          { w with idx := 0, lastKey := k, stack := '{' :: w.stack, contextKey := k }
          (Token.delim '}' :: (ms.tokens ++ rest)) hP hk rfl rfl hfe hfn
          (fun h => by simp at h) (fun h => by simp at h) rfl
        refine ⟨w1, ?_, h2⟩
        show walk _ (Token.delim '{' :: (P.tokens ++ [Token.delim '}']) ++ (ms.tokens ++ rest)) = _
        rw [List.cons_append, walk_cons_next _ (step_open _ '{' (Or.inl rfl)), List.append_assoc,
          List.singleton_append]
        exact h1
      | null => simp [JSON.isPageInfo] at h
      | bool _ => simp [JSON.isPageInfo] at h
      | num _ => simp [JSON.isPageInfo] at h
      | str _ => simp [JSON.isPageInfo] at h
      | arr _ => simp [JSON.isPageInfo] at h
    · rw [if_neg hk] at h
      have hca : ({ w with idx := w.idx + 1, lastKey := k } : Walker).Calm := ⟨hk, hc.2⟩
      by_cases hq : v.quiet = true
      · rw [if_pos hq] at h
        obtain ⟨w1, h1, hc1, hs1, hk1⟩ := walk_quiet_json v
          { w with idx := w.idx + 1, lastKey := k } (ms.tokens ++ rest) hq hca
          (fun _ => by show (w.idx + 1) % 2 = 1; omega)
        have hstack1 : w1.stack = w.stack := hs1.1
        rw [h1]
        exact walk_hasPageInfo_members b c ms w1 rest h hc1 (by rw [hstack1]; exact hs)
          (hk1 (by rw [hstack1]; exact hs)) (hs1.2.2.2.1.trans hfe) (hs1.2.2.2.2.trans hfn)
      · rw [if_neg hq] at h
        exact walk_hasPageInfo_json b c v _ (ms.tokens ++ rest) h hca hfe hfn
end

theorem calm_init : ({} : Walker).Calm := ⟨by decide, by decide⟩

theorem findEndCursor_of_hasPageInfo (doc : JSON) (b : Bool) (c : GoString)
    (h : doc.hasPageInfo b c = true) :
    findEndCursor doc.tokens false = some (if b then c else []) := by
  obtain ⟨w1, h1, h2, h3⟩ := walk_hasPageInfo_json b c doc {} [] h calm_init rfl rfl
  rw [List.append_nil] at h1
  simp only [findEndCursor, h1, Walker.result, h2, h3]

theorem findEndCursor_of_quiet (doc : JSON) (h : doc.quiet = true) :
    findEndCursor doc.tokens false = some [] := by
  obtain ⟨w1, h1, -, hs, -⟩ := walk_quiet_json doc {} [] h calm_init (fun h => by simp at h)
  rw [List.append_nil] at h1
  have hres : w1.result = [] := by
    have : w1.hasNextPage = false := hs.2.2.1
    simp [Walker.result, this]
  simp only [findEndCursor, h1, walk, hres]
  simp

/-- Claim C7 (amended): for a well-formed document whose first key `pageInfo` has as
its value an object with members `hasNextPage = b` and `endCursor = c` (in either
order, with scalar members only before and between them), `findEndCursor` returns
`c` when `b` is true and the empty string when `b` is false; for a document without
any key `pageInfo` it returns the empty string. -/
theorem findEndCursor_pageInfo (doc : JSON) :
    (∀ (b : Bool) (c : GoString), doc.hasPageInfo b c = true →
        findEndCursor doc.tokens false = some (if b then c else []))
    ∧ (doc.quiet = true → findEndCursor doc.tokens false = some []) :=
  ⟨findEndCursor_of_hasPageInfo doc, findEndCursor_of_quiet doc⟩

theorem findEndCursor_pageInfo_witness :
    (docIssues true).hasPageInfo true "Y3Vyc29y".toList = true
    ∧ (docIssues false).hasPageInfo false "Y3Vyc29y".toList = true
    ∧ (JSON.arr Elems.nil).quiet = true
    ∧ findEndCursor (docIssues true).tokens false = some "Y3Vyc29y".toList
    ∧ findEndCursor (docIssues false).tokens false = some []
    ∧ findEndCursor (JSON.arr Elems.nil).tokens false = some [] :=
  ⟨by decide, by decide, by decide,
   (findEndCursor_pageInfo (docIssues true)).1 true "Y3Vyc29y".toList (by decide),
   (findEndCursor_pageInfo (docIssues false)).1 false "Y3Vyc29y".toList (by decide),
   (findEndCursor_pageInfo (JSON.arr Elems.nil)).2 (by decide)⟩

/-- Claim C7 as stated fails: when an array member precedes the two values inside
the `pageInfo` object the result is empty although `hasNextPage` is true, and a
document without a `pageInfo` object can give a cursor. -/
theorem findEndCursor_misses_and_invents :
    findEndCursor docArrayMember.tokens false = some []
    ∧ findEndCursor docStaleKey.tokens false = some "x".toList := by
  decide

mutual
/-- A document that holds the two values has a key `pageInfo`. -/
theorem not_quiet_of_hasPageInfo_json (b : Bool) (c : GoString) :
    ∀ (v : JSON), v.hasPageInfo b c = true → v.quiet = false
  | JSON.null, h => by simp [JSON.hasPageInfo] at h
  | JSON.bool _, h => by simp [JSON.hasPageInfo] at h
  | JSON.num _, h => by simp [JSON.hasPageInfo] at h
  | JSON.str _, h => by simp [JSON.hasPageInfo] at h
  | JSON.arr es, h => by
    have := not_quiet_of_hasPageInfo_elems b c es (by simpa [JSON.hasPageInfo] using h)
    simpa [JSON.quiet] using this
  | JSON.obj ms, h => by
    have := not_quiet_of_hasPageInfo_members b c ms (by simpa [JSON.hasPageInfo] using h)
    simpa [JSON.quiet] using this
/-- The same for the elements of an array. -/
theorem not_quiet_of_hasPageInfo_elems (b : Bool) (c : GoString) :
    ∀ (es : Elems), es.hasPageInfo b c = true → es.quiet = false
  | Elems.nil, h => by simp [Elems.hasPageInfo] at h
  | Elems.cons v es, h => by
    unfold Elems.hasPageInfo at h
    unfold Elems.quiet
    by_cases hq : v.quiet = true
    · rw [if_pos hq] at h
      rw [not_quiet_of_hasPageInfo_elems b c es h]; simp
    · simp [hq]
/-- The same for the members of an object. -/
theorem not_quiet_of_hasPageInfo_members (b : Bool) (c : GoString) :
    ∀ (ms : Members), ms.hasPageInfo b c = true → ms.quiet = false
  | Members.nil, h => by simp [Members.hasPageInfo] at h
  | Members.cons k v ms, h => by
    unfold Members.hasPageInfo at h
    unfold Members.quiet
    by_cases hk : k = pageInfoKey
    · simp [hk]
    · rw [if_neg hk] at h
      by_cases hq : v.quiet = true
      · rw [if_pos hq] at h
        rw [not_quiet_of_hasPageInfo_members b c ms h]; simp
      · simp [hq]
end

theorem hasPageInfo_append_elems (b : Bool) (c : GoString) (v : JSON) (after : Elems)
    (hv : v.hasPageInfo b c = true) :
    ∀ (before : Elems), before.quiet = true →
      (before.append (Elems.cons v after)).hasPageInfo b c = true
  | Elems.nil, _ => by
    have hq := not_quiet_of_hasPageInfo_json b c v hv
    simp [Elems.append, Elems.hasPageInfo, hq, hv]
  | Elems.cons u before, h => by
    have h' : u.quiet = true ∧ before.quiet = true := by simpa [Elems.quiet] using h
    simp only [Elems.append, Elems.hasPageInfo, h'.1, if_true]
    exact hasPageInfo_append_elems b c v after hv before h'.2

theorem hasPageInfo_append_members (b : Bool) (c : GoString) (key : GoString) (v : JSON)
    (after : Members)
    (hv : (key = pageInfoKey ∧ v.isPageInfo b c = true)
      ∨ (key ≠ pageInfoKey ∧ v.hasPageInfo b c = true)) :
    ∀ (before : Members), before.quiet = true →
      (before.append (Members.cons key v after)).hasPageInfo b c = true
  | Members.nil, _ => by
    rcases hv with ⟨hk, hv⟩ | ⟨hk, hv⟩
    · simp [Members.append, Members.hasPageInfo, hk, hv]
    · have hq := not_quiet_of_hasPageInfo_json b c v hv
      simp [Members.append, Members.hasPageInfo, hk, hq, hv]
  | Members.cons k u before, h => by
    have h' : (k ≠ pageInfoKey ∧ u.quiet = true) ∧ before.quiet = true := by
      simpa [Members.quiet] using h
    simp only [Members.append, Members.hasPageInfo, h'.1.1, h'.1.2, if_true, if_false]
    exact hasPageInfo_append_members b c key v after hv before h'.2

theorem plug_hasPageInfo (b : Bool) (c : GoString) (v : JSON) (hv : v.hasPageInfo b c = true) :
    ∀ (frames : List Frame), frames.all Frame.ok = true →
      (plug frames v).hasPageInfo b c = true
  | [], _ => hv
  | f :: fs, h => by
    have h' : f.ok = true ∧ fs.all Frame.ok = true := by simpa using h
    have ih := plug_hasPageInfo b c v hv fs h'.2
    cases f with
    | inArr before after =>
      simp only [plug, Frame.plug, JSON.hasPageInfo]
      exact hasPageInfo_append_elems b c _ after ih before (by simpa [Frame.ok] using h'.1)
    | inObj before key after =>
      have hok : before.quiet = true ∧ key ≠ pageInfoKey := by simpa [Frame.ok] using h'.1
      simp only [plug, Frame.plug, JSON.hasPageInfo]
      exact hasPageInfo_append_members b c key _ after (Or.inr ⟨hok.2, ih⟩) before hok.1

/-- Claim C8 (amended): wherever an object sits that is the value of a key `pageInfo`
(inside any frames of arrays and objects) and whatever follows it, if nothing
before it in the document has a key `pageInfo` and it has the members
`hasNextPage = true` and `endCursor = c` with scalar members only before and
between them, `findEndCursor` returns `c`. -/
theorem findEndCursor_at_any_depth (frames : List Frame) (before after info : Members)
    (c : GoString) (hframes : frames.all Frame.ok = true) (hbefore : before.quiet = true)
    (hinfo : Members.pageInfo true c false false info = true) :
    findEndCursor
        (plug frames (JSON.obj
          (before.append (Members.cons pageInfoKey (JSON.obj info) after)))).tokens false
      = some c := by
  have h1 : (JSON.obj (before.append
      (Members.cons pageInfoKey (JSON.obj info) after))).hasPageInfo true c = true := by
    simp only [JSON.hasPageInfo]
    exact hasPageInfo_append_members true c pageInfoKey _ after
      (Or.inl ⟨rfl, by simpa [JSON.isPageInfo] using hinfo⟩) before hbefore
  have h2 := plug_hasPageInfo true c _ h1 frames hframes
  simpa using findEndCursor_of_hasPageInfo _ true c h2

theorem findEndCursor_at_any_depth_witness :
    commentsFrames.all Frame.ok = true
    ∧ (Members.ofList [("totalCount", JSON.num "2".toList)]).quiet = true
    ∧ Members.pageInfo true "e".toList false false commentsInfo = true
    ∧ findEndCursor
        (plug commentsFrames (JSON.obj
          ((Members.ofList [("totalCount", JSON.num "2".toList)]).append
            (Members.cons pageInfoKey (JSON.obj commentsInfo) commentsAfter)))).tokens false
      = some "e".toList :=
  ⟨by decide, by decide, by decide,
   findEndCursor_at_any_depth commentsFrames
     (Members.ofList [("totalCount", JSON.num "2".toList)]) commentsAfter commentsInfo "e".toList
     (by decide) (by decide) (by decide)⟩

/-- Claim C8 as stated fails: in
`{"data":{"search":{"pageInfo":{"facets":{},"hasNextPage":true,"endCursor":"c"}}}}`
an object member comes before the two values of the only `pageInfo` object, and
`findEndCursor` returns the empty string instead of `c`. -/
theorem findEndCursor_lost_after_object_member :
    findEndCursor docObjectMember.tokens false = some [] := by
  decide

/-- Claim C9 at the document
`{"nodes":[{"id":1,"pageInfo":null},{"endCursor":"x","hasNextPage":true}]}`: the
second element of `nodes` is not the value of a key `pageInfo`, yet its members
decide the result (`x`; `y` when its `endCursor` is `y`; empty without it). -/
theorem findEndCursor_reads_sibling_object :
    findEndCursor (docSibling "x").tokens false = some "x".toList
    ∧ findEndCursor (docSibling "y").tokens false = some "y".toList
    ∧ findEndCursor docNoSibling.tokens false = some [] := by
  decide


/-! ## Lemmas on `findNextPage` -/

theorem matchLinkRE_of_ne (c : Char) (t : GoString) (h : c ≠ '<') :
    matchLinkRE (c :: t) = none := by
  unfold matchLinkRE
  split
  · rename_i s1 heq
    simp only [List.cons.injEq] at heq
    exact absurd heq.1 h
  · rfl

theorem stripLiteral_append (lit s : GoString) : stripLiteral lit (lit ++ s) = some s := by
  induction lit with
  | nil => cases s <;> rfl
  | cons a lit ih => simp [stripLiteral, ih]

theorem matchLinkRE_linkText (target rel tail : GoString) (h1 : target ≠ [])
    (h2 : '>' ∉ target) (h3 : rel ≠ []) (h4 : dquote ∉ rel) :
    matchLinkRE (linkText target rel ++ tail) = some (target, rel, tail) := by
  have e1 : linkText target rel ++ tail
      = '<' :: (target ++ '>' :: (';' :: ' ' :: (relOpen ++ (rel ++ dquote :: tail)))) := by
    simp [linkText]
  have hcut1 := Cut_append_sep '>' target (';' :: ' ' :: (relOpen ++ (rel ++ dquote :: tail))) h2
  have hcut2 := Cut_append_sep dquote rel tail h4
  have hdrop : (' ' :: (relOpen ++ (rel ++ dquote :: tail))).dropWhile isSpaceRE
      = relOpen ++ (rel ++ dquote :: tail) := by
    simp [relOpen, List.dropWhile, isSpaceRE]
  rw [e1]
  unfold matchLinkRE
  simp only [hcut1, h1, ne_eq, not_false_eq_true, and_self, if_true, hdrop, stripLiteral_append,
    hcut2, h3]


theorem findAllLinks_skip (a s : GoString) :
    findAllLinks a.length (a ++ s) = findAllLinks 0 s := by
  induction a with
  | nil => rfl
  | cons c t ih => simpa [findAllLinks] using ih

theorem findAllLinks_gap (gap s : GoString) (h : '<' ∉ gap) :
    findAllLinks 0 (gap ++ s) = findAllLinks 0 s := by
  induction gap with
  | nil => rfl
  | cons c t ih =>
    have hc : c ≠ '<' := fun e => h (by simp [e])
    have ht : '<' ∉ t := fun e => h (by simp [e])
    simp only [List.cons_append, findAllLinks, matchLinkRE_of_ne c _ hc]
    exact ih ht

theorem findAllLinks_linkText (target rel tail : GoString) (h1 : target ≠ [])
    (h2 : '>' ∉ target) (h3 : rel ≠ []) (h4 : dquote ∉ rel) :
    findAllLinks 0 (linkText target rel ++ tail) = (target, rel) :: findAllLinks 0 tail := by
  have hm := matchLinkRE_linkText target rel tail h1 h2 h3 h4
  obtain ⟨body, hbody⟩ : ∃ body, linkText target rel = '<' :: body :=
    ⟨_, by simp only [linkText]; rfl⟩
  rw [hbody] at hm ⊢
  rw [List.cons_append] at hm ⊢
  simp only [findAllLinks, hm]
  have hlen : ('<' :: (body ++ tail)).length - tail.length - 1 = body.length := by
    simp only [List.length_cons, List.length_append]; omega
  rw [hlen, findAllLinks_skip]

theorem not_mem_of_contains_false {s : GoString} {c : Char} (h : (!s.contains c) = true) :
    c ∉ s := by
  intro hc
  simp only [Bool.not_eq_true', List.contains_eq_any_beq, List.any_eq_false, beq_iff_eq] at h
  exact h c hc rfl

theorem ne_nil_of_isEmpty_false {s : GoString} (h : (!s.isEmpty) = true) : s ≠ [] := by
  intro hs; rw [hs] at h; simp at h

theorem renderParam_no_lt (p : GoString × GoString) (h1 : '<' ∉ p.1) (h2 : '<' ∉ p.2) :
    '<' ∉ renderParam p := by
  intro h
  simp only [renderParam, List.mem_append] at h
  rcases h with ((((h | h) | h) | h) | h) | h
  · revert h; decide
  · exact h1 h
  · revert h; decide
  · revert h; decide
  · exact h2 h
  · revert h; decide

theorem flatten_renderParam_no_lt (more : List (GoString × GoString))
    (h : more.all (fun q => !q.1.contains '<' && !q.2.contains '<') = true) :
    '<' ∉ (more.map renderParam).flatten := by
  induction more with
  | nil => simp
  | cons q more ih =>
    simp only [List.all_cons, Bool.and_eq_true] at h
    simp only [List.map_cons, List.flatten_cons, List.mem_append, not_or]
    exact ⟨renderParam_no_lt q (not_mem_of_contains_false h.1.1)
      (not_mem_of_contains_false h.1.2), ih h.2⟩

/-- The text of an entry `findNextPage` reads is a match of `linkRE` followed by text
without `<`. -/
theorem render_of_plain (l : LinkValue) (h : l.plain = true) :
    ∃ gap, l.render = linkText l.target l.rel ++ gap ∧ '<' ∉ gap
      ∧ l.target ≠ [] ∧ '>' ∉ l.target ∧ l.rel ≠ [] ∧ dquote ∉ l.rel := by
  obtain ⟨target, params⟩ := l
  simp only [LinkValue.plain, Bool.and_eq_true] at h
  obtain ⟨⟨ht1, ht2⟩, hp⟩ := h
  rcases params with _ | ⟨p, more⟩
  · simp [plainParams] at hp
  · obtain ⟨k, r⟩ := p
    simp only [plainParams, Bool.and_eq_true, decide_eq_true_eq] at hp
    obtain ⟨⟨⟨hk, hr1⟩, hr2⟩, hmore⟩ := hp
    subst hk
    have hrel : LinkValue.rel ⟨target, ("rel".toList, r) :: more⟩ = r := by
      simp [LinkValue.rel]
    refine ⟨(more.map renderParam).flatten, ?_, flatten_renderParam_no_lt more hmore,
      ne_nil_of_isEmpty_false ht1, not_mem_of_contains_false ht2, ?_, ?_⟩
    · rw [hrel]
      simp [LinkValue.render, linkText, renderParam, relOpen]
    · rw [hrel]; exact ne_nil_of_isEmpty_false hr1
    · rw [hrel]; exact not_mem_of_contains_false hr2

theorem findAllLinks_render (l : LinkValue) (tail : GoString) (h : l.plain = true) :
    ∃ gap, '<' ∉ gap ∧
      findAllLinks 0 (l.render ++ tail) = (l.target, l.rel) :: findAllLinks 0 (gap ++ tail) := by
  obtain ⟨gap, hr, hgap, h1, h2, h3, h4⟩ := render_of_plain l h
  refine ⟨gap, hgap, ?_⟩
  rw [hr, List.append_assoc, findAllLinks_linkText _ _ _ h1 h2 h3 h4]

theorem findAllLinks_renderLinks (ls : List LinkValue) (h : ∀ l ∈ ls, l.plain = true) :
    findAllLinks 0 (renderLinks ls) = ls.map (fun l => (l.target, l.rel)) := by
  induction ls with
  | nil => rfl
  | cons l ls ih =>
    have hl := h l (by simp)
    have hls : ∀ x ∈ ls, x.plain = true := fun x hx => h x (by simp [hx])
    rcases ls with _ | ⟨l2, ls⟩
    · obtain ⟨gap, hgap, hf⟩ := findAllLinks_render l [] hl
      rw [List.append_nil] at hf
      have := findAllLinks_gap gap [] hgap
      rw [List.append_nil] at hf
      simp only [renderLinks, hf, List.map_cons, List.map_nil]
      rw [List.append_nil] at this
      rw [this]; rfl
    · obtain ⟨gap, hgap, hf⟩ := findAllLinks_render l (", ".toList ++ renderLinks (l2 :: ls)) hl
      have hgap2 : '<' ∉ gap ++ ", ".toList := by
        intro hm
        rcases List.mem_append.mp hm with hm | hm
        · exact hgap hm
        · revert hm; decide
      have e : renderLinks (l :: l2 :: ls) = l.render ++ (", ".toList ++ renderLinks (l2 :: ls)) := by
        simp [renderLinks]
      rw [e, hf, ← List.append_assoc, findAllLinks_gap _ _ hgap2, ih hls]
      rfl

theorem firstNext_map (ls : List LinkValue) :
    firstNext (ls.map (fun l => (l.target, l.rel))) = nextOfLinks ls := by
  induction ls with
  | nil => rfl
  | cons l ls ih => simp only [List.map_cons, firstNext, nextOfLinks, ih]

/-- Claim C10 (amended): for every `Link` header whose entries have `rel` as their
first parameter (`<U>; rel="R"`, with `U` non-empty and without `>`, `R` non-empty
and without `"`, and no `<` in later parameters), `findNextPage` returns
`(U, true)` for the first entry whose `rel` value is `next` and `("", false)` when
there is none; the empty header is the case of no entry. -/
theorem findNextPage_of_plain_links (ls : List LinkValue)
    (h : ∀ l ∈ ls, l.plain = true) :
    findNextPage (renderLinks ls) = nextOfLinks ls := by
  rw [findNextPage, findAllLinks_renderLinks ls h, firstNext_map]

theorem findNextPage_of_plain_links_witness :
    (∀ l ∈ threeLinks, l.plain = true)
    ∧ findNextPage (renderLinks threeLinks) = ("https://api.github.com/r?page=3".toList, true) :=
  ⟨by decide, (findNextPage_of_plain_links threeLinks (by decide)).trans (by decide)⟩

/-- Claim C10 as stated fails: in the header
`<https://api.github.com/r?page=2>; title="x"; rel="next"` the only entry has the
`rel` value `next`, and `findNextPage` returns `("", false)`. -/
theorem findNextPage_misses_rel_after_title :
    nextOfLinks relSecond = ("https://api.github.com/r?page=2".toList, true)
    ∧ findNextPage (renderLinks relSecond) = ([], false) := by
  decide

/-! ## The delimiter stack of `findEndCursor` -/

theorem popDelim_some {opener : Char} {stack below : List Char}
    (h : popDelim opener stack = some below) : stack = opener :: below := by
  cases stack with
  | nil => simp [popDelim] at h
  | cons top rest =>
    rw [popDelim] at h
    by_cases ht : top = opener
    · rw [if_pos ht] at h
      cases h
      rw [ht]
    · rw [if_neg ht] at h
      cases h

theorem step_scalar_ne_panic (w : Walker) (t : Token) (ht : ∀ c, t ≠ Token.delim c) :
    ∃ w1, (step w t = Step.next w1 ∨ step w t = Step.stop w1) ∧ w1.stack = w.stack := by
  cases t with
  | delim c => exact absurd rfl (ht c)
  | str s =>
    unfold step
    simp only
    split
    · exact ⟨_, Or.inl rfl, rfl⟩
    · split
      · split
        · exact ⟨_, Or.inr rfl, rfl⟩
        · exact ⟨_, Or.inl rfl, rfl⟩
      · exact ⟨_, Or.inl rfl, rfl⟩
  | bool b =>
    unfold step
    simp only
    split
    · split
      · exact ⟨_, Or.inr rfl, rfl⟩
      · exact ⟨_, Or.inl rfl, rfl⟩
    · exact ⟨_, Or.inl rfl, rfl⟩
  | num text => exact ⟨_, Or.inl rfl, rfl⟩
  | null => exact ⟨_, Or.inl rfl, rfl⟩

theorem openDelims_scalar (stack : List Char) (t : Token) (ts : List Token)
    (ht : ∀ c, t ≠ Token.delim c) : openDelims stack (t :: ts) = openDelims stack ts := by
  cases t with
  | delim c => exact absurd rfl (ht c)
  | str s => rw [openDelims]
  | bool b => rw [openDelims]
  | num text => rw [openDelims]
  | null => rw [openDelims]

/-- On a stream of the decoder the loop of `findEndCursor` never takes the last
element from an empty stack. -/
theorem walk_of_openDelims : ∀ (tokens : List Token) (w : Walker),
    (openDelims w.stack tokens).isSome = true → walk w tokens ≠ Step.panic := by
  intro tokens
  induction tokens with
  | nil => intro w _; simp [walk]
  | cons t ts ih =>
    intro w h
    by_cases hd : ∃ c, t = Token.delim c
    · obtain ⟨c, rfl⟩ := hd
      rw [openDelims] at h
      by_cases h1 : c = '{' ∨ c = '['
      · rw [if_pos h1] at h
        rw [walk, step_open w c h1]
        exact ih _ h
      · rw [if_neg h1] at h
        by_cases h2 : c = '}'
        · rw [if_pos h2] at h
          cases hp : popDelim '{' w.stack with
          | none => rw [hp] at h; simp at h
          | some below =>
            rw [hp] at h
            rw [walk, step_close w c _ below (Or.inl h2) (popDelim_some hp)]
            exact ih _ h
        · rw [if_neg h2] at h
          by_cases h3 : c = ']'
          · rw [if_pos h3] at h
            cases hp : popDelim '[' w.stack with
            | none => rw [hp] at h; simp at h
            | some below =>
              rw [hp] at h
              rw [walk, step_close w c _ below (Or.inr h3) (popDelim_some hp)]
              exact ih _ h
          · rw [if_neg h3] at h
            simp at h
    · have ht : ∀ c, t ≠ Token.delim c := fun c hc => hd ⟨c, hc⟩
      rw [openDelims_scalar _ _ _ ht] at h
      obtain ⟨w1, hstep, hstack⟩ := step_scalar_ne_panic w t ht
      rw [walk]
      rcases hstep with hstep | hstep
      · rw [hstep]
        exact ih w1 (by rw [hstack]; exact h)
      · rw [hstep]
        intro hc; cases hc

theorem step_foundBoth (w : Walker) (t : Token) (hw : w.foundBoth = false) :
    (∀ w1, step w t = Step.next w1 → w1.foundBoth = false)
    ∧ (∀ w1, step w t = Step.stop w1 → w1.foundBoth = true) := by
  unfold Walker.foundBoth at hw ⊢
  cases t with
  | delim c =>
    unfold step
    simp only
    refine ⟨?_, ?_⟩
    · intro w1 h
      split at h
      · cases h; exact hw
      · split at h
        · split at h
          · cases h
          · cases h; exact hw
        · cases h; exact hw
    · intro w1 h
      split at h
      · cases h
      · split at h
        · split at h <;> cases h
        · cases h
  | str s =>
    unfold step
    simp only
    refine ⟨?_, ?_⟩
    · intro w1 h
      split at h
      · cases h; exact hw
      · split at h
        · split at h
          · cases h
          · next hf =>
            cases h
            simp only [Bool.and_eq_false_imp]
            intro _
            simpa using hf
        · cases h; exact hw
    · intro w1 h
      split at h
      · cases h
      · split at h
        · split at h
          · next hf =>
            cases h
            simp [hf]
          · cases h
        · cases h
  | bool b =>
    unfold step
    simp only
    refine ⟨?_, ?_⟩
    · intro w1 h
      split at h
      · split at h
        · cases h
        · next hf =>
          cases h
          simp only [Bool.and_true]
          simpa using hf
      · cases h; exact hw
    · intro w1 h
      split at h
      · split at h
        · next hf =>
          cases h
          simp [hf]
        · cases h
      · cases h
  | num text =>
    refine ⟨?_, ?_⟩
    · intro w1 h; simp only [step] at h; cases h; exact hw
    · intro w1 h; simp only [step] at h; cases h
  | null =>
    refine ⟨?_, ?_⟩
    · intro w1 h; simp only [step] at h; cases h; exact hw
    · intro w1 h; simp only [step] at h; cases h

/-- The loop goes on as long as one of the two values is missing, and it is left by
`break loop` with both. -/
theorem walk_foundBoth : ∀ (tokens : List Token) (w : Walker), w.foundBoth = false →
    (∀ w1, walk w tokens = Step.next w1 → w1.foundBoth = false)
    ∧ (∀ w1, walk w tokens = Step.stop w1 → w1.foundBoth = true) := by
  intro tokens
  induction tokens with
  | nil =>
    intro w hw
    refine ⟨?_, ?_⟩
    · intro w1 h; simp only [walk] at h; cases h; exact hw
    · intro w1 h; simp only [walk] at h; cases h
  | cons t ts ih =>
    intro w hw
    have hstep := step_foundBoth w t hw
    rw [walk]
    cases hs : step w t with
    | next w2 => exact ih w2 (hstep.1 w2 hs)
    | stop w2 =>
      refine ⟨?_, ?_⟩
      · intro w1 h; cases h
      · intro w1 h; cases h; exact hstep.2 w2 hs
    | panic =>
      refine ⟨?_, ?_⟩
      · intro w1 h; cases h
      · intro w1 h; cases h

/-- Claim C26: on every stream of tokens in which each closing delimiter matches the
innermost open one, as the decoder guarantees, the loop of `findEndCursor` never
takes an element from an empty stack and `findEndCursor` returns a string: the
empty string when the decoder ends with an error before both values were found,
and the value of `if hasNextPage` otherwise. -/
theorem findEndCursor_never_pops_empty_stack (tokens : List Token) (failed : Bool)
    (hnested : (openDelims [] tokens).isSome = true) :
    walk {} tokens ≠ Step.panic
    ∧ ∃ s, findEndCursor tokens failed = some s
      ∧ (∀ w, walk {} tokens = Step.next w →
          w.foundBoth = false ∧ (failed = true → s = []) ∧ (failed = false → s = w.result))
      ∧ (∀ w, walk {} tokens = Step.stop w → w.foundBoth = true ∧ s = w.result) := by
  have hpanic : walk {} tokens ≠ Step.panic := walk_of_openDelims tokens {} hnested
  have hboth := walk_foundBoth tokens {} rfl
  refine ⟨hpanic, ?_⟩
  unfold findEndCursor
  cases hw : walk {} tokens with
  | panic => exact absurd hw hpanic
  | stop w =>
    refine ⟨w.result, rfl, ?_, ?_⟩
    · intro w1 h; cases h
    · intro w1 h; cases h; exact ⟨hboth.2 w hw, rfl⟩
  | next w =>
    cases failed with
    | true =>
      refine ⟨[], rfl, ?_, ?_⟩
      · intro w1 h; cases h
        exact ⟨hboth.1 w hw, fun _ => rfl, fun h => absurd h (by decide)⟩
      · intro w1 h; cases h
    | false =>
      refine ⟨w.result, rfl, ?_, ?_⟩
      · intro w1 h; cases h
        exact ⟨hboth.1 w hw, fun h => absurd h (by decide), fun _ => rfl⟩
      · intro w1 h; cases h

theorem findEndCursor_never_pops_empty_stack_witness :
    (openDelims [] [Token.delim '{', Token.str pageInfoKey, Token.delim '{',
        Token.str hasNextPageKey, Token.bool true, Token.delim '}']).isSome = true
    ∧ findEndCursor [Token.delim '{', Token.str pageInfoKey, Token.delim '{',
        Token.str hasNextPageKey, Token.bool true, Token.delim '}'] true = some [] := by
  have hnested : (openDelims [] [Token.delim '{', Token.str pageInfoKey, Token.delim '{',
      Token.str hasNextPageKey, Token.bool true, Token.delim '}']).isSome = true := by decide
  obtain ⟨_, s, hs, hnext, _⟩ := findEndCursor_never_pops_empty_stack
    [Token.delim '{', Token.str pageInfoKey, Token.delim '{',
      Token.str hasNextPageKey, Token.bool true, Token.delim '}'] true hnested
  refine ⟨hnested, ?_⟩
  rw [hs]
  exact congrArg some ((hnext _ rfl).2.1 rfl)

/-! ## `paginatedArrayReader.Read`: single page, state and one-byte buffers -/

theorem Read_of_single_page {σ : Type} (rd : IOReader σ) (r : paginatedArrayReader σ)
    (len : Nat) (hfirst : r.isFirstPage = true) (hlast : r.isLastPage = true)
    (hc : r.cachedByte = 0) :
    paginatedArrayReader.Read rd r len
      = ((rd.Read r.Reader len).1, (rd.Read r.Reader len).2.1,
          { r with Reader := (rd.Read r.Reader len).2.2, isSubsequentRead := true }) := by
  rw [Read_buf]
  have hi : innerLen r len = len := by simp [innerLen, hc]
  have hraw : rawBuf rd r len = (rd.Read r.Reader len).1 := by simp [rawBuf, hc]
  simp only [hfirst, hlast, hi, hraw, hc, Bool.not_true, Bool.and_false, Bool.false_and,
    rewriteHead_false, Bool.false_eq_true, if_false, ne_eq, not_true_eq_false, false_and]

theorem innerLoop_streams {σ : Type} {rd : IOReader σ} {rem : σ → List Byte}
    (hs : rd.Streams rem) : ∀ (bufs : List Nat) (s : σ),
    rem s = (innerLoop rd s bufs).1 ++ rem (innerLoop rd s bufs).2.2
    ∧ ((innerLoop rd s bufs).2.1 = some IOError.EOF → rem (innerLoop rd s bufs).2.2 = []) := by
  intro bufs
  induction bufs with
  | nil => intro s; simp [innerLoop]
  | cons len bufs ih =>
    intro s
    rw [innerLoop]
    cases he : (rd.Read s len).2.1 with
    | some e =>
      simp only
      refine ⟨hs.rem_eq s len, ?_⟩
      intro h
      cases h
      exact hs.eof_rem s len he
    | none =>
      simp only
      obtain ⟨h1, h2⟩ := ih (rd.Read s len).2.2
      refine ⟨?_, h2⟩
      rw [List.append_assoc, ← h1]
      exact hs.rem_eq s len

/-- Claim C27: a reader with `isFirstPage` and `isLastPage` and no cached byte hands
through what the wrapped reader does: each `Read` returns the bytes and the error
of the wrapped reader, unchanged, and is again such a reader; a read loop gets
what the same loop gets from the wrapped reader, and when it ends with `io.EOF`
that is the whole stream of the wrapped reader. -/
theorem Read_single_page_passes_through {σ : Type} (rd : IOReader σ)
    (r : paginatedArrayReader σ) (hfirst : r.isFirstPage = true) (hlast : r.isLastPage = true)
    (hc : r.cachedByte = 0) :
    (∀ len, paginatedArrayReader.Read rd r len
        = ((rd.Read r.Reader len).1, (rd.Read r.Reader len).2.1,
            { r with Reader := (rd.Read r.Reader len).2.2, isSubsequentRead := true }))
    ∧ (∀ bufs, (readLoop rd r bufs).out = (innerLoop rd r.Reader bufs).1
        ∧ (readLoop rd r bufs).err = (innerLoop rd r.Reader bufs).2.1
        ∧ (readLoop rd r bufs).reader.Reader = (innerLoop rd r.Reader bufs).2.2
        ∧ (readLoop rd r bufs).reader.cachedByte = 0)
    ∧ (∀ (rem : σ → List Byte) bufs, rd.Streams rem →
        (readLoop rd r bufs).err = some IOError.EOF → (readLoop rd r bufs).out = rem r.Reader) := by
  have hloop : ∀ (bufs : List Nat) (r : paginatedArrayReader σ), r.isFirstPage = true →
      r.isLastPage = true → r.cachedByte = 0 →
      (readLoop rd r bufs).out = (innerLoop rd r.Reader bufs).1
        ∧ (readLoop rd r bufs).err = (innerLoop rd r.Reader bufs).2.1
        ∧ (readLoop rd r bufs).reader.Reader = (innerLoop rd r.Reader bufs).2.2
        ∧ (readLoop rd r bufs).reader.cachedByte = 0 := by
    intro bufs
    induction bufs with
    | nil => intro r _ _ hc; simp [readLoop, innerLoop, hc]
    | cons len bufs ih =>
      intro r hfirst hlast hc
      rw [readLoop, innerLoop, Read_of_single_page rd r len hfirst hlast hc]
      cases he : (rd.Read r.Reader len).2.1 with
      | some e => simp [hc]
      | none =>
        simp only
        have := ih { r with Reader := (rd.Read r.Reader len).2.2, isSubsequentRead := true }
          hfirst hlast hc
        simp only at this
        exact ⟨by rw [this.1], this.2.1, this.2.2.1, this.2.2.2⟩
  refine ⟨fun len => Read_of_single_page rd r len hfirst hlast hc,
    fun bufs => hloop bufs r hfirst hlast hc, ?_⟩
  intro rem bufs hs he
  obtain ⟨h1, h2, _, _⟩ := hloop bufs r hfirst hlast hc
  obtain ⟨h3, h4⟩ := innerLoop_streams hs bufs r.Reader
  rw [h1, h3, h4 (h2 ▸ he), List.append_nil]

theorem Read_single_page_passes_through_witness :
    (readLoop sourceReader (pageReader [91, 49, 44, 50, 93] [1, 3] true true) [4, 4, 4, 4]).out
      = [91, 49, 44, 50, 93]
    ∧ (readLoop sourceReader (pageReader [91, 49, 44, 50, 93] [1, 3] true true)
        [4, 4, 4, 4]).err = some IOError.EOF :=
  ⟨(Read_single_page_passes_through sourceReader
      (pageReader [91, 49, 44, 50, 93] [1, 3] true true) rfl rfl rfl).2.2
      Source.data [4, 4, 4, 4] sourceReader_streams (by decide),
    by decide⟩

theorem Read_cachedByte {σ : Type} (rd : IOReader σ) (r : paginatedArrayReader σ) (len : Nat)
    (hc : r.cachedByte = 0 ∨ r.cachedByte = bClose) :
    ((paginatedArrayReader.Read rd r len).2.2.cachedByte = 0
      ∨ (paginatedArrayReader.Read rd r len).2.2.cachedByte = bClose)
    ∧ (r.isLastPage = true → r.cachedByte = 0 →
        (paginatedArrayReader.Read rd r len).2.2.cachedByte = 0) := by
  rw [Read_buf]
  simp only
  refine ⟨?_, ?_⟩
  · split
    · exact Or.inr rfl
    · split
      · exact Or.inl rfl
      · exact hc
  · intro hlast hzero
    simp [hlast, hzero]

theorem Read_no_rewrite {σ : Type} (rd : IOReader σ) (r : paginatedArrayReader σ) (len : Nat)
    (hsub : r.isSubsequentRead = true) :
    rewritesHead rd r len = false ∧ (paginatedArrayReader.Read rd r len).1 <+: rawBuf rd r len := by
  refine ⟨by simp [rewritesHead, hsub], ?_⟩
  rw [Read_buf]
  simp only [hsub, Bool.not_true, Bool.false_and, rewriteHead_false]
  split
  · exact List.dropLast_prefix _
  · exact List.prefix_refl _

theorem afterReads_append {σ : Type} (rd : IOReader σ) : ∀ (pre : List Nat)
    (r : paginatedArrayReader σ) (len : Nat),
    afterReads rd r (pre ++ [len])
      = (paginatedArrayReader.Read rd (afterReads rd r pre) len).2.2 := by
  intro pre
  induction pre with
  | nil => intro r len; rfl
  | cons a pre ih => intro r len; simp only [List.cons_append, afterReads]; exact ih _ len

/-- Claim C28: from `cachedByte = 0` on, after every sequence of `Read` calls
`cachedByte` is 0 or `]`, and 0 when `isLastPage` is set; `isSubsequentRead` is set
after the first `Read` and stays so; and a `Read` that is not the first one
rewrites no byte: what it delivers is the beginning of what the cached byte and
the wrapped reader gave. -/
theorem Read_state_invariant {σ : Type} (rd : IOReader σ) (r : paginatedArrayReader σ)
    (bufs : List Nat) (hc : r.cachedByte = 0) :
    ((afterReads rd r bufs).cachedByte = 0 ∨ (afterReads rd r bufs).cachedByte = bClose)
    ∧ (r.isLastPage = true → (afterReads rd r bufs).cachedByte = 0)
    ∧ (afterReads rd r bufs).isLastPage = r.isLastPage
    ∧ (afterReads rd r bufs).isFirstPage = r.isFirstPage
    ∧ (bufs ≠ [] → (afterReads rd r bufs).isSubsequentRead = true)
    ∧ (bufs ≠ [] → ∀ len, rewritesHead rd (afterReads rd r bufs) len = false
        ∧ (paginatedArrayReader.Read rd (afterReads rd r bufs) len).1
            <+: rawBuf rd (afterReads rd r bufs) len) := by
  have key : ∀ (bufs : List Nat),
      ((afterReads rd r bufs).cachedByte = 0 ∨ (afterReads rd r bufs).cachedByte = bClose)
      ∧ (r.isLastPage = true → (afterReads rd r bufs).cachedByte = 0)
      ∧ (afterReads rd r bufs).isLastPage = r.isLastPage
      ∧ (afterReads rd r bufs).isFirstPage = r.isFirstPage
      ∧ (bufs ≠ [] → (afterReads rd r bufs).isSubsequentRead = true) := by
    intro bufs
    induction bufs using List.reverseRecOn with
    | nil => exact ⟨Or.inl hc, fun _ => hc, rfl, rfl, fun h => absurd rfl h⟩
    | append_singleton pre len ih =>
      obtain ⟨h1, h2, h3, h4, _⟩ := ih
      rw [afterReads_append]
      have hread := Read_cachedByte rd (afterReads rd r pre) len h1
      refine ⟨hread.1, ?_, ?_, ?_, ?_⟩
      · intro hlast
        exact hread.2 (h3.trans hlast) (h2 hlast)
      · rw [Read_isLastPage, h3]
      · rw [Read_isFirstPage, h4]
      · intro _
        exact Read_isSubsequentRead rd _ len
  obtain ⟨h1, h2, h3, h4, h5⟩ := key bufs
  exact ⟨h1, h2, h3, h4, h5, fun hne len => Read_no_rewrite rd _ len (h5 hne)⟩

theorem Read_state_invariant_witness :
    nestedPage.cachedByte = 0
    ∧ (afterReads sourceReader nestedPage [4, 1, 1]).cachedByte = bClose
    ∧ (afterReads sourceReader nestedPage [4, 1, 1]).isSubsequentRead = true :=
  have h := Read_state_invariant sourceReader nestedPage [4, 1, 1] rfl
  ⟨rfl, by decide, h.2.2.2.2.1 (by decide)⟩

/-- Claim C29: a reader that is not for the last page and has a `]` cached returns
`(0, nil)` to a `Read` with a buffer of length 1, when the wrapped reader returns
`(0, nil)` for the empty rest of the buffer, and has the `]` cached again; so a
loop of such reads delivers nothing, as long as the wrapped reader answers so. A
`Read` with a longer buffer for which the wrapped reader stores a byte delivers
the `]` as its first byte. -/
theorem Read_one_byte_makes_no_progress {σ : Type} (rd : IOReader σ)
    (r : paginatedArrayReader σ) (hlast : r.isLastPage = false)
    (hcached : r.cachedByte = bClose) :
    ((rd.Read r.Reader 0).1 = [] → (rd.Read r.Reader 0).2.1 = none →
      paginatedArrayReader.Read rd r 1
        = ([], none, { r with Reader := (rd.Read r.Reader 0).2.2, cachedByte := bClose,
                              isSubsequentRead := true })
      ∧ ∀ rem : σ → List Byte, rd.Streams rem → rem (rd.Read r.Reader 0).2.2 = rem r.Reader)
    ∧ (∀ (idle : σ → Prop), idle r.Reader →
        (∀ s, idle s → (rd.Read s 0).1 = [] ∧ (rd.Read s 0).2.1 = none
          ∧ idle (rd.Read s 0).2.2) →
        ∀ k, (readLoop rd r (List.replicate k 1)).out = []
          ∧ (readLoop rd r (List.replicate k 1)).err = none
          ∧ (readLoop rd r (List.replicate k 1)).reader.cachedByte = bClose)
    ∧ (∀ len, 2 ≤ len → (rd.Read r.Reader (len - 1)).1 ≠ [] →
        (paginatedArrayReader.Read rd r len).1.head? = some bClose) := by
  have hone : ∀ (r : paginatedArrayReader σ), r.isLastPage = false → r.cachedByte = bClose →
      (rd.Read r.Reader 0).1 = [] → (rd.Read r.Reader 0).2.1 = none →
      paginatedArrayReader.Read rd r 1
        = ([], none, { r with Reader := (rd.Read r.Reader 0).2.2, cachedByte := bClose,
                              isSubsequentRead := true }) := by
    intro r hlast hcached hnil herr
    rw [Read_buf]
    have hi : innerLen r 1 = 0 := by simp [innerLen, hcached]
    have hraw : rawBuf rd r 1 = [bClose] := by simp [rawBuf, hcached, hnil]
    have hrw : ∀ a, rewriteHead a [bClose] = [bClose] := by
      intro a; cases a <;> rfl
    simp only [hi, hraw, hrw, hlast, herr]
    simp
  refine ⟨?_, ?_, ?_⟩
  · intro hnil herr
    refine ⟨hone r hlast hcached hnil herr, ?_⟩
    intro rem hs
    have := hs.rem_eq r.Reader 0
    rw [hnil, List.nil_append] at this
    exact this.symm
  · intro idle hidle hstep k
    induction k generalizing r with
    | zero => simp [readLoop, hcached]
    | succ k ih =>
      obtain ⟨hnil, herr, hnext⟩ := hstep r.Reader hidle
      rw [List.replicate_succ, readLoop, hone r hlast hcached hnil herr]
      simp only
      have := ih { r with Reader := (rd.Read r.Reader 0).2.2, cachedByte := bClose,
                          isSubsequentRead := true } hlast rfl hnext
      simpa using this
  · intro len hlen hne
    rw [Read_buf]
    have hraw : rawBuf rd r len = bClose :: (rd.Read r.Reader (len - 1)).1 := by
      have : r.cachedByte ≠ 0 ∧ len > 0 := ⟨by rw [hcached]; decide, by omega⟩
      simp [rawBuf, this, hcached]
    obtain ⟨b, t, hbt⟩ : ∃ b t, (rd.Read r.Reader (len - 1)).1 = b :: t := by
      cases h : (rd.Read r.Reader (len - 1)).1 with
      | nil => exact absurd h hne
      | cons b t => exact ⟨b, t, rfl⟩
    have hrw : ∀ a, rewriteHead a (bClose :: b :: t) = bClose :: b :: t := by
      intro a; cases a <;> rfl
    simp only [hraw, hbt, hrw]
    split
    · simp [List.dropLast]
    · rfl

theorem Read_one_byte_makes_no_progress_witness :
    (readLoop sourceReader
        { Reader := { data := [44, 50, 93], script := [] }, isFirstPage := true,
          isLastPage := false, isSubsequentRead := true, cachedByte := bClose }
        (List.replicate 5 1)).out = []
    ∧ (paginatedArrayReader.Read sourceReader
        { Reader := { data := [44, 50, 93], script := [] }, isFirstPage := true,
          isLastPage := false, isSubsequentRead := true, cachedByte := bClose } 2).1
        = [bClose, 44] :=
  ⟨((Read_one_byte_makes_no_progress sourceReader
        { Reader := { data := [44, 50, 93], script := [] }, isFirstPage := true,
          isLastPage := false, isSubsequentRead := true, cachedByte := bClose } rfl rfl).2.1
        (fun s => s.data ≠ []) (by decide)
        (fun s hs => by
          simp only [sourceReader, Source.Read, if_neg hs]
          refine ⟨by cases s.script <;> simp, trivial, ?_⟩
          cases s.script <;> simpa using hs) 5).1,
    by decide⟩

end CmdApi

namespace Walkers

open CmdApi

/-! ## Lemmas on `GetCaches` -/

theorem cachesSoFar_addResponse (result : Option CachePayload) (response : CachePayload) :
    (addResponse result response).ActionsCaches
      = cachesSoFar result ++ response.ActionsCaches := by
  cases result <;> simp [addResponse, cachesSoFar]

theorem cachesOf_cons (page : CachePayload) (pages : List CachePayload) :
    cachesOf (page :: pages) = page.ActionsCaches ++ cachesOf pages := by
  simp [cachesOf]

theorem cachesOf_nil : cachesOf [] = [] := rfl

/-- One turn of the loop of `GetCaches` on a successful request. -/
theorem GetCaches_loop_ok (client : RESTWithNext) (opts : GetCachesOptions) (fuel : Nat)
    (path next : GoString) (result : Option CachePayload) (sent : Nat) (page : CachePayload)
    (hpath : path ≠ []) (hfetch : client path = Except.ok (page, next)) :
    GetCaches.loop client opts (fuel + 1) path result sent =
      if opts.Limit > 0 ∧ ((addResponse result page).ActionsCaches.length : Int) ≥ opts.Limit then
        some ⟨Outcome.returned
          (some { addResponse result page with
            ActionsCaches := (addResponse result page).ActionsCaches.take opts.Limit.toNat })
          none, sent + 1⟩
      else GetCaches.loop client opts fuel next (some (addResponse result page)) (sent + 1) := by
  rw [GetCaches.loop]
  simp only [hpath, if_false, hfetch]
  cases result <;> rfl

/-- One turn of the loop of `GetCaches` on a failed request. -/
theorem GetCaches_loop_error (client : RESTWithNext) (opts : GetCachesOptions) (fuel : Nat)
    (path : GoString) (result : Option CachePayload) (sent : Nat) (err : GoError)
    (hpath : path ≠ []) (hfetch : client path = Except.error err) :
    GetCaches.loop client opts (fuel + 1) path result sent
      = some ⟨Outcome.returned none (some err), sent + 1⟩ := by
  rw [GetCaches.loop]
  simp only [hpath, if_false, hfetch]

theorem GetCaches_loop_done (client : RESTWithNext) (opts : GetCachesOptions) (fuel : Nat)
    (result : Option CachePayload) (sent : Nat) :
    GetCaches.loop client opts fuel [] result sent
      = some ⟨Outcome.returned result none, sent⟩ := by
  cases fuel <;> simp [GetCaches.loop]

/-- The loop of `GetCaches` over the pages of a server: it returns the caches gathered
before plus the caches of the pages, cut at the limit, and sends no request once
the limit is reached. -/
theorem GetCaches_loop_pages (client : RESTWithNext) (opts : GetCachesOptions)
    {path : GoString} {pages : List CachePayload} (h : RestPages client path pages) :
    ∀ (result : Option CachePayload) (sent fuel : Nat), path ≠ [] → pages.length ≤ fuel →
      (opts.Limit > 0 → ((cachesSoFar result).length : Int) < opts.Limit) →
      ∃ r k, GetCaches.loop client opts fuel path result sent
          = some ⟨Outcome.returned (some r) none, sent + k⟩
        ∧ 1 ≤ k ∧ k ≤ pages.length
        ∧ (opts.Limit > 0 →
            r.ActionsCaches = (cachesSoFar result ++ cachesOf pages).take opts.Limit.toNat
            ∧ (∀ j, j < k →
                ((cachesSoFar result ++ cachesOf (pages.take j)).length : Int) < opts.Limit)
            ∧ (k = pages.length
                ∨ opts.Limit ≤ ((cachesSoFar result ++ cachesOf (pages.take k)).length : Int)))
        ∧ (opts.Limit ≤ 0 →
            r.ActionsCaches = cachesSoFar result ++ cachesOf pages ∧ k = pages.length) := by
  induction h with
  | @last path page hfetch =>
    intro result sent fuel hpath hfuel hlimit
    obtain ⟨f, rfl⟩ : ∃ f, fuel = f + 1 := ⟨fuel - 1, by simp at hfuel; omega⟩
    rw [GetCaches_loop_ok client opts f path [] result sent page hpath hfetch]
    have hcaches := cachesSoFar_addResponse result page
    by_cases hc : opts.Limit > 0 ∧ ((addResponse result page).ActionsCaches.length : Int) ≥ opts.Limit
    · rw [if_pos hc]
      refine ⟨_, 1, rfl, le_refl 1, by simp, ?_, ?_⟩
      · intro _
        refine ⟨?_, ?_, Or.inl rfl⟩
        · simp [hcaches, cachesOf_cons, cachesOf_nil]
        · intro j hj
          have : j = 0 := by omega
          subst this
          simpa [cachesOf_nil] using hlimit hc.1
      · intro hneg; omega
    · rw [if_neg hc, GetCaches_loop_done]
      refine ⟨_, 1, rfl, le_refl 1, by simp, ?_, ?_⟩
      · intro hpos
        have hlen : ((addResponse result page).ActionsCaches.length : Int) < opts.Limit := by
          by_contra hge
          exact hc ⟨hpos, by omega⟩
        refine ⟨?_, ?_, Or.inl rfl⟩
        · simp only [cachesOf_cons, cachesOf_nil, List.append_nil, ← hcaches]
          rw [List.take_of_length_le]
          omega
        · intro j hj
          have : j = 0 := by omega
          subst this
          simpa [cachesOf_nil] using hlimit hpos
      · intro _
        exact ⟨by simp [hcaches, cachesOf_cons, cachesOf_nil], rfl⟩
  | @more path next page pages hfetch hnext _ ih =>
    intro result sent fuel hpath hfuel hlimit
    obtain ⟨f, rfl⟩ : ∃ f, fuel = f + 1 := ⟨fuel - 1, by simp at hfuel; omega⟩
    rw [GetCaches_loop_ok client opts f path next result sent page hpath hfetch]
    have hcaches := cachesSoFar_addResponse result page
    by_cases hc : opts.Limit > 0 ∧ ((addResponse result page).ActionsCaches.length : Int) ≥ opts.Limit
    · rw [if_pos hc]
      refine ⟨_, 1, rfl, le_refl 1, by simp, ?_, ?_⟩
      · intro _
        refine ⟨?_, ?_, Or.inr ?_⟩
        · simp only [cachesOf_cons, ← List.append_assoc, ← hcaches]
          rw [List.take_append_of_le_length]
          omega
        · intro j hj
          have : j = 0 := by omega
          subst this
          simpa [cachesOf_nil] using hlimit hc.1
        · simp only [List.take_succ_cons, List.take_zero, cachesOf_cons, cachesOf_nil,
            List.append_nil, ← hcaches]
          exact hc.2
      · intro hneg; omega
    · rw [if_neg hc]
      have hlimit' : opts.Limit > 0 →
          ((cachesSoFar (some (addResponse result page))).length : Int) < opts.Limit := by
        intro hpos
        by_contra hge
        exact hc ⟨hpos, by simp only [cachesSoFar] at hge; omega⟩
      obtain ⟨r, k, hrun, hk1, hk2, hpos, hneg⟩ :=
        ih (some (addResponse result page)) (sent + 1) f hnext
          (by simp at hfuel; omega) hlimit'
      have hsofar : cachesSoFar (some (addResponse result page))
          = cachesSoFar result ++ page.ActionsCaches := hcaches
      rw [hsofar] at hpos hneg
      refine ⟨r, k + 1, ?_, by omega, by simp; omega, ?_, ?_⟩
      · rw [hrun, Nat.add_assoc, Nat.add_comm 1 k]
      · intro hp
        obtain ⟨h1, h2, h3⟩ := hpos hp
        refine ⟨?_, ?_, ?_⟩
        · rw [h1, cachesOf_cons, List.append_assoc]
        · intro j hj
          rcases j with _ | j
          · simpa [cachesOf_nil] using hlimit hp
          · have := h2 j (by omega)
            simpa [cachesOf_cons, List.append_assoc] using this
        · rcases h3 with h3 | h3
          · left; simp [h3]
          · right
            simpa [cachesOf_cons, List.append_assoc] using h3
      · intro hn
        obtain ⟨h1, h2⟩ := hneg hn
        exact ⟨by rw [h1, cachesOf_cons, List.append_assoc], by simp [h2]⟩

theorem firstPath_ne_nil (fullName : GoString) (opts : GetCachesOptions) :
    GetCaches.firstPath fullName opts ≠ [] := by
  unfold GetCaches.firstPath
  simp only
  split <;> split <;> simp

/-- Claim C11: for every server whose pages from the first path on are `pages`, when
`Limit > 0` `GetCaches` returns the first `min(Limit, total)` caches of the
concatenation of the pages, sending a request only while fewer than `Limit` caches
are gathered, and when `Limit <= 0` it returns the full concatenation, with one
request per page. -/
theorem GetCaches_returns_first_caches (client : RESTWithNext) (fullName : GoString)
    (opts : GetCachesOptions) (pages : List CachePayload) (fuel : Nat)
    (hpages : RestPages client (GetCaches.firstPath fullName opts) pages)
    (hfuel : pages.length ≤ fuel) :
    ∃ r k, GetCaches fuel client fullName opts = some ⟨Outcome.returned (some r) none, k⟩
      ∧ 1 ≤ k ∧ k ≤ pages.length
      ∧ (opts.Limit > 0 →
          r.ActionsCaches = (cachesOf pages).take opts.Limit.toNat
          ∧ r.ActionsCaches.length = min opts.Limit.toNat (cachesOf pages).length
          ∧ (∀ j, j < k → ((cachesOf (pages.take j)).length : Int) < opts.Limit)
          ∧ (k = pages.length ∨ opts.Limit ≤ ((cachesOf (pages.take k)).length : Int)))
      ∧ (opts.Limit ≤ 0 → r.ActionsCaches = cachesOf pages ∧ k = pages.length) := by
  obtain ⟨r, k, hrun, hk1, hk2, hpos, hneg⟩ :=
    GetCaches_loop_pages client opts hpages none 0 fuel (firstPath_ne_nil fullName opts) hfuel
      (fun h => by simpa [cachesSoFar] using h)
  simp only [cachesSoFar, List.nil_append, Nat.zero_add] at hrun hpos hneg
  refine ⟨r, k, hrun, hk1, hk2, ?_, hneg⟩
  intro hp
  obtain ⟨h1, h2, h3⟩ := hpos hp
  exact ⟨h1, by rw [h1, List.length_take], h2, h3⟩

theorem GetCaches_returns_first_caches_witness :
    RestPages (cacheServer false) (GetCaches.firstPath "O/R".toList ⟨3, [], []⟩) cachePages
    ∧ cachePages.length ≤ 5
    ∧ ∃ r k, GetCaches 5 (cacheServer false) "O/R".toList ⟨3, [], []⟩
          = some ⟨Outcome.returned (some r) none, k⟩
        ∧ 1 ≤ k ∧ k ≤ cachePages.length
        ∧ ((3 : Int) > 0 →
            r.ActionsCaches = (cachesOf cachePages).take (3 : Int).toNat
            ∧ r.ActionsCaches.length = min (3 : Int).toNat (cachesOf cachePages).length
            ∧ (∀ j, j < k → ((cachesOf (cachePages.take j)).length : Int) < 3)
            ∧ (k = cachePages.length ∨ (3 : Int) ≤ ((cachesOf (cachePages.take k)).length : Int)))
        ∧ ((3 : Int) ≤ 0 → r.ActionsCaches = cachesOf cachePages ∧ k = cachePages.length) :=
  have hpages : RestPages (cacheServer false)
      (GetCaches.firstPath "O/R".toList ⟨3, [], []⟩) cachePages :=
    @RestPages.more _ _ "p2".toList _ _ rfl (by decide)
      (@RestPages.more _ _ "p3".toList _ _ rfl (by decide) (RestPages.last rfl))
  ⟨hpages, by decide,
    GetCaches_returns_first_caches (cacheServer false) "O/R".toList ⟨3, [], []⟩ cachePages 5
      hpages (by decide)⟩

/-! ## Lemmas on `listRepos` and `searchRepos` -/

theorem stopAt_pos (limit : Int) : 1 ≤ stopAt limit := by
  unfold stopAt; omega

theorem stopAt_of_pos {limit : Int} (h : limit > 0) : stopAt limit = limit.toNat := by
  unfold stopAt; omega

theorem stopAt_of_nonpos {limit : Int} (h : limit ≤ 0) : stopAt limit = 1 := by
  unfold stopAt; omega

/-- The test of the two loops, once a repository is appended to `n` others. -/
theorem reached_iff (limit : Int) (n : Nat) (h : n < stopAt limit) :
    ((n + 1 : Nat) : Int) ≥ limit ↔ stopAt limit ≤ n + 1 := by
  unfold stopAt at *; omega

theorem listNodes_spec (limit : Int) : ∀ (nodes repos : List Repository),
    repos.length < stopAt limit →
    listNodes limit nodes repos
      = ((repos ++ nodes).take (stopAt limit),
         decide (stopAt limit ≤ repos.length + nodes.length)) := by
  intro nodes
  induction nodes with
  | nil =>
    intro repos h
    simp only [listNodes, List.append_nil, List.length_nil, Nat.add_zero]
    rw [List.take_of_length_le (by omega)]
    simp; omega
  | cons repo rest ih =>
    intro repos h
    have hiff := reached_iff limit repos.length h
    simp only [listNodes, List.length_append, List.length_cons, List.length_nil, Nat.zero_add]
    by_cases hc : stopAt limit ≤ repos.length + 1
    · rw [if_pos (hiff.2 hc)]
      have hM : stopAt limit = (repos ++ [repo]).length := by simp; omega
      have e : repos ++ repo :: rest = (repos ++ [repo]) ++ rest := by simp
      rw [e, hM, List.take_left']
      · simp
      · rfl
    · rw [if_neg (fun h => hc (hiff.1 h))]
      rw [ih (repos ++ [repo]) (by simp; omega)]
      simp [Nat.add_assoc, Nat.add_comm 1]

theorem reposOf_cons {ρ : Type} (nodes : ρ → List Repository) (page : ρ) (pages : List ρ) :
    reposOf nodes (page :: pages) = nodes page ++ reposOf nodes pages := by
  simp [reposOf]

theorem reposOf_nil {ρ : Type} (nodes : ρ → List Repository) : reposOf nodes [] = [] := rfl

/-- One turn of the loop of `listRepos` on a successful request. -/
theorem listRepos_loop_ok (client : GraphQLClient) (limit : Int) (fuel : Nat)
    (cur : Option GoString) (lr : RepositoryList) (sent : Nat) (res : ListResult)
    (hfetch : client.list cur = Except.ok res) (hlen : lr.Repositories.length < stopAt limit) :
    listRepos.loop client limit (fuel + 1) cur lr sent =
      if stopAt limit ≤ lr.Repositories.length + res.Nodes.length ∨ res.HasNextPage = false then
        some ⟨Outcome.returned (some { lr with
          TotalCount := res.TotalCount, Owner := res.Login,
          Repositories := (lr.Repositories ++ res.Nodes).take (stopAt limit) }) none, sent + 1⟩
      else
        listRepos.loop client limit fuel (some res.EndCursor) { lr with
          TotalCount := res.TotalCount, Owner := res.Login,
          Repositories := (lr.Repositories ++ res.Nodes).take (stopAt limit) } (sent + 1) := by
  rw [listRepos.loop]
  simp only [hfetch, listNodes_spec limit res.Nodes lr.Repositories hlen]
  by_cases h1 : stopAt limit ≤ lr.Repositories.length + res.Nodes.length
  · simp [h1]
  · cases h2 : res.HasNextPage <;> simp [h1, h2]

/-- The loop of `listRepos` over the pages of a server. -/
theorem listRepos_loop_pages (client : GraphQLClient) (limit : Int)
    {cur : Option GoString} {pages : List ListResult}
    (h : GraphPages client.list ListResult.HasNextPage ListResult.EndCursor cur pages) :
    ∀ (lr : RepositoryList) (sent fuel : Nat), pages.length ≤ fuel →
      lr.Repositories.length < stopAt limit →
      ∃ r k, listRepos.loop client limit fuel cur lr sent
          = some ⟨Outcome.returned (some r) none, sent + k⟩
        ∧ 1 ≤ k ∧ k ≤ pages.length
        ∧ r.Repositories
            = (lr.Repositories ++ reposOf ListResult.Nodes pages).take (stopAt limit)
        ∧ (∀ j, j < k →
            (lr.Repositories ++ reposOf ListResult.Nodes (pages.take j)).length < stopAt limit)
        ∧ (k = pages.length
            ∨ stopAt limit
                ≤ (lr.Repositories ++ reposOf ListResult.Nodes (pages.take k)).length) := by
  induction h with
  | @last cur page hfetch hnext =>
    intro lr sent fuel hfuel hlen
    obtain ⟨f, rfl⟩ : ∃ f, fuel = f + 1 := ⟨fuel - 1, by simp at hfuel; omega⟩
    rw [listRepos_loop_ok client limit f cur lr sent page hfetch hlen, if_pos (Or.inr hnext)]
    refine ⟨_, 1, rfl, le_refl 1, by simp, ?_, ?_, Or.inl rfl⟩
    · simp [reposOf_cons, reposOf_nil]
    · intro j hj
      have : j = 0 := by omega
      subst this
      simpa [reposOf_nil] using hlen
  | @more cur page pages hfetch hnext _ ih =>
    intro lr sent fuel hfuel hlen
    obtain ⟨f, rfl⟩ : ∃ f, fuel = f + 1 := ⟨fuel - 1, by simp at hfuel; omega⟩
    rw [listRepos_loop_ok client limit f cur lr sent page hfetch hlen]
    by_cases hc : stopAt limit ≤ lr.Repositories.length + page.Nodes.length
    · rw [if_pos (Or.inl hc)]
      refine ⟨_, 1, rfl, le_refl 1, by simp, ?_, ?_, Or.inr ?_⟩
      · have e : (lr.Repositories ++ reposOf ListResult.Nodes (page :: pages)).take (stopAt limit)
            = (lr.Repositories ++ page.Nodes).take (stopAt limit) := by
          rw [reposOf_cons, ← List.append_assoc]
          exact List.take_append_of_le_length (by simpa using hc)
        exact e.symm
      · intro j hj
        have : j = 0 := by omega
        subst this
        simpa [reposOf_nil] using hlen
      · simpa [reposOf_cons, reposOf_nil] using hc
    · have hcond : ¬ (stopAt limit ≤ lr.Repositories.length + page.Nodes.length
          ∨ page.HasNextPage = false) := by
        rintro (h | h)
        · exact hc h
        · rw [hnext] at h; exact absurd h (by decide)
      rw [if_neg hcond]
      have htake : (lr.Repositories ++ page.Nodes).take (stopAt limit)
          = lr.Repositories ++ page.Nodes :=
        List.take_of_length_le (by simp; omega)
      rw [htake]
      obtain ⟨r, k, hrun, hk1, hk2, h1, h2, h3⟩ :=
        ih { lr with TotalCount := page.TotalCount, Owner := page.Login,
                     Repositories := lr.Repositories ++ page.Nodes } (sent + 1) f
          (by simp at hfuel; omega) (by simp; omega)
      refine ⟨r, k + 1, ?_, by omega, by simp; omega, ?_, ?_, ?_⟩
      · rw [hrun, Nat.add_assoc, Nat.add_comm 1 k]
      · rw [h1, reposOf_cons, List.append_assoc]
      · intro j hj
        rcases j with _ | j
        · simpa [reposOf_nil] using hlen
        · have := h2 j (by omega)
          simpa [reposOf_cons, List.append_assoc] using this
      · rcases h3 with h3 | h3
        · left; simp [h3]
        · right
          simpa [reposOf_cons, List.append_assoc] using h3

theorem searchNodes_spec (limit : Int) : ∀ (nodes : List Repository) (lr : RepositoryList),
    (∀ repo ∈ nodes, repo.sliceable = true) → lr.Repositories.length < stopAt limit →
    ∃ owner, searchNodes limit nodes lr
      = some ({ lr with Owner := owner,
                        Repositories := (lr.Repositories ++ nodes).take (stopAt limit) },
              decide (stopAt limit ≤ lr.Repositories.length + nodes.length)) := by
  intro nodes
  induction nodes with
  | nil =>
    intro lr _ h
    refine ⟨lr.Owner, ?_⟩
    simp only [searchNodes, List.append_nil, List.length_nil, Nat.add_zero]
    rw [List.take_of_length_le (by omega)]
    have : ¬ stopAt limit ≤ lr.Repositories.length := by omega
    simp [this]
  | cons repo rest ih =>
    intro lr hs h
    have hrepo := hs repo (by simp)
    have hrest : ∀ r ∈ rest, r.sliceable = true := fun r hr => hs r (by simp [hr])
    have hiff := reached_iff limit lr.Repositories.length h
    -- the owner after this repository
    obtain ⟨o, ho⟩ : ∃ o,
        (if lr.Owner = [] ∧ repo.NameWithOwner ≠ [] then
          if IndexRune repo.NameWithOwner '/' < 0 then none
          else some (repo.NameWithOwner.take (IndexRune repo.NameWithOwner '/').toNat)
        else some lr.Owner) = some o := by
      by_cases hcond : lr.Owner = [] ∧ repo.NameWithOwner ≠ []
      · have hmem : '/' ∈ repo.NameWithOwner := by
          simp only [Repository.sliceable, Bool.or_eq_true, List.isEmpty_iff,
            List.contains_eq_any_beq, List.any_eq_true, beq_iff_eq] at hrepo
          rcases hrepo with h0 | ⟨x, hx, rfl⟩
          · exact absurd h0 hcond.2
          · exact hx
        have hidx := (IndexRune_nonneg_iff repo.NameWithOwner '/').2 hmem
        exact ⟨_, by rw [if_pos hcond, if_neg (by omega)]⟩
      · exact ⟨_, by rw [if_neg hcond]⟩
    rw [searchNodes]
    simp only [ho, List.length_append, List.length_cons, List.length_nil, Nat.zero_add]
    by_cases hc : stopAt limit ≤ lr.Repositories.length + 1
    · rw [if_pos (hiff.2 hc)]
      refine ⟨o, ?_⟩
      have hM : stopAt limit = (lr.Repositories ++ [repo]).length := by simp; omega
      have e : lr.Repositories ++ repo :: rest = (lr.Repositories ++ [repo]) ++ rest := by simp
      have ht : (lr.Repositories ++ repo :: rest).take (stopAt limit)
          = lr.Repositories ++ [repo] := by
        rw [e, hM, List.take_left']
        rfl
      rw [ht]
      have : stopAt limit ≤ lr.Repositories.length + (rest.length + 1) := by omega
      simp [this]
    · rw [if_neg (fun h => hc (hiff.1 h))]
      obtain ⟨o2, h2⟩ := ih { lr with Owner := o, Repositories := lr.Repositories ++ [repo] }
        hrest (by simp; omega)
      refine ⟨o2, ?_⟩
      rw [h2]
      simp [Nat.add_assoc, Nat.add_comm 1]

/-- One turn of the loop of `searchRepos` on a successful request. -/
theorem searchRepos_loop_ok (client : GraphQLClient) (limit : Int) (fuel : Nat)
    (cur : Option GoString) (lr : RepositoryList) (sent : Nat) (res : SearchResult)
    (hfetch : client.search cur = Except.ok res)
    (hs : ∀ repo ∈ res.Nodes, repo.sliceable = true)
    (hlen : lr.Repositories.length < stopAt limit) :
    ∃ owner, searchRepos.loop client limit (fuel + 1) cur lr sent =
      if stopAt limit ≤ lr.Repositories.length + res.Nodes.length ∨ res.HasNextPage = false then
        some ⟨Outcome.returned (some { lr with
          TotalCount := res.RepositoryCount, Owner := owner,
          Repositories := (lr.Repositories ++ res.Nodes).take (stopAt limit) }) none, sent + 1⟩
      else
        searchRepos.loop client limit fuel (some res.EndCursor) { lr with
          TotalCount := res.RepositoryCount, Owner := owner,
          Repositories := (lr.Repositories ++ res.Nodes).take (stopAt limit) } (sent + 1) := by
  obtain ⟨owner, ho⟩ := searchNodes_spec limit res.Nodes
    { lr with TotalCount := res.RepositoryCount } hs hlen
  refine ⟨owner, ?_⟩
  rw [searchRepos.loop]
  simp only [hfetch, ho]
  by_cases h1 : stopAt limit ≤ lr.Repositories.length + res.Nodes.length
  · simp [h1]
  · cases h2 : res.HasNextPage <;> simp [h1, h2]

/-- The loop of `searchRepos` over the pages of a server. -/
theorem searchRepos_loop_pages (client : GraphQLClient) (limit : Int)
    {cur : Option GoString} {pages : List SearchResult}
    (h : GraphPages client.search SearchResult.HasNextPage SearchResult.EndCursor cur pages) :
    ∀ (lr : RepositoryList) (sent fuel : Nat), pages.length ≤ fuel →
      (∀ repo ∈ reposOf SearchResult.Nodes pages, repo.sliceable = true) →
      lr.Repositories.length < stopAt limit →
      ∃ r k, searchRepos.loop client limit fuel cur lr sent
          = some ⟨Outcome.returned (some r) none, sent + k⟩
        ∧ 1 ≤ k ∧ k ≤ pages.length
        ∧ r.Repositories
            = (lr.Repositories ++ reposOf SearchResult.Nodes pages).take (stopAt limit)
        ∧ (∀ j, j < k →
            (lr.Repositories ++ reposOf SearchResult.Nodes (pages.take j)).length < stopAt limit)
        ∧ (k = pages.length
            ∨ stopAt limit
                ≤ (lr.Repositories ++ reposOf SearchResult.Nodes (pages.take k)).length) := by
  induction h with
  | @last cur page hfetch hnext =>
    intro lr sent fuel hfuel hs hlen
    obtain ⟨f, rfl⟩ : ∃ f, fuel = f + 1 := ⟨fuel - 1, by simp at hfuel; omega⟩
    obtain ⟨owner, hturn⟩ := searchRepos_loop_ok client limit f cur lr sent page hfetch
      (fun r hr => hs r (by simp [reposOf_cons, hr])) hlen
    rw [hturn, if_pos (Or.inr hnext)]
    refine ⟨_, 1, rfl, le_refl 1, by simp, ?_, ?_, Or.inl rfl⟩
    · simp [reposOf_cons, reposOf_nil]
    · intro j hj
      have : j = 0 := by omega
      subst this
      simpa [reposOf_nil] using hlen
  | @more cur page pages hfetch hnext _ ih =>
    intro lr sent fuel hfuel hs hlen
    obtain ⟨f, rfl⟩ : ∃ f, fuel = f + 1 := ⟨fuel - 1, by simp at hfuel; omega⟩
    obtain ⟨owner, hturn⟩ := searchRepos_loop_ok client limit f cur lr sent page hfetch
      (fun r hr => hs r (by simp [reposOf_cons, hr])) hlen
    rw [hturn]
    by_cases hc : stopAt limit ≤ lr.Repositories.length + page.Nodes.length
    · rw [if_pos (Or.inl hc)]
      refine ⟨_, 1, rfl, le_refl 1, by simp, ?_, ?_, Or.inr ?_⟩
      · have e : (lr.Repositories ++ reposOf SearchResult.Nodes (page :: pages)).take (stopAt limit)
            = (lr.Repositories ++ page.Nodes).take (stopAt limit) := by
          rw [reposOf_cons, ← List.append_assoc]
          exact List.take_append_of_le_length (by simpa using hc)
        exact e.symm
      · intro j hj
        have : j = 0 := by omega
        subst this
        simpa [reposOf_nil] using hlen
      · simpa [reposOf_cons, reposOf_nil] using hc
    · have hcond : ¬ (stopAt limit ≤ lr.Repositories.length + page.Nodes.length
          ∨ page.HasNextPage = false) := by
        rintro (h | h)
        · exact hc h
        · rw [hnext] at h; exact absurd h (by decide)
      rw [if_neg hcond]
      have htake : (lr.Repositories ++ page.Nodes).take (stopAt limit)
          = lr.Repositories ++ page.Nodes :=
        List.take_of_length_le (by simp; omega)
      rw [htake]
      obtain ⟨r, k, hrun, hk1, hk2, h1, h2, h3⟩ :=
        ih { lr with TotalCount := page.RepositoryCount, Owner := owner,
                     Repositories := lr.Repositories ++ page.Nodes } (sent + 1) f
          (by simp at hfuel; omega) (fun r hr => hs r (by simp [reposOf_cons, hr]))
          (by simp; omega)
      refine ⟨r, k + 1, ?_, by omega, by simp; omega, ?_, ?_, ?_⟩
      · rw [hrun, Nat.add_assoc, Nat.add_comm 1 k]
      · rw [h1, reposOf_cons, List.append_assoc]
      · intro j hj
        rcases j with _ | j
        · simpa [reposOf_nil] using hlen
        · have := h2 j (by omega)
          simpa [reposOf_cons, List.append_assoc] using this
      · rcases h3 with h3 | h3
        · left; simp [h3]
        · right
          simpa [reposOf_cons, List.append_assoc] using h3

/-! ### Failing requests -/

theorem RestPrefix_stop_ne_nil {client : RESTWithNext} {path stop : GoString}
    {pages : List CachePayload} (h : RestPrefix client path pages stop) (hpath : path ≠ []) :
    stop ≠ [] := by
  induction h with
  | nil => exact hpath
  | cons _ hnext _ ih => exact ih hnext

/-- The loop of `GetCaches` up to a failing request. -/
theorem GetCaches_loop_until_error (client : RESTWithNext) (opts : GetCachesOptions) (err : GoError)
    {path stop : GoString} {pages : List CachePayload}
    (h : RestPrefix client path pages stop) :
    ∀ (result : Option CachePayload) (sent fuel : Nat), path ≠ [] → pages.length < fuel →
      (opts.Limit > 0 →
        ((cachesSoFar result ++ cachesOf pages).length : Int) < opts.Limit) →
      client stop = Except.error err →
      GetCaches.loop client opts fuel path result sent
        = some ⟨Outcome.returned none (some err), sent + pages.length + 1⟩ := by
  induction h with
  | @nil path =>
    intro result sent fuel hpath hfuel _ hfail
    obtain ⟨f, rfl⟩ : ∃ f, fuel = f + 1 := ⟨fuel - 1, by simp at hfuel; omega⟩
    rw [GetCaches_loop_error client opts f path result sent err hpath hfail]
    simp
  | @cons path next stop page pages hfetch hnext _ ih =>
    intro result sent fuel hpath hfuel hlimit hfail
    obtain ⟨f, rfl⟩ : ∃ f, fuel = f + 1 := ⟨fuel - 1, by simp at hfuel; omega⟩
    rw [GetCaches_loop_ok client opts f path next result sent page hpath hfetch]
    have hcaches := cachesSoFar_addResponse result page
    have hc : ¬ (opts.Limit > 0
        ∧ ((addResponse result page).ActionsCaches.length : Int) ≥ opts.Limit) := by
      rintro ⟨hpos, hge⟩
      have := hlimit hpos
      rw [cachesOf_cons, ← List.append_assoc, ← hcaches, List.length_append] at this
      push_cast at this
      omega
    rw [if_neg hc]
    rw [ih (some (addResponse result page)) (sent + 1) f hnext (by simp at hfuel; omega)
      (fun hpos => by
        have := hlimit hpos
        rw [cachesOf_cons, ← List.append_assoc, ← hcaches] at this
        exact this) hfail]
    simp only [List.length_cons]
    congr 2
    omega

/-- The loop of `listRepos` up to a failing request. -/
theorem listRepos_loop_until_error (client : GraphQLClient) (limit : Int) (err : GoError)
    {cur stop : Option GoString} {pages : List ListResult}
    (h : GraphPrefix client.list ListResult.HasNextPage ListResult.EndCursor cur pages stop) :
    ∀ (lr : RepositoryList) (sent fuel : Nat), pages.length < fuel →
      (lr.Repositories ++ reposOf ListResult.Nodes pages).length < stopAt limit →
      client.list stop = Except.error err →
      listRepos.loop client limit fuel cur lr sent
        = some ⟨Outcome.returned none (some err), sent + pages.length + 1⟩ := by
  induction h with
  | @nil cur =>
    intro lr sent fuel hfuel _ hfail
    obtain ⟨f, rfl⟩ : ∃ f, fuel = f + 1 := ⟨fuel - 1, by simp at hfuel; omega⟩
    rw [listRepos.loop]
    simp [hfail]
  | @cons cur stop page pages hfetch hnext _ ih =>
    intro lr sent fuel hfuel hlimit hfail
    obtain ⟨f, rfl⟩ : ∃ f, fuel = f + 1 := ⟨fuel - 1, by simp at hfuel; omega⟩
    rw [reposOf_cons, ← List.append_assoc] at hlimit
    have hlen2 : (lr.Repositories ++ page.Nodes).length < stopAt limit := by
      rw [List.length_append] at hlimit; omega
    have hlen : lr.Repositories.length < stopAt limit := by
      rw [List.length_append] at hlen2; omega
    rw [listRepos_loop_ok client limit f cur lr sent page hfetch hlen]
    have hcond : ¬ (stopAt limit ≤ lr.Repositories.length + page.Nodes.length
        ∨ page.HasNextPage = false) := by
      rintro (h | h)
      · rw [List.length_append] at hlen2; omega
      · rw [hnext] at h; exact absurd h (by decide)
    rw [if_neg hcond, List.take_of_length_le (by omega)]
    rw [ih _ (sent + 1) f (by simp at hfuel; omega) hlimit hfail]
    simp only [List.length_cons]
    congr 2
    omega

/-- The loop of `searchRepos` up to a failing request. -/
theorem searchRepos_loop_until_error (client : GraphQLClient) (limit : Int) (err : GoError)
    {cur stop : Option GoString} {pages : List SearchResult}
    (h : GraphPrefix client.search SearchResult.HasNextPage SearchResult.EndCursor cur pages stop) :
    ∀ (lr : RepositoryList) (sent fuel : Nat), pages.length < fuel →
      (∀ repo ∈ reposOf SearchResult.Nodes pages, repo.sliceable = true) →
      (lr.Repositories ++ reposOf SearchResult.Nodes pages).length < stopAt limit →
      client.search stop = Except.error err →
      searchRepos.loop client limit fuel cur lr sent
        = some ⟨Outcome.returned none (some err), sent + pages.length + 1⟩ := by
  induction h with
  | @nil cur =>
    intro lr sent fuel hfuel _ _ hfail
    obtain ⟨f, rfl⟩ : ∃ f, fuel = f + 1 := ⟨fuel - 1, by simp at hfuel; omega⟩
    rw [searchRepos.loop]
    simp [hfail]
  | @cons cur stop page pages hfetch hnext _ ih =>
    intro lr sent fuel hfuel hs hlimit hfail
    obtain ⟨f, rfl⟩ : ∃ f, fuel = f + 1 := ⟨fuel - 1, by simp at hfuel; omega⟩
    rw [reposOf_cons, ← List.append_assoc] at hlimit
    have hlen2 : (lr.Repositories ++ page.Nodes).length < stopAt limit := by
      rw [List.length_append] at hlimit; omega
    have hlen : lr.Repositories.length < stopAt limit := by
      rw [List.length_append] at hlen2; omega
    obtain ⟨owner, hturn⟩ := searchRepos_loop_ok client limit f cur lr sent page hfetch
      (fun r hr => hs r (by simp [reposOf_cons, hr])) hlen
    rw [hturn]
    have hcond : ¬ (stopAt limit ≤ lr.Repositories.length + page.Nodes.length
        ∨ page.HasNextPage = false) := by
      rintro (h | h)
      · rw [List.length_append] at hlen2; omega
      · rw [hnext] at h; exact absurd h (by decide)
    rw [if_neg hcond, List.take_of_length_le (by omega)]
    rw [ih _ (sent + 1) f (by simp at hfuel; omega)
      (fun r hr => hs r (by simp [reposOf_cons, hr])) hlimit hfail]
    simp only [List.length_cons]
    congr 2
    omega

/-- A returned error comes with a `nil` result, in every run of the loop of
`GetCaches`. -/
theorem GetCaches_loop_error_nil (client : RESTWithNext) (opts : GetCachesOptions) :
    ∀ (fuel : Nat) (path : GoString) (result : Option CachePayload) (sent : Nat)
      (run : Run CachePayload) (r : Option CachePayload) (e : GoError),
      GetCaches.loop client opts fuel path result sent = some run →
      run.outcome = Outcome.returned r (some e) → r = none := by
  intro fuel
  induction fuel with
  | zero =>
    intro path result sent run r e h ho
    rw [GetCaches.loop] at h
    split at h
    · cases h; cases ho
    · cases h
  | succ f ih =>
    intro path result sent run r e h ho
    by_cases hpath : path = []
    · subst hpath
      rw [GetCaches_loop_done] at h
      cases h; cases ho
    · cases hc : client path with
      | error err =>
        rw [GetCaches_loop_error client opts f path result sent err hpath hc] at h
        cases h; cases ho; rfl
      | ok pn =>
        obtain ⟨page, next⟩ := pn
        rw [GetCaches_loop_ok client opts f path next result sent page hpath hc] at h
        split at h
        · cases h; cases ho
        · exact ih _ _ _ run r e h ho

/-- A returned error comes with a `nil` result, in every run of the loop of
`listRepos`. -/
theorem listRepos_loop_error_nil (client : GraphQLClient) (limit : Int) :
    ∀ (fuel : Nat) (cur : Option GoString) (lr : RepositoryList) (sent : Nat)
      (run : Run RepositoryList) (r : Option RepositoryList) (e : GoError),
      listRepos.loop client limit fuel cur lr sent = some run →
      run.outcome = Outcome.returned r (some e) → r = none := by
  intro fuel
  induction fuel with
  | zero =>
    intro cur lr sent run r e h ho
    rw [listRepos.loop] at h
    cases h
  | succ f ih =>
    intro cur lr sent run r e h ho
    rw [listRepos.loop] at h
    cases hc : client.list cur with
    | error err =>
      rw [hc] at h
      cases h; cases ho; rfl
    | ok res =>
      rw [hc] at h
      simp only at h
      rcases hn : listNodes limit res.Nodes lr.Repositories with ⟨repos, b⟩
      rw [hn] at h
      cases b
      · simp only at h
        split at h
        · cases h; cases ho
        · exact ih _ _ _ run r e h ho
      · cases h; cases ho

/-- A returned error comes with a `nil` result, in every run of the loop of
`searchRepos`. -/
theorem searchRepos_loop_error_nil (client : GraphQLClient) (limit : Int) :
    ∀ (fuel : Nat) (cur : Option GoString) (lr : RepositoryList) (sent : Nat)
      (run : Run RepositoryList) (r : Option RepositoryList) (e : GoError),
      searchRepos.loop client limit fuel cur lr sent = some run →
      run.outcome = Outcome.returned r (some e) → r = none := by
  intro fuel
  induction fuel with
  | zero =>
    intro cur lr sent run r e h ho
    rw [searchRepos.loop] at h
    cases h
  | succ f ih =>
    intro cur lr sent run r e h ho
    rw [searchRepos.loop] at h
    cases hc : client.search cur with
    | error err =>
      rw [hc] at h
      cases h; cases ho; rfl
    | ok res =>
      rw [hc] at h
      simp only at h
      cases hn : searchNodes limit res.Nodes { lr with TotalCount := res.RepositoryCount } with
      | none =>
        rw [hn] at h
        cases h; cases ho
      | some p =>
        obtain ⟨lr1, b⟩ := p
        rw [hn] at h
        cases b
        · simp only at h
          split at h
          · cases h; cases ho
          · exact ih _ _ _ run r e h ho
        · cases h; cases ho

/-! ## Claims on `listRepos` and on failing requests -/

/-- Claim C12 (as found in the code): with a limit of zero `listRepos` returns the
first repository only, after one request, although the server has five
repositories on three pages. -/
theorem listRepos_limit_zero_returns_one :
    GraphPages (repoServer false).list ListResult.HasNextPage ListResult.EndCursor none listPages
    ∧ reposOf ListResult.Nodes listPages
        = [repoNamed "r1", repoNamed "r2", repoNamed "r3", repoNamed "r4", repoNamed "r5"]
    ∧ listRepos 5 (repoServer false) 0 {}
        = some ⟨Outcome.returned
            (some { Owner := "octocat".toList, Repositories := [repoNamed "r1"],
                    TotalCount := 5, FromSearch := false }) none, 1⟩ :=
  ⟨@GraphPages.more _ _ _ _ none _ _ rfl rfl
      (@GraphPages.more _ _ _ _ (some "c1".toList) _ _ rfl rfl (GraphPages.last rfl rfl)),
    by decide, by decide⟩

theorem reposOf_take {ρ : Type} (f : ρ → List Repository) (pages : List ρ) (j : Nat) :
    reposOf f (pages.take j) = ((pages.map f).take j).flatten := by
  unfold reposOf
  rw [List.map_take]

/-- Claim C12 (amended): for every server whose pages from the first request on have
the node lists `nodes`, `listRepos` with enough fuel returns the first `limit`
repositories of all pages when `limit` is positive, and the first repository
only when `limit` is zero or negative; it sends one request for each page until
that number is reached, and no request after. -/
theorem listRepos_returns_first_repositories (client : GraphQLClient) (limit : Int)
    (filter : FilterOptions) (nodes : List (List Repository)) (fuel : Nat)
    (hpages : ServerPages client filter nodes)
    (hslice : filter.needsSearch = true → ∀ repo ∈ nodes.flatten, repo.sliceable = true)
    (hfuel : nodes.length ≤ fuel) :
    ∃ r k, listRepos fuel client limit filter = some ⟨Outcome.returned (some r) none, k⟩
      ∧ 1 ≤ k ∧ k ≤ nodes.length
      ∧ (limit > 0 → r.Repositories = nodes.flatten.take limit.toNat)
      ∧ (limit ≤ 0 → r.Repositories = nodes.flatten.take 1)
      ∧ (∀ j, j < k → (nodes.take j).flatten.length < stopAt limit)
      ∧ (k = nodes.length ∨ stopAt limit ≤ (nodes.take k).flatten.length) := by
  unfold ServerPages at hpages
  have key : ∃ r k, listRepos fuel client limit filter
        = some ⟨Outcome.returned (some r) none, k⟩
      ∧ 1 ≤ k ∧ k ≤ nodes.length
      ∧ r.Repositories = nodes.flatten.take (stopAt limit)
      ∧ (∀ j, j < k → (nodes.take j).flatten.length < stopAt limit)
      ∧ (k = nodes.length ∨ stopAt limit ≤ (nodes.take k).flatten.length) := by
    by_cases hs : filter.needsSearch = true
    · rw [if_pos hs] at hpages
      obtain ⟨pages, hp, rfl⟩ := hpages
      obtain ⟨r, k, h1, h2, h3, h4, h5, h6⟩ := searchRepos_loop_pages client limit hp
        { FromSearch := true } 0 fuel (by simpa using hfuel) (hslice hs) (stopAt_pos limit)
      refine ⟨r, k, ?_, h2, by simpa using h3, ?_, ?_, ?_⟩
      · unfold listRepos searchRepos
        rw [if_pos hs, h1, Nat.zero_add]
      · simpa [reposOf] using h4
      · intro j hj
        have := h5 j hj
        rw [reposOf_take] at this
        simpa using this
      · rw [reposOf_take] at h6
        simpa using h6
    · rw [if_neg hs] at hpages
      obtain ⟨pages, hp, rfl⟩ := hpages
      obtain ⟨r, k, h1, h2, h3, h4, h5, h6⟩ := listRepos_loop_pages client limit hp
        {} 0 fuel (by simpa using hfuel) (stopAt_pos limit)
      refine ⟨r, k, ?_, h2, by simpa using h3, ?_, ?_, ?_⟩
      · unfold listRepos
        rw [if_neg hs, h1, Nat.zero_add]
      · simpa [reposOf] using h4
      · intro j hj
        have := h5 j hj
        rw [reposOf_take] at this
        simpa using this
      · rw [reposOf_take] at h6
        simpa using h6
  obtain ⟨r, k, h1, h2, h3, h4, h5, h6⟩ := key
  refine ⟨r, k, h1, h2, h3, ?_, ?_, h5, h6⟩
  · intro hpos
    rw [h4, stopAt_of_pos hpos]
  · intro hnon
    rw [h4, stopAt_of_nonpos hnon]

theorem listRepos_returns_first_repositories_witness :
    ServerPages (repoServer false) {} (listPages.map ListResult.Nodes)
    ∧ (listPages.map ListResult.Nodes).length ≤ 5
    ∧ ∃ r k, listRepos 5 (repoServer false) 3 {} = some ⟨Outcome.returned (some r) none, k⟩
        ∧ r.Repositories = [repoNamed "r1", repoNamed "r2", repoNamed "r3"]
        ∧ k ≤ 3 :=
  have hpages : ServerPages (repoServer false) {} (listPages.map ListResult.Nodes) :=
    ⟨listPages,
      @GraphPages.more _ _ _ _ none _ _ rfl rfl
        (@GraphPages.more _ _ _ _ (some "c1".toList) _ _ rfl rfl (GraphPages.last rfl rfl)),
      rfl⟩
  ⟨hpages, by decide,
    (listRepos_returns_first_repositories (repoServer false) 3 {}
      (listPages.map ListResult.Nodes) 5 hpages (fun h => absurd h (by decide))
      (by decide)).elim
      (fun r hr => hr.elim (fun k hk =>
        ⟨r, k, hk.1, (hk.2.2.2.1 (by decide)).trans (by decide), hk.2.2.1⟩))⟩

/-- Claim C13: in `GetCaches`, `listRepos` and `searchRepos` a returned error always
comes with a `nil` result; and when the server gives the pages `pages` without the
limit being reached and the request after them fails with `err`, the function
returns `nil` and `err`, having sent one request for each page and the failing
one. -/
theorem walk_fails_with_first_error (err : GoError) (fuel : Nat) :
    (∀ (client : RESTWithNext) (fullName : GoString) (opts : GetCachesOptions),
      (∀ run r e, GetCaches fuel client fullName opts = some run →
        run.outcome = Outcome.returned r (some e) → r = none)
      ∧ ∀ pages stop, RestPrefix client (GetCaches.firstPath fullName opts) pages stop →
        client stop = Except.error err →
        (opts.Limit > 0 → ((cachesOf pages).length : Int) < opts.Limit) →
        pages.length < fuel →
        GetCaches fuel client fullName opts
          = some ⟨Outcome.returned none (some err), pages.length + 1⟩)
    ∧ (∀ (client : GraphQLClient) (limit : Int) (filter : FilterOptions),
      (∀ run r e, listRepos fuel client limit filter = some run →
        run.outcome = Outcome.returned r (some e) → r = none)
      ∧ ∀ pages stop, filter.needsSearch = false →
        GraphPrefix client.list ListResult.HasNextPage ListResult.EndCursor none pages stop →
        client.list stop = Except.error err →
        (reposOf ListResult.Nodes pages).length < stopAt limit →
        pages.length < fuel →
        listRepos fuel client limit filter
          = some ⟨Outcome.returned none (some err), pages.length + 1⟩)
    ∧ (∀ (client : GraphQLClient) (limit : Int),
      (∀ run r e, searchRepos fuel client limit = some run →
        run.outcome = Outcome.returned r (some e) → r = none)
      ∧ ∀ pages stop,
        GraphPrefix client.search SearchResult.HasNextPage SearchResult.EndCursor none pages stop →
        client.search stop = Except.error err →
        (∀ repo ∈ reposOf SearchResult.Nodes pages, repo.sliceable = true) →
        (reposOf SearchResult.Nodes pages).length < stopAt limit →
        pages.length < fuel →
        searchRepos fuel client limit
          = some ⟨Outcome.returned none (some err), pages.length + 1⟩) := by
  refine ⟨?_, ?_, ?_⟩
  · intro client fullName opts
    refine ⟨fun run r e h ho => GetCaches_loop_error_nil client opts fuel _ _ _ run r e h ho, ?_⟩
    intro pages stop hp hfail hlimit hfuel
    unfold GetCaches
    rw [GetCaches_loop_until_error client opts err hp none 0 fuel (firstPath_ne_nil fullName opts)
      hfuel (by simpa [cachesSoFar] using hlimit) hfail, Nat.zero_add]
  · intro client limit filter
    refine ⟨?_, ?_⟩
    · intro run r e h ho
      unfold listRepos at h
      split at h
      · exact searchRepos_loop_error_nil client limit fuel _ _ _ run r e h ho
      · exact listRepos_loop_error_nil client limit fuel _ _ _ run r e h ho
    · intro pages stop hs hp hfail hlimit hfuel
      unfold listRepos
      rw [hs]
      simp only [Bool.false_eq_true, if_false]
      rw [listRepos_loop_until_error client limit err hp {} 0 fuel hfuel
        (by simpa using hlimit) hfail, Nat.zero_add]
  · intro client limit
    refine ⟨fun run r e h ho => searchRepos_loop_error_nil client limit fuel _ _ _ run r e h ho, ?_⟩
    intro pages stop hp hfail hslice hlimit hfuel
    unfold searchRepos
    rw [searchRepos_loop_until_error client limit err hp { FromSearch := true } 0 fuel hfuel hslice
      (by simpa using hlimit) hfail, Nat.zero_add]

theorem walk_fails_with_first_error_witness :
    GetCaches 5 brokenCacheServer "O/R".toList ⟨0, [], []⟩
        = some ⟨Outcome.returned none (some "HTTP 502"), 2⟩
    ∧ listRepos 5 (repoServer true) 10 {} = some ⟨Outcome.returned none (some "HTTP 502"), 3⟩
    ∧ searchRepos 5 (repoServer true) 10 = some ⟨Outcome.returned none (some "HTTP 502"), 3⟩ :=
  ⟨((walk_fails_with_first_error "HTTP 502" 5).1 brokenCacheServer "O/R".toList ⟨0, [], []⟩).2
      [⟨[cacheNo 1, cacheNo 2], 5⟩] "p2".toList
      (@RestPrefix.cons _ _ "p2".toList _ _ _ rfl (by decide) RestPrefix.nil) rfl
      (fun h => absurd h (by decide)) (by decide),
    ((walk_fails_with_first_error "HTTP 502" 5).2.1 (repoServer true) 10 {}).2
      (listPages.take 2) (some "c2".toList) rfl
      (@GraphPrefix.cons _ _ _ _ none _ _ _ rfl rfl
        (@GraphPrefix.cons _ _ _ _ (some "c1".toList) _ _ _ rfl rfl GraphPrefix.nil))
      rfl (by decide) (by decide),
    ((walk_fails_with_first_error "HTTP 502" 5).2.2 (repoServer true) 10).2
      (searchPages.take 2) (some "c2".toList)
      (@GraphPrefix.cons _ _ _ _ none _ _ _ rfl rfl
        (@GraphPrefix.cons _ _ _ _ (some "c1".toList) _ _ _ rfl rfl GraphPrefix.nil))
      rfl (by decide) (by decide) (by decide)⟩

/-! ## The owner that `searchRepos` returns -/

theorem ownerPart_of_nil {repo : Repository} (h : repo.NameWithOwner = []) :
    ownerPart repo = [] := by
  simp [ownerPart, h]

theorem firstOwner_append_singleton (repos : List Repository) (repo : Repository) :
    firstOwner (repos ++ [repo])
      = if firstOwner repos = [] then ownerPart repo else firstOwner repos := by
  unfold firstOwner
  rw [List.find?_append]
  cases h : repos.find? (fun repo => decide (ownerPart repo ≠ [])) with
  | some found =>
    have := List.find?_some h
    rw [if_neg (by simpa using this)]
    rfl
  | none =>
    rw [if_pos rfl]
    show (match List.find? (fun repo => decide (ownerPart repo ≠ [])) [repo] with
      | some repo => ownerPart repo
      | none => []) = ownerPart repo
    by_cases hp : ownerPart repo = []
    · simp [List.find?, hp]
    · simp [List.find?, hp]

/-- The loop over the nodes keeps the owner equal to the first owner part, not empty,
of the repositories of the list. -/
theorem searchNodes_owner (limit : Int) : ∀ (nodes : List Repository) (lr lr1 : RepositoryList)
    (b : Bool), lr.Owner = firstOwner lr.Repositories →
    searchNodes limit nodes lr = some (lr1, b) → lr1.Owner = firstOwner lr1.Repositories := by
  intro nodes
  induction nodes with
  | nil =>
    intro lr lr1 b hinv h
    simp only [searchNodes, Option.some.injEq, Prod.mk.injEq] at h
    rw [← h.1]
    exact hinv
  | cons repo rest ih =>
    intro lr lr1 b hinv h
    rw [searchNodes] at h
    -- the owner after this repository
    have hstep : ∀ o, (if lr.Owner = [] ∧ repo.NameWithOwner ≠ [] then
          if IndexRune repo.NameWithOwner '/' < 0 then none
          else some (repo.NameWithOwner.take (IndexRune repo.NameWithOwner '/').toNat)
        else some lr.Owner) = some o → o = firstOwner (lr.Repositories ++ [repo]) := by
      intro o ho
      rw [firstOwner_append_singleton, ← hinv]
      by_cases hc : lr.Owner = [] ∧ repo.NameWithOwner ≠ []
      · rw [if_pos hc] at ho
        split at ho
        · cases ho
        · rw [if_pos hc.1]
          simpa [ownerPart] using ho.symm
      · rw [if_neg hc] at ho
        have ho' : o = lr.Owner := by simpa using ho.symm
        by_cases hl : lr.Owner = []
        · rw [if_pos hl, ho', hl]
          have : repo.NameWithOwner = [] := by
            by_contra hne
            exact hc ⟨hl, hne⟩
          exact (ownerPart_of_nil this).symm
        · rw [if_neg hl, ho']
    cases hown : (if lr.Owner = [] ∧ repo.NameWithOwner ≠ [] then
          if IndexRune repo.NameWithOwner '/' < 0 then none
          else some (repo.NameWithOwner.take (IndexRune repo.NameWithOwner '/').toNat)
        else some lr.Owner) with
    | none =>
      simp only [hown] at h
      cases h
    | some o =>
      simp only [hown] at h
      have hinv1 := hstep o hown
      split at h
      · simp only [Option.some.injEq, Prod.mk.injEq] at h
        rw [← h.1]
        exact hinv1
      · exact ih _ lr1 b hinv1 h

theorem searchRepos_loop_owner (client : GraphQLClient) (limit : Int) :
    ∀ (fuel : Nat) (cur : Option GoString) (lr r : RepositoryList) (sent k : Nat),
      lr.Owner = firstOwner lr.Repositories →
      searchRepos.loop client limit fuel cur lr sent = some ⟨Outcome.returned (some r) none, k⟩ →
      r.Owner = firstOwner r.Repositories := by
  intro fuel
  induction fuel with
  | zero =>
    intro cur lr r sent k _ h
    rw [searchRepos.loop] at h
    cases h
  | succ f ih =>
    intro cur lr r sent k hinv h
    rw [searchRepos.loop] at h
    cases hc : client.search cur with
    | error err =>
      rw [hc] at h
      cases h
    | ok res =>
      rw [hc] at h
      simp only at h
      cases hn : searchNodes limit res.Nodes { lr with TotalCount := res.RepositoryCount } with
      | none =>
        rw [hn] at h
        cases h
      | some p =>
        obtain ⟨lr1, b⟩ := p
        have hinv1 := searchNodes_owner limit res.Nodes
          { lr with TotalCount := res.RepositoryCount } lr1 b hinv hn
        rw [hn] at h
        cases b
        · simp only at h
          split at h
          · cases h; exact hinv1
          · exact ih _ lr1 r _ k hinv1 h
        · cases h; exact hinv1

theorem take_IndexRune_eq_Cut : ∀ name : GoString, '/' ∈ name →
    name.take (IndexRune name '/').toNat = (Cut '/' name).1 := by
  intro name
  induction name with
  | nil => intro h; simp at h
  | cons c t ih =>
    intro h
    rw [IndexRune, Cut]
    by_cases hc : c = '/'
    · simp [hc]
    · rw [if_neg hc, if_neg hc]
      have ht : '/' ∈ t := by
        rcases List.mem_cons.1 h with h | h
        · exact absurd h.symm hc
        · exact h
      have hnn : ¬ IndexRune t '/' < 0 := by
        have := (IndexRune_nonneg_iff t '/').2 ht
        omega
      rw [if_neg hnn]
      have hnat : (IndexRune t '/' + 1).toNat = (IndexRune t '/').toNat + 1 := by omega
      rw [hnat, List.take_succ_cons, ih ht]

theorem ownerPart_eq_nil_iff (repo : Repository) (hs : repo.sliceable = true) :
    ownerPart repo = [] ↔ repo.NameWithOwner = [] ∨ repo.NameWithOwner.head? = some '/' := by
  unfold ownerPart
  cases hname : repo.NameWithOwner with
  | nil => simp
  | cons c t =>
    rw [IndexRune]
    by_cases hc : c = '/'
    · simp [hc]
    · rw [if_neg hc]
      have hmem : '/' ∈ t := by
        have : ('/' : Char) ∈ repo.NameWithOwner := by
          simpa [Repository.sliceable, hname] using hs
        rw [hname] at this
        rcases List.mem_cons.1 this with h | h
        · exact absurd h.symm hc
        · exact h
      have hnn : ¬ IndexRune t '/' < 0 := by
        have := (IndexRune_nonneg_iff t '/').2 hmem
        omega
      rw [if_neg hnn]
      have hnat : (IndexRune t '/' + 1).toNat = (IndexRune t '/').toNat + 1 := by omega
      rw [hnat, List.take_succ_cons]
      simp [hc]

theorem firstOwner_of_first (before after : List Repository) (node : Repository)
    (hbefore : ∀ b ∈ before, ownerPart b = []) (hnode : ownerPart node ≠ []) :
    firstOwner (before ++ node :: after) = ownerPart node := by
  unfold firstOwner
  induction before with
  | nil => simp [List.find?, hnode]
  | cons b rest ih =>
    rw [List.cons_append, List.find?_cons_of_neg _ (by simp [hbefore b (by simp)])]
    exact ih (fun x hx => hbefore x (List.mem_cons_of_mem _ hx))

theorem firstOwner_of_none (repos : List Repository) (h : ∀ n ∈ repos, ownerPart n = []) :
    firstOwner repos = [] := by
  unfold firstOwner
  rw [List.find?_eq_none.2 (fun n hn => by simp [h n hn])]

/-- Claim C30 (amended): when every name with owner among the nodes that is not empty
has a `/`, `searchRepos` does not panic, and the owner it returns is the text
before the first `/` of the first repository it returns for which that text is
not empty; it is empty when there is no such repository. The repositories it
returns are the nodes up to the limit, in the order of the server. -/
theorem searchRepos_owner_of_returned_nodes (client : GraphQLClient) (limit : Int)
    (pages : List SearchResult) (fuel : Nat)
    (hpages : GraphPages client.search SearchResult.HasNextPage SearchResult.EndCursor none pages)
    (hfuel : pages.length ≤ fuel)
    (hslice : ∀ repo ∈ reposOf SearchResult.Nodes pages, repo.sliceable = true) :
    ∃ r k, searchRepos fuel client limit = some ⟨Outcome.returned (some r) none, k⟩
      ∧ r.Repositories = (reposOf SearchResult.Nodes pages).take (stopAt limit)
      ∧ r.Owner = firstOwner r.Repositories
      ∧ (∀ before node after, r.Repositories = before ++ node :: after →
          (∀ b ∈ before, ownerPart b = []) → ownerPart node ≠ [] →
          r.Owner = (Cut '/' node.NameWithOwner).1)
      ∧ ((∀ n ∈ r.Repositories, ownerPart n = []) → r.Owner = [])
      ∧ (∀ n ∈ r.Repositories,
          (ownerPart n = [] ↔ n.NameWithOwner = [] ∨ n.NameWithOwner.head? = some '/')) := by
  obtain ⟨r, k, h1, _, _, h4, _, _⟩ := searchRepos_loop_pages client limit hpages
    { FromSearch := true } 0 fuel hfuel hslice (stopAt_pos limit)
  have hrepos : r.Repositories = (reposOf SearchResult.Nodes pages).take (stopAt limit) := by
    simpa using h4
  have hown : r.Owner = firstOwner r.Repositories :=
    searchRepos_loop_owner client limit fuel none { FromSearch := true } r 0 (0 + k) rfl h1
  have hmem : ∀ n ∈ r.Repositories, n.sliceable = true := by
    intro n hn
    rw [hrepos] at hn
    exact hslice n (List.mem_of_mem_take hn)
  refine ⟨r, k, ?_, hrepos, hown, ?_, ?_, ?_⟩
  · unfold searchRepos
    rw [h1, Nat.zero_add]
  · intro before node after hsplit hbefore hnode
    rw [hown, hsplit, firstOwner_of_first before after node hbefore hnode]
    have hn : node.sliceable = true := hmem node (by rw [hsplit]; simp)
    have hne : node.NameWithOwner ≠ [] := fun h => hnode (ownerPart_of_nil h)
    have hslash : ('/' : Char) ∈ node.NameWithOwner := by
      have : node.NameWithOwner.isEmpty = false := by
        cases hx : node.NameWithOwner with
        | nil => exact absurd hx hne
        | cons _ _ => rfl
      simpa [Repository.sliceable, this] using hn
    exact take_IndexRune_eq_Cut _ hslash
  · intro hall
    rw [hown, firstOwner_of_none _ hall]
  · intro n hn
    exact ownerPart_eq_nil_iff n (hmem n hn)

theorem searchRepos_owner_of_returned_nodes_witness :
    ∃ r k, searchRepos 5 (repoServer false) 3 = some ⟨Outcome.returned (some r) none, k⟩
      ∧ r.Owner = "octocat".toList := by
  obtain ⟨r, k, h1, h2, h3, _⟩ := searchRepos_owner_of_returned_nodes (repoServer false) 3
    searchPages 5
    (@GraphPages.more _ _ _ _ none _ _ rfl rfl
      (@GraphPages.more _ _ _ _ (some "c1".toList) _ _ rfl rfl (GraphPages.last rfl rfl)))
    (by decide) (by decide)
  refine ⟨r, k, h1, ?_⟩
  rw [h3, h2]
  decide

/-- Claim C30 (as found in the code): the owner of a later node is taken when the text
before the first `/` of the first node with a name is empty, and no owner is
taken from a node that comes after the limit is reached. -/
theorem searchRepos_owner_from_later_node :
    searchRepos 5 (onePageSearch [⟨"1".toList, "/r".toList⟩, ⟨"2".toList, "a/b".toList⟩]) 10
        = some ⟨Outcome.returned
            (some { Owner := "a".toList,
                    Repositories := [⟨"1".toList, "/r".toList⟩, ⟨"2".toList, "a/b".toList⟩],
                    TotalCount := 2, FromSearch := true }) none, 1⟩
    ∧ searchRepos 5 (onePageSearch [⟨"1".toList, []⟩, ⟨"2".toList, "a/b".toList⟩]) 1
        = some ⟨Outcome.returned
            (some { Owner := [], Repositories := [⟨"1".toList, []⟩],
                    TotalCount := 2, FromSearch := true }) none, 1⟩ :=
  ⟨by decide, by decide⟩

end Walkers

namespace Api

open CmdApi

/-! ## The field selection compiler -/

theorem Join_eq_intercalate (sep : GoString) : ∀ elems : List GoString,
    Join elems sep = sep.intercalate elems
  | [] => rfl
  | [a] => by simp [Join, List.intercalate]
  | a :: b :: rest => by
    rw [Join, Join_eq_intercalate sep (b :: rest)]
    simp [List.intercalate, List.intersperse]

theorem compileFields_eq (table : FieldTable) (kind : Kind) : ∀ (fields q : List GoString),
    compileFields table kind fields q = q ++ fields.filterMap (fragmentOf table kind) := by
  intro fields
  induction fields with
  | nil => intro q; simp [compileFields]
  | cons field rest ih =>
    intro q
    rw [compileFields]
    cases h : fragmentOf table kind field with
    | none => simp only [ih]; rw [List.filterMap_cons_none h]
    | some fragment =>
      simp only [ih]
      rw [List.filterMap_cons_some h]
      simp

theorem IssueGraphQL_eq (table : FieldTable) (fields : List GoString) :
    IssueGraphQL table fields
      = ",".toList.intercalate (fields.filterMap (fragmentOf table Kind.issue)) := by
  rw [IssueGraphQL, Join_eq_intercalate, compileFields_eq, List.nil_append]

theorem PullRequestGraphQL_eq (table : FieldTable) (fields : List GoString) :
    PullRequestGraphQL table fields
      = ",".toList.intercalate (fields.filterMap (fragmentOf table Kind.pullRequest)) := by
  rw [PullRequestGraphQL, Join_eq_intercalate, compileFields_eq, List.nil_append]

theorem filterMap_filter_of_none {α β : Type} (f : α → Option β) (p : α → Bool)
    (h : ∀ a, p a = false → f a = none) : ∀ l : List α,
    (l.filter p).filterMap f = l.filterMap f := by
  intro l
  induction l with
  | nil => rfl
  | cons a rest ih =>
    cases hp : p a with
    | true =>
      rw [List.filter_cons_of_pos hp]
      cases hf : f a with
      | none => rw [List.filterMap_cons_none hf, List.filterMap_cons_none hf, ih]
      | some b => rw [List.filterMap_cons_some hf, List.filterMap_cons_some hf, ih]
    | false =>
      rw [List.filter_cons_of_neg (by simp [hp]), List.filterMap_cons_none (h a hp), ih]

/-- Claim C14: for every table and every list of field names, `IssueGraphQL` and
`PullRequestGraphQL` return the fragments of the retained fields, in the order of
the list, with `,` between two of them and nowhere else; the empty list gives the
empty string; and the lists of the tests give the strings of the tests. -/
theorem GraphQL_joins_retained_fragments (table : FieldTable) (fields : List GoString) :
    IssueGraphQL table fields
        = ",".toList.intercalate (fields.filterMap (fragmentOf table Kind.issue))
    ∧ PullRequestGraphQL table fields
        = ",".toList.intercalate (fields.filterMap (fragmentOf table Kind.pullRequest))
    ∧ IssueGraphQL table [] = [] ∧ PullRequestGraphQL table [] = []
    ∧ IssueGraphQL fieldTable ["number".toList, "title".toList] = "number,title".toList
    ∧ PullRequestGraphQL fieldTable ["number".toList, "title".toList] = "number,title".toList
    ∧ IssueGraphQL fieldTable ["author".toList, "assignees".toList]
        = ("author\x7blogin,...on User\x7bid,name\x7d\x7d,"
            ++ "assignees(first:100)\x7bnodes\x7bid,login,name\x7d,totalCount\x7d").toList
    ∧ PullRequestGraphQL fieldTable ["author".toList, "assignees".toList]
        = ("author\x7blogin,...on User\x7bid,name\x7d\x7d,"
            ++ "assignees(first:100)\x7bnodes\x7bid,login,name\x7d,totalCount\x7d").toList :=
  ⟨IssueGraphQL_eq table fields, PullRequestGraphQL_eq table fields, rfl, rfl,
    by decide, by decide, by decide, by decide⟩

/-- Claim C15: a name absent from the table is dropped: the output of `IssueGraphQL`
and of `PullRequestGraphQL` for a list is the output for the list without that
name. -/
theorem unknown_field_is_dropped (table : FieldTable) (name : GoString)
    (fields : List GoString) (habsent : table name = none) :
    IssueGraphQL table fields = IssueGraphQL table (fields.filter (fun f => decide (f ≠ name)))
    ∧ PullRequestGraphQL table fields
        = PullRequestGraphQL table (fields.filter (fun f => decide (f ≠ name))) := by
  have hdrop : ∀ kind f, decide (f ≠ name) = false → fragmentOf table kind f = none := by
    intro kind f hf
    have : f = name := by simpa using hf
    subst this
    simp [fragmentOf, habsent]
  rw [IssueGraphQL_eq, IssueGraphQL_eq, PullRequestGraphQL_eq, PullRequestGraphQL_eq,
    filterMap_filter_of_none _ _ (hdrop Kind.issue),
    filterMap_filter_of_none _ _ (hdrop Kind.pullRequest)]
  exact ⟨rfl, rfl⟩

theorem unknown_field_is_dropped_witness :
    fieldTable "colour".toList = none
    ∧ IssueGraphQL fieldTable ["number".toList, "colour".toList, "title".toList]
        = IssueGraphQL fieldTable ["number".toList, "title".toList]
    ∧ PullRequestGraphQL fieldTable ["number".toList, "colour".toList, "title".toList]
        = "number,title".toList :=
  have h := unknown_field_is_dropped fieldTable "colour".toList
    ["number".toList, "colour".toList, "title".toList] (by decide)
  ⟨by decide, h.1.trans (by decide), h.2.trans (by decide)⟩

/-- Claim C16: when the table marks `isPinned` and `stateReason` as fields of issues
only, `PullRequestGraphQL` leaves them out and compiles the other fields of the
list as it does without them. -/
theorem PullRequestGraphQL_omits_issue_only (table : FieldTable) (fields : List GoString)
    (honly : ∀ name ∈ issueOnlyFields, ∃ spec, table name = some spec
      ∧ spec.only = some Kind.issue) :
    PullRequestGraphQL table fields
        = PullRequestGraphQL table (fields.filter (fun f => decide (f ∉ issueOnlyFields)))
    ∧ PullRequestGraphQL table fields
        = ",".toList.intercalate
            ((fields.filter (fun f => decide (f ∉ issueOnlyFields))).filterMap
              (fragmentOf table Kind.pullRequest))
    ∧ ∀ name ∈ issueOnlyFields, fragmentOf table Kind.pullRequest name = none := by
  have hnone : ∀ name ∈ issueOnlyFields, fragmentOf table Kind.pullRequest name = none := by
    intro name hname
    obtain ⟨spec, hspec, hk⟩ := honly name hname
    simp [fragmentOf, hspec, FieldSpec.validFor, hk]
  have hdrop : ∀ f, decide (f ∉ issueOnlyFields) = false →
      fragmentOf table Kind.pullRequest f = none := by
    intro f hf
    exact hnone f (by simpa using hf)
  refine ⟨?_, ?_, hnone⟩
  · rw [PullRequestGraphQL_eq, PullRequestGraphQL_eq, filterMap_filter_of_none _ _ hdrop]
  · rw [PullRequestGraphQL_eq, filterMap_filter_of_none _ _ hdrop]

theorem PullRequestGraphQL_omits_issue_only_witness :
    (∀ name ∈ issueOnlyFields, ∃ spec, fieldTable name = some spec
      ∧ spec.only = some Kind.issue)
    ∧ PullRequestGraphQL fieldTable ["isPinned".toList, "stateReason".toList, "number".toList]
        = "number".toList :=
  have honly : ∀ name ∈ issueOnlyFields, ∃ spec, fieldTable name = some spec
      ∧ spec.only = some Kind.issue := by
    intro name hname
    simp only [issueOnlyFields, List.mem_cons, List.mem_singleton, List.not_mem_nil,
      or_false] at hname
    rcases hname with rfl | rfl
    · exact ⟨_, rfl, rfl⟩
    · exact ⟨_, rfl, rfl⟩
  ⟨honly,
    (PullRequestGraphQL_omits_issue_only fieldTable
      ["isPinned".toList, "stateReason".toList, "number".toList] honly).1.trans (by decide)⟩

/-! ## The metadata lookups -/

theorem findID_eq_none_iff {α : Type} (key id : α → GoString) (name : GoString) :
    ∀ l : List α, findID key id name l = none ↔ ¬ Matched key l name := by
  intro l
  induction l with
  | nil => simp [findID, Matched]
  | cons c rest ih =>
    rw [findID]
    by_cases h : EqualFold (key c) name = true
    · rw [if_pos h]
      simp only [reduceCtorEq, false_iff, not_not]
      exact ⟨c, by simp, h⟩
    · rw [if_neg h, ih]
      unfold Matched
      constructor
      · rintro hn ⟨x, hx, hm⟩
        rcases List.mem_cons.1 hx with rfl | hx
        · exact h hm
        · exact hn ⟨x, hx, hm⟩
      · rintro hn ⟨x, hx, hm⟩
        exact hn ⟨x, List.mem_cons_of_mem _ hx, hm⟩

theorem findID_of_firstMatch {α : Type} (key id : α → GoString) (name : GoString)
    {l : List α} {c : α} (h : FirstMatch key l name c) : findID key id name l = some (id c) := by
  obtain ⟨before, after, rfl, hb, hc⟩ := h
  induction before with
  | nil => simp [findID, hc]
  | cons b rest ih =>
    rw [List.cons_append, findID, if_neg (by simp [hb b (by simp)])]
    exact ih (fun x hx => hb x (List.mem_cons_of_mem _ hx))

theorem firstMatch_of_findID {α : Type} (key id : α → GoString) (name : GoString) :
    ∀ {l : List α} {i : GoString}, findID key id name l = some i →
      ∃ c, FirstMatch key l name c ∧ id c = i := by
  intro l
  induction l with
  | nil => intro i h; simp [findID] at h
  | cons b rest ih =>
    intro i h
    rw [findID] at h
    by_cases hb : EqualFold (key b) name = true
    · rw [if_pos hb] at h
      exact ⟨b, ⟨[], rest, rfl, by simp, hb⟩, by simpa using h⟩
    · rw [if_neg hb] at h
      obtain ⟨c, ⟨before, after, e, hbefore, hc⟩, hid⟩ := ih h
      refine ⟨c, ⟨b :: before, after, by rw [e]; rfl, ?_, hc⟩, hid⟩
      intro x hx
      rcases List.mem_cons.1 hx with rfl | hx
      · simpa using hb
      · exact hbefore x hx

theorem FirstMatch.mem {α : Type} {key : α → GoString} {l : List α} {name : GoString} {c : α}
    (h : FirstMatch key l name c) : c ∈ l ∧ EqualFold (key c) name = true := by
  obtain ⟨before, after, rfl, _, hc⟩ := h
  exact ⟨by simp, hc⟩

theorem exists_firstMatch {α : Type} (key : α → GoString) {l : List α} {name : GoString}
    (h : Matched key l name) : ∃ c, FirstMatch key l name c := by
  cases hf : findID key key name l with
  | none => exact absurd h ((findID_eq_none_iff key key name l).1 hf)
  | some i =>
    obtain ⟨c, hc, _⟩ := firstMatch_of_findID key key name hf
    exact ⟨c, hc⟩

theorem exists_firstUnmatched (matched : GoString → Prop) : ∀ names : List GoString,
    (∃ n ∈ names, ¬ matched n) → ∃ n, n ∈ names ∧ ¬ matched n ∧ FirstUnmatched matched names n := by
  intro names
  induction names with
  | nil => rintro ⟨n, hn, _⟩; simp at hn
  | cons a rest ih =>
    rintro ⟨n, hn, hnm⟩
    by_cases ha : matched a
    · have hrest : ∃ n ∈ rest, ¬ matched n := by
        rcases List.mem_cons.1 hn with rfl | hn
        · exact absurd ha hnm
        · exact ⟨n, hn, hnm⟩
      obtain ⟨x, hx, hxm, pre, post, e, hpre, _⟩ := ih hrest
      refine ⟨x, List.mem_cons_of_mem _ hx, hxm, a :: pre, post, by rw [e]; rfl, ?_, hxm⟩
      intro p hp
      rcases List.mem_cons.1 hp with rfl | hp
      · exact ha
      · exact hpre p hp
    · exact ⟨a, by simp, ha, [], rest, rfl, by simp, ha⟩

theorem resolveNames_ok (find : GoString → Option GoString) : ∀ (names ids : List GoString),
    (∀ n ∈ names, ∃ i, find n = some i) →
    ∃ found, resolveNames find names ids = (ids ++ found, none)
      ∧ List.Forall₂ (fun n i => find n = some i) names found := by
  intro names
  induction names with
  | nil => intro ids _; exact ⟨[], by simp [resolveNames], List.Forall₂.nil⟩
  | cons a rest ih =>
    intro ids h
    obtain ⟨i, hi⟩ := h a (by simp)
    obtain ⟨found, hf, h2⟩ := ih (ids ++ [i]) (fun n hn => h n (List.mem_cons_of_mem _ hn))
    refine ⟨i :: found, ?_, List.Forall₂.cons hi h2⟩
    rw [resolveNames, hi]
    simp only [hf, List.append_assoc, List.singleton_append]

theorem resolveNames_fail (find : GoString → Option GoString) :
    ∀ (pre : List GoString) (n : GoString) (post ids : List GoString),
    (∀ p ∈ pre, ∃ i, find p = some i) → find n = none →
    resolveNames find (pre ++ n :: post) ids = ([], some ⟨n⟩) := by
  intro pre
  induction pre with
  | nil => intro n post ids _ hn; simp [resolveNames, hn]
  | cons a rest ih =>
    intro n post ids h hn
    obtain ⟨i, hi⟩ := h a (by simp)
    rw [List.cons_append, resolveNames, hi]
    exact ih n post _ (fun p hp => h p (List.mem_cons_of_mem _ hp)) hn

theorem resolveNames_acc (find : GoString → Option GoString) :
    ∀ (names ids found : List GoString), resolveNames find names [] = (found, none) →
      resolveNames find names ids = (ids ++ found, none) := by
  intro names
  have gen : ∀ (names acc ids found : List GoString),
      resolveNames find names acc = (found, none) →
      resolveNames find names (ids ++ acc) = (ids ++ found, none) := by
    intro names
    induction names with
    | nil =>
      intro acc ids found h
      simp only [resolveNames, Prod.mk.injEq, and_true] at h
      simp [resolveNames, h]
    | cons a rest ih =>
      intro acc ids found h
      rw [resolveNames] at h ⊢
      cases hf : find a with
      | none => rw [hf] at h; simp at h
      | some i =>
        rw [hf] at h
        simp only at h ⊢
        rw [List.append_assoc]
        exact ih _ ids found h
  intro ids found h
  simpa using gen names [] ids found h

theorem resolveNames_append (find : GoString → Option GoString) (name id : GoString)
    (hfind : find name = some id) :
    ∀ (pre post ids1 ids2 acc : List GoString),
      resolveNames find pre acc = (ids1, none) → resolveNames find post [] = (ids2, none) →
      resolveNames find (pre ++ name :: post) acc = (ids1 ++ id :: ids2, none) := by
  intro pre
  induction pre with
  | nil =>
    intro post ids1 ids2 acc h1 h2
    simp only [resolveNames, Prod.mk.injEq, and_true] at h1
    subst h1
    rw [List.nil_append, resolveNames, hfind]
    simp only
    rw [resolveNames_acc find post (acc ++ [id]) ids2 h2]
    simp
  | cons a rest ih =>
    intro post ids1 ids2 acc h1 h2
    rw [List.cons_append, resolveNames]
    rw [resolveNames] at h1
    cases hf : find a with
    | none => rw [hf] at h1; simp at h1
    | some i =>
      rw [hf] at h1
      exact ih post ids1 ids2 _ h1 h2

theorem EqualFold_iff (s t : GoString) :
    EqualFold s t = true ↔ s.map Char.toLower = t.map Char.toLower := by
  simp [EqualFold]

/-- Under a permutation of candidates whose keys differ pairwise, even up to case,
the search finds the same ID. -/
theorem findID_perm {α : Type} (key id : α → GoString) (name : GoString) {l l2 : List α}
    (hperm : l2.Perm l) (hdistinct : l.Pairwise (fun a b => EqualFold (key a) (key b) = false)) :
    findID key id name l2 = findID key id name l := by
  cases h : findID key id name l with
  | none =>
    rw [findID_eq_none_iff] at h ⊢
    rintro ⟨c, hc, hm⟩
    exact h ⟨c, hperm.mem_iff.1 hc, hm⟩
  | some i =>
    obtain ⟨c, hfc, hid⟩ := firstMatch_of_findID key id name h
    have hcm := hfc.mem
    have hmatched : Matched key l2 name := ⟨c, hperm.mem_iff.2 hcm.1, hcm.2⟩
    obtain ⟨c2, hfc2⟩ := exists_firstMatch key hmatched
    have hc2m := hfc2.mem
    rw [findID_of_firstMatch key id name hfc2, ← hid]
    have hsame : EqualFold (key c) (key c2) = true := by
      rw [EqualFold_iff] at *
      rw [hcm.2, hc2m.2]
    have hsymm : Symmetric (fun a b : α => EqualFold (key a) (key b) = false) := by
      intro a b hab
      have : ¬ EqualFold (key a) (key b) = true := by simp [hab]
      rw [EqualFold_iff] at this
      have h2 : ¬ EqualFold (key b) (key a) = true := by
        rw [EqualFold_iff]; exact fun e => this e.symm
      simpa using h2
    by_cases hcc : c = c2
    · rw [hcc]
    · have := hdistinct.forall hsymm hcm.1 (hperm.mem_iff.1 hc2m.1) hcc
      rw [hsame] at this
      exact absurd this (by decide)

/-- Claim C17: when every requested name is the login, up to case, of an assignable
user, `MembersToIDs` returns no error and one ID for each name, the ID at a
position being that of a user whose login is the name at that position up to
case; and the IDs are the same for every other order of the users of the server,
when no two logins are equal up to case. -/
theorem MembersToIDs_in_request_order (m : RepoMetadataResult) (names : List GoString)
    (hknown : ∀ n ∈ names, Matched RepoAssignee.Login m.AssignableUsers n) :
    ∃ ids, MembersToIDs m names = (ids, none) ∧ ids.length = names.length
      ∧ List.Forall₂
          (fun n i => ∃ u ∈ m.AssignableUsers, EqualFold u.Login n = true ∧ u.ID = i) names ids
      ∧ ∀ users : List RepoAssignee, users.Perm m.AssignableUsers →
          m.AssignableUsers.Pairwise (fun a b => EqualFold a.Login b.Login = false) →
          MembersToIDs { m with AssignableUsers := users } names = (ids, none) := by
  have hfind : ∀ n ∈ names,
      ∃ i, findID RepoAssignee.Login RepoAssignee.ID n m.AssignableUsers = some i := by
    intro n hn
    cases h : findID RepoAssignee.Login RepoAssignee.ID n m.AssignableUsers with
    | none => exact absurd (hknown n hn) ((findID_eq_none_iff _ _ _ _).1 h)
    | some i => exact ⟨i, rfl⟩
  obtain ⟨found, hres, hall⟩ := resolveNames_ok
    (fun name => findID RepoAssignee.Login RepoAssignee.ID name m.AssignableUsers) names [] hfind
  rw [List.nil_append] at hres
  refine ⟨found, hres, hall.length_eq.symm, ?_, ?_⟩
  · refine hall.imp ?_
    intro n i hni
    obtain ⟨c, hc, hid⟩ := firstMatch_of_findID _ _ _ hni
    exact ⟨c, hc.mem.1, hc.mem.2, hid⟩
  · intro users hperm hdistinct
    have hfun : (fun name => findID RepoAssignee.Login RepoAssignee.ID name users)
        = (fun name => findID RepoAssignee.Login RepoAssignee.ID name m.AssignableUsers) :=
      funext (fun name => findID_perm _ _ name hperm hdistinct)
    unfold MembersToIDs
    simp only [hfun]
    exact hres

theorem MembersToIDs_in_request_order_witness :
    (∀ n ∈ ["monalisa".toList, "hubot".toList],
      Matched RepoAssignee.Login testMetadata.AssignableUsers n)
    ∧ ∃ ids, MembersToIDs testMetadata ["monalisa".toList, "hubot".toList] = (ids, none)
        ∧ ids = ["MONAID".toList, "HUBOTID".toList] := by
  have hknown : ∀ n ∈ ["monalisa".toList, "hubot".toList],
      Matched RepoAssignee.Login testMetadata.AssignableUsers n := by
    intro n hn
    simp only [List.mem_cons, List.mem_singleton, List.not_mem_nil, or_false] at hn
    rcases hn with rfl | rfl
    · exact ⟨⟨"MONAID".toList, "MonaLisa".toList, []⟩, by decide, by decide⟩
    · exact ⟨⟨"HUBOTID".toList, "hubot".toList, []⟩, by decide, by decide⟩
  obtain ⟨ids, h, _⟩ :=
    MembersToIDs_in_request_order testMetadata ["monalisa".toList, "hubot".toList] hknown
  refine ⟨hknown, ids, h, ?_⟩
  have e : MembersToIDs testMetadata ["monalisa".toList, "hubot".toList]
      = (["MONAID".toList, "HUBOTID".toList], none) := by decide
  rw [e] at h
  exact (Prod.mk.inj h).1.symm

theorem findID_isSome_of_matched {α : Type} (key id : α → GoString) {name : GoString}
    {l : List α} (h : Matched key l name) : ∃ i, findID key id name l = some i := by
  cases hf : findID key id name l with
  | none => exact absurd h ((findID_eq_none_iff key id name l).1 hf)
  | some i => exact ⟨i, rfl⟩

theorem projectsLoop_fail (m : RepoMetadataResult) :
    ∀ (pre : List GoString) (n : GoString) (post ids idsV2 : List GoString),
    (∀ p ∈ pre, Matched RepoProject.Name m.Projects p ∨ Matched ProjectV2.Title m.ProjectsV2 p) →
    ¬ (Matched RepoProject.Name m.Projects n ∨ Matched ProjectV2.Title m.ProjectsV2 n) →
    projectsLoop m (pre ++ n :: post) ids idsV2 = ([], [], some ⟨n⟩) := by
  intro pre
  induction pre with
  | nil =>
    intro n post ids idsV2 _ hn
    rw [not_or] at hn
    rw [List.nil_append, projectsLoop, (findID_eq_none_iff _ _ _ _).2 hn.1,
      (findID_eq_none_iff _ _ _ _).2 hn.2]
  | cons a rest ih =>
    intro n post ids idsV2 h hn
    have hrest := fun p hp => h p (List.mem_cons_of_mem _ hp)
    rw [List.cons_append, projectsLoop]
    cases h1 : findID RepoProject.Name RepoProject.ID a m.Projects with
    | some i => exact ih n post _ _ hrest hn
    | none =>
      have hv2 : Matched ProjectV2.Title m.ProjectsV2 a := by
        rcases h a (by simp) with h | h
        · exact absurd h ((findID_eq_none_iff _ _ _ _).1 h1)
        · exact h
      obtain ⟨i, hi⟩ := findID_isSome_of_matched ProjectV2.Title ProjectV2.ID hv2
      simp only [hi]
      exact ih n post _ _ hrest hn

theorem projectsLoop_acc (m : RepoMetadataResult) :
    ∀ (names acc accV2 ids idsV2 found foundV2 : List GoString),
      projectsLoop m names acc accV2 = (found, foundV2, none) →
      projectsLoop m names (ids ++ acc) (idsV2 ++ accV2) = (ids ++ found, idsV2 ++ foundV2, none) := by
  intro names
  induction names with
  | nil =>
    intro acc accV2 ids idsV2 found foundV2 h
    simp only [projectsLoop, Prod.mk.injEq, and_true] at h
    simp [projectsLoop, h.1, h.2]
  | cons a rest ih =>
    intro acc accV2 ids idsV2 found foundV2 h
    rw [projectsLoop] at h ⊢
    cases h1 : findID RepoProject.Name RepoProject.ID a m.Projects with
    | some i =>
      rw [h1] at h
      simp only at h ⊢
      rw [List.append_assoc]
      exact ih _ _ ids idsV2 found foundV2 h
    | none =>
      rw [h1] at h
      simp only at h ⊢
      cases h2 : findID ProjectV2.Title ProjectV2.ID a m.ProjectsV2 with
      | some i =>
        rw [h2] at h
        simp only at h ⊢
        rw [List.append_assoc]
        exact ih _ _ ids idsV2 found foundV2 h
      | none =>
        rw [h2] at h
        simp at h

/-- A name found by `projectsLoop` between two lists of names that resolve: `v1`
tells in which of the two lists of IDs its ID goes. -/
theorem projectsLoop_append (m : RepoMetadataResult) (name id : GoString) (v1 : Bool)
    (hfind : if v1 = true then findID RepoProject.Name RepoProject.ID name m.Projects = some id
      else findID RepoProject.Name RepoProject.ID name m.Projects = none
        ∧ findID ProjectV2.Title ProjectV2.ID name m.ProjectsV2 = some id) :
    ∀ (pre post a1 b1 a2 b2 acc accV2 : List GoString),
      projectsLoop m pre acc accV2 = (a1, b1, none) →
      projectsLoop m post [] [] = (a2, b2, none) →
      projectsLoop m (pre ++ name :: post) acc accV2
        = (if v1 = true then (a1 ++ id :: a2, b1 ++ b2, none)
           else (a1 ++ a2, b1 ++ id :: b2, none)) := by
  intro pre
  induction pre with
  | nil =>
    intro post a1 b1 a2 b2 acc accV2 h1 h2
    simp only [projectsLoop, Prod.mk.injEq, and_true] at h1
    obtain ⟨rfl, rfl⟩ := h1
    rw [List.nil_append, projectsLoop]
    cases v1 with
    | true =>
      simp only [if_true] at hfind ⊢
      rw [hfind]
      simp only
      have := projectsLoop_acc m post [] [] (acc ++ [id]) accV2 a2 b2 h2
      simpa using this
    | false =>
      simp only [Bool.false_eq_true, if_false] at hfind ⊢
      rw [hfind.1, hfind.2]
      simp only
      have := projectsLoop_acc m post [] [] acc (accV2 ++ [id]) a2 b2 h2
      simpa using this
  | cons a rest ih =>
    intro post a1 b1 a2 b2 acc accV2 h1 h2
    rw [List.cons_append, projectsLoop]
    rw [projectsLoop] at h1
    cases hf : findID RepoProject.Name RepoProject.ID a m.Projects with
    | some i =>
      rw [hf] at h1
      exact ih post a1 b1 a2 b2 _ _ h1 h2
    | none =>
      rw [hf] at h1
      simp only at h1 ⊢
      cases hf2 : findID ProjectV2.Title ProjectV2.ID a m.ProjectsV2 with
      | some i =>
        rw [hf2] at h1
        exact ih post a1 b1 a2 b2 _ _ h1 h2
      | none =>
        rw [hf2] at h1
        simp at h1

/-- Claim C18: when some requested name matches no candidate of its kind,
`MembersToIDs`, `TeamsToIDs`, `LabelsToIDs` and `ProjectsToIDs` return no IDs and
the error that carries such a name, the first of the list, also when names before
it did match; and `MilestoneToID` returns no ID and the error that carries the
title. -/
theorem unmatched_name_aborts_lookup (m : RepoMetadataResult) :
    (∀ names : List GoString,
      (∃ n ∈ names, ¬ Matched RepoAssignee.Login m.AssignableUsers n) →
      ∃ n, n ∈ names ∧ ¬ Matched RepoAssignee.Login m.AssignableUsers n
        ∧ FirstUnmatched (Matched RepoAssignee.Login m.AssignableUsers) names n
        ∧ MembersToIDs m names = ([], some ⟨n⟩))
    ∧ (∀ names : List GoString,
      (∃ n ∈ names, ¬ Matched OrgTeam.Slug m.Teams (teamSlug n)) →
      ∃ n, n ∈ names ∧ ¬ Matched OrgTeam.Slug m.Teams (teamSlug n)
        ∧ FirstUnmatched (fun x => Matched OrgTeam.Slug m.Teams (teamSlug x)) names n
        ∧ TeamsToIDs m names = ([], some ⟨n⟩))
    ∧ (∀ names : List GoString,
      (∃ n ∈ names, ¬ Matched RepoLabel.Name m.Labels n) →
      ∃ n, n ∈ names ∧ ¬ Matched RepoLabel.Name m.Labels n
        ∧ FirstUnmatched (Matched RepoLabel.Name m.Labels) names n
        ∧ LabelsToIDs m names = ([], some ⟨n⟩))
    ∧ (∀ names : List GoString,
      (∃ n ∈ names, ¬ (Matched RepoProject.Name m.Projects n
          ∨ Matched ProjectV2.Title m.ProjectsV2 n)) →
      ∃ n, n ∈ names
        ∧ ¬ (Matched RepoProject.Name m.Projects n ∨ Matched ProjectV2.Title m.ProjectsV2 n)
        ∧ FirstUnmatched (fun x => Matched RepoProject.Name m.Projects x
            ∨ Matched ProjectV2.Title m.ProjectsV2 x) names n
        ∧ ProjectsToIDs m names = ([], [], some ⟨n⟩))
    ∧ (∀ title : GoString, ¬ Matched RepoMilestone.Title m.Milestones title →
      MilestoneToID m title = ([], some ⟨title⟩)) := by
  refine ⟨?_, ?_, ?_, ?_, ?_⟩
  · intro names h
    obtain ⟨n, hn, hnm, hfirst⟩ := exists_firstUnmatched _ names h
    refine ⟨n, hn, hnm, hfirst, ?_⟩
    obtain ⟨pre, post, rfl, hpre, _⟩ := hfirst
    exact resolveNames_fail _ pre n post []
      (fun p hp => findID_isSome_of_matched _ _ (hpre p hp))
      ((findID_eq_none_iff _ _ _ _).2 hnm)
  · intro names h
    obtain ⟨n, hn, hnm, hfirst⟩ :=
      exists_firstUnmatched (fun x => Matched OrgTeam.Slug m.Teams (teamSlug x)) names h
    refine ⟨n, hn, hnm, hfirst, ?_⟩
    obtain ⟨pre, post, rfl, hpre, _⟩ := hfirst
    exact resolveNames_fail _ pre n post []
      (fun p hp => findID_isSome_of_matched _ _ (hpre p hp))
      ((findID_eq_none_iff _ _ _ _).2 hnm)
  · intro names h
    obtain ⟨n, hn, hnm, hfirst⟩ := exists_firstUnmatched _ names h
    refine ⟨n, hn, hnm, hfirst, ?_⟩
    obtain ⟨pre, post, rfl, hpre, _⟩ := hfirst
    exact resolveNames_fail _ pre n post []
      (fun p hp => findID_isSome_of_matched _ _ (hpre p hp))
      ((findID_eq_none_iff _ _ _ _).2 hnm)
  · intro names h
    obtain ⟨n, hn, hnm, hfirst⟩ := exists_firstUnmatched
      (fun x => Matched RepoProject.Name m.Projects x ∨ Matched ProjectV2.Title m.ProjectsV2 x)
      names h
    refine ⟨n, hn, hnm, hfirst, ?_⟩
    obtain ⟨pre, post, rfl, hpre, _⟩ := hfirst
    exact projectsLoop_fail m pre n post [] [] hpre hnm
  · intro title h
    unfold MilestoneToID
    rw [(findID_eq_none_iff _ _ _ _).2 h]

/-- Claim C19: the candidate whose ID a lookup returns for a name is the first one, in
the order of the list of candidates, whose key is the name up to case, whatever
candidates follow it; there is no error. For `ProjectsToIDs` the v1 projects come
before the v2 projects. The name may stand between names that resolve. -/
theorem lookup_returns_first_match (m : RepoMetadataResult) (name : GoString) :
    (∀ c, FirstMatch RepoAssignee.Login m.AssignableUsers name c →
      ∀ pre post ids1 ids2, MembersToIDs m pre = (ids1, none) →
        MembersToIDs m post = (ids2, none) →
        MembersToIDs m (pre ++ name :: post) = (ids1 ++ c.ID :: ids2, none))
    ∧ (∀ c, FirstMatch OrgTeam.Slug m.Teams (teamSlug name) c →
      ∀ pre post ids1 ids2, TeamsToIDs m pre = (ids1, none) →
        TeamsToIDs m post = (ids2, none) →
        TeamsToIDs m (pre ++ name :: post) = (ids1 ++ c.ID :: ids2, none))
    ∧ (∀ c, FirstMatch RepoLabel.Name m.Labels name c →
      ∀ pre post ids1 ids2, LabelsToIDs m pre = (ids1, none) →
        LabelsToIDs m post = (ids2, none) →
        LabelsToIDs m (pre ++ name :: post) = (ids1 ++ c.ID :: ids2, none))
    ∧ (∀ c, FirstMatch RepoProject.Name m.Projects name c →
      ∀ pre post a1 b1 a2 b2, ProjectsToIDs m pre = (a1, b1, none) →
        ProjectsToIDs m post = (a2, b2, none) →
        ProjectsToIDs m (pre ++ name :: post) = (a1 ++ c.ID :: a2, b1 ++ b2, none))
    ∧ (∀ c, ¬ Matched RepoProject.Name m.Projects name →
      FirstMatch ProjectV2.Title m.ProjectsV2 name c →
      ∀ pre post a1 b1 a2 b2, ProjectsToIDs m pre = (a1, b1, none) →
        ProjectsToIDs m post = (a2, b2, none) →
        ProjectsToIDs m (pre ++ name :: post) = (a1 ++ a2, b1 ++ c.ID :: b2, none))
    ∧ (∀ c, FirstMatch RepoMilestone.Title m.Milestones name c →
      MilestoneToID m name = (c.ID, none)) := by
  refine ⟨?_, ?_, ?_, ?_, ?_, ?_⟩
  · intro c hc pre post ids1 ids2 h1 h2
    exact resolveNames_append _ name c.ID (findID_of_firstMatch _ _ _ hc) pre post ids1 ids2 []
      h1 h2
  · intro c hc pre post ids1 ids2 h1 h2
    exact resolveNames_append
      (fun name => findID OrgTeam.Slug OrgTeam.ID (teamSlug name) m.Teams) name c.ID
      (findID_of_firstMatch _ _ _ hc) pre post ids1 ids2 [] h1 h2
  · intro c hc pre post ids1 ids2 h1 h2
    exact resolveNames_append _ name c.ID (findID_of_firstMatch _ _ _ hc) pre post ids1 ids2 []
      h1 h2
  · intro c hc pre post a1 b1 a2 b2 h1 h2
    have := projectsLoop_append m name c.ID true
      (by simpa using findID_of_firstMatch RepoProject.Name RepoProject.ID name hc)
      pre post a1 b1 a2 b2 [] [] h1 h2
    simpa using this
  · intro c hno hc pre post a1 b1 a2 b2 h1 h2
    have := projectsLoop_append m name c.ID false
      (by
        simp only [Bool.false_eq_true, if_false]
        exact ⟨(findID_eq_none_iff _ _ _ _).2 hno,
          findID_of_firstMatch ProjectV2.Title ProjectV2.ID name hc⟩)
      pre post a1 b1 a2 b2 [] [] h1 h2
    simpa using this
  · intro c hc
    unfold MilestoneToID
    rw [findID_of_firstMatch _ _ _ hc]

theorem unmatched_name_aborts_lookup_witness :
    (∃ n, n ∈ ["hubot".toList, "nobody".toList, "monalisa".toList]
      ∧ MembersToIDs testMetadata ["hubot".toList, "nobody".toList, "monalisa".toList]
          = ([], some ⟨n⟩))
    ∧ (∃ n, n ∈ ["/core".toList, "OWNER/ghosts".toList]
      ∧ TeamsToIDs testMetadata ["/core".toList, "OWNER/ghosts".toList] = ([], some ⟨n⟩))
    ∧ (∃ n, n ∈ ["bug".toList, "wontfix".toList]
      ∧ LabelsToIDs testMetadata ["bug".toList, "wontfix".toList] = ([], some ⟨n⟩))
    ∧ (∃ n, n ∈ ["triage".toList, "roadmapv2".toList, "atlantis".toList]
      ∧ ProjectsToIDs testMetadata ["triage".toList, "roadmapv2".toList, "atlantis".toList]
          = ([], [], some ⟨n⟩))
    ∧ MilestoneToID testMetadata "1.0".toList = ([], some ⟨"1.0".toList⟩) :=
  ⟨((unmatched_name_aborts_lookup testMetadata).1
      ["hubot".toList, "nobody".toList, "monalisa".toList]
      ⟨"nobody".toList, by decide, by unfold Matched; decide⟩).elim
      (fun n h => ⟨n, h.1, h.2.2.2⟩),
    ((unmatched_name_aborts_lookup testMetadata).2.1
      ["/core".toList, "OWNER/ghosts".toList]
      ⟨"OWNER/ghosts".toList, by decide, by unfold Matched; decide⟩).elim
      (fun n h => ⟨n, h.1, h.2.2.2⟩),
    ((unmatched_name_aborts_lookup testMetadata).2.2.1
      ["bug".toList, "wontfix".toList]
      ⟨"wontfix".toList, by decide, by unfold Matched; decide⟩).elim
      (fun n h => ⟨n, h.1, h.2.2.2⟩),
    ((unmatched_name_aborts_lookup testMetadata).2.2.2.1
      ["triage".toList, "roadmapv2".toList, "atlantis".toList]
      ⟨"atlantis".toList, by decide, by unfold Matched; decide⟩).elim
      (fun n h => ⟨n, h.1, h.2.2.2⟩),
    (unmatched_name_aborts_lookup testMetadata).2.2.2.2 "1.0".toList
      (by unfold Matched; decide)⟩

theorem lookup_returns_first_match_witness :
    MembersToIDs twinMetadata ["monalisa".toList] = (["MONAID".toList], none)
    ∧ TeamsToIDs twinMetadata ["OWNER/CORE".toList] = (["COREID".toList], none)
    ∧ LabelsToIDs twinMetadata ["BUG".toList] = (["BUGID".toList], none)
    ∧ ProjectsToIDs twinMetadata ["ROADMAP".toList] = (["ROADMAPID".toList], [], none)
    ∧ ProjectsToIDs twinMetadata ["roadmapv2".toList] = ([], ["ROADMAPV2ID".toList], none)
    ∧ MilestoneToID twinMetadata "ga".toList = ("GAID".toList, none) :=
  ⟨(lookup_returns_first_match twinMetadata "monalisa".toList).1
      ⟨"MONAID".toList, "MonaLisa".toList, []⟩
      ⟨[⟨"HUBOTID".toList, "hubot".toList, []⟩], [⟨"TWINID".toList, "monalisa".toList, []⟩],
        rfl, by decide, by decide⟩ [] [] [] [] rfl rfl,
    (lookup_returns_first_match twinMetadata "OWNER/CORE".toList).2.1
      ⟨"COREID".toList, "Core".toList⟩
      ⟨[], [⟨"TWINID".toList, "core".toList⟩], rfl, by decide, by decide⟩ [] [] [] [] rfl rfl,
    (lookup_returns_first_match twinMetadata "BUG".toList).2.2.1
      ⟨"BUGID".toList, "bug".toList⟩
      ⟨[], [⟨"TWINID".toList, "Bug".toList⟩], rfl, by decide, by decide⟩ [] [] [] [] rfl rfl,
    (lookup_returns_first_match twinMetadata "ROADMAP".toList).2.2.2.1
      ⟨"ROADMAPID".toList, "Roadmap".toList, []⟩
      ⟨[], [⟨"TWINID".toList, "roadmap".toList, []⟩], rfl, by decide, by decide⟩
      [] [] [] [] [] [] rfl rfl,
    (lookup_returns_first_match twinMetadata "roadmapv2".toList).2.2.2.2.1
      ⟨"ROADMAPV2ID".toList, "RoadmapV2".toList, []⟩
      (by unfold Matched; decide)
      ⟨[], [⟨"TWINV2ID".toList, "roadmapv2".toList, []⟩], rfl, by decide, by decide⟩
      [] [] [] [] [] [] rfl rfl,
    (lookup_returns_first_match twinMetadata "ga".toList).2.2.2.2.2
      ⟨"GAID".toList, "GA".toList⟩
      ⟨[], [⟨"TWINID".toList, "ga".toList⟩], rfl, by decide, by decide⟩⟩

/-! ## The batch query -/

theorem toDigitsCore_small (fuel n : Nat) (acc : List Char) (h : n < 10) :
    Nat.toDigitsCore 10 (fuel + 1) n acc = Nat.digitChar n :: acc := by
  simp [Nat.toDigitsCore, Nat.div_eq_of_lt h, Nat.mod_eq_of_lt h]

theorem toDigitsCore_step (fuel n : Nat) (acc : List Char) (h : 10 ≤ n) :
    Nat.toDigitsCore 10 (fuel + 1) n acc
      = Nat.toDigitsCore 10 fuel (n / 10) (Nat.digitChar (n % 10) :: acc) := by
  have : n / 10 ≠ 0 := by omega
  simp [Nat.toDigitsCore, this]

/-- The verb `%03d` below 1000: three digits. -/
theorem pad3_of_lt (i : Nat) (h : i < 1000) :
    pad3 i = [Nat.digitChar (i / 100), Nat.digitChar (i / 10 % 10), Nat.digitChar (i % 10)] := by
  unfold pad3 Nat.toDigits
  by_cases h1 : i < 10
  · rw [toDigitsCore_small i i [] h1]
    have e1 : i / 100 = 0 := by omega
    have e2 : i / 10 % 10 = 0 := by omega
    have e3 : i % 10 = i := by omega
    rw [e1, e2, e3]
    rfl
  · obtain ⟨k, rfl⟩ : ∃ k, i = k + 1 := ⟨i - 1, by omega⟩
    rw [toDigitsCore_step (k + 1) (k + 1) [] (by omega)]
    by_cases h2 : k + 1 < 100
    · rw [toDigitsCore_small k ((k + 1) / 10) _ (by omega)]
      have e1 : (k + 1) / 100 = 0 := by omega
      have e2 : (k + 1) / 10 % 10 = (k + 1) / 10 := by omega
      rw [e1, e2]
      rfl
    · obtain ⟨j, rfl⟩ : ∃ j, k = j + 1 := ⟨k - 1, by omega⟩
      rw [toDigitsCore_step (j + 1) ((j + 1 + 1) / 10) _ (by omega)]
      rw [toDigitsCore_small j ((j + 1 + 1) / 10 / 10) _ (by omega)]
      have e1 : (j + 1 + 1) / 10 / 10 = (j + 1 + 1) / 100 := by omega
      rw [e1]
      rfl

theorem digitChar_lt : ∀ a b : Fin 10, a < b → Nat.digitChar a.1 < Nat.digitChar b.1 := by
  decide

theorem digitChar_strict {a b : Nat} (hb : b < 10) (h : a < b) :
    Nat.digitChar a < Nat.digitChar b :=
  digitChar_lt ⟨a, by omega⟩ ⟨b, hb⟩ h

/-- The aliases of a kind below 1000 increase strictly, in the order of the
dictionary. -/
theorem aliasOf_strict (letter : Char) {i j : Nat} (hj : j < 1000) (h : i < j) :
    List.Lex (fun a b : Char => a < b) (aliasOf letter i) (aliasOf letter j) := by
  unfold aliasOf
  rw [pad3_of_lt i (by omega), pad3_of_lt j hj]
  refine List.Lex.cons ?_
  by_cases h1 : i / 100 < j / 100
  · exact List.Lex.rel (digitChar_strict (by omega) h1)
  · have e1 : i / 100 = j / 100 := by omega
    rw [e1]
    refine List.Lex.cons ?_
    by_cases h2 : i / 10 % 10 < j / 10 % 10
    · exact List.Lex.rel (digitChar_strict (by omega) h2)
    · have e2 : i / 10 % 10 = j / 10 % 10 := by omega
      rw [e2]
      refine List.Lex.cons ?_
      exact List.Lex.rel (digitChar_strict (by omega) (by omega))

theorem writeLines_eq (line : Nat → GoString → GoString) : ∀ (names : List GoString) (i : Nat)
    (query : GoString),
    writeLines line names i query
      = query ++ ((names.enumFrom i).map (fun p => line p.1 p.2)).flatten := by
  intro names
  induction names with
  | nil => intro i query; simp [writeLines]
  | cons name rest ih =>
    intro i query
    rw [writeLines, ih]
    simp [List.enumFrom]

theorem writeLines_zero (line : Nat → GoString → GoString) (names : List GoString)
    (query : GoString) : writeLines line names 0 query = query ++ linesOf line names := by
  rw [writeLines_eq]
  rfl

theorem hasUser_append (same : GoString → GoString → Bool) (a b : List GoString)
    (target : GoString) :
    hasUser same (a ++ b) target = (hasUser same a target || hasUser same b target) := by
  simp [hasUser, List.any_append]

/-- The loop over the reviewers: the slugs of the team references, in their order, and
the users added after the assignees. -/
theorem splitReviewers_spec (same : GoString → GoString → Bool) (owner : GoString) :
    ∀ (reviewers users teams : List GoString),
    (∀ r ∈ reviewers, isTeamRef r = true → teamOfOwner owner r = true) →
    ∃ extra, splitReviewers same owner reviewers users teams
        = some (users ++ extra,
            teams ++ (reviewers.filter isTeamRef).map (fun r => (Cut '/' r).2.1))
      ∧ extra.Sublist (reviewers.filter (fun r => !isTeamRef r))
      ∧ (∀ r ∈ reviewers, isTeamRef r = false →
          r ∈ extra ∨ hasUser same (users ++ extra) r = true)
      ∧ (∀ a e b, extra = a ++ e :: b → hasUser same (users ++ a) e = false) := by
  intro reviewers
  induction reviewers with
  | nil =>
    intro users teams _
    refine ⟨[], by simp [splitReviewers], by simp, by simp, ?_⟩
    intro a e b h
    simp at h
  | cons r rest ih =>
    intro users teams hteams
    have hrest : ∀ x ∈ rest, isTeamRef x = true → teamOfOwner owner x = true :=
      fun x hx => hteams x (List.mem_cons_of_mem _ hx)
    rw [splitReviewers]
    by_cases ht : isTeamRef r = true
    · rw [if_pos ht, if_pos (hteams r (by simp) ht)]
      obtain ⟨extra, h1, h2, h3, h4⟩ := ih users (teams ++ [(Cut '/' r).2.1]) hrest
      refine ⟨extra, ?_, ?_, ?_, h4⟩
      · rw [h1, List.filter_cons_of_pos ht]
        simp
      · rw [List.filter_cons_of_neg (by simp [ht])]
        exact h2
      · intro x hx hxt
        rcases List.mem_cons.1 hx with rfl | hx
        · rw [ht] at hxt; exact absurd hxt (by decide)
        · exact h3 x hx hxt
    · rw [if_neg ht]
      have htf : isTeamRef r = false := by simpa using ht
      by_cases hu : hasUser same users r = true
      · rw [if_pos hu]
        obtain ⟨extra, h1, h2, h3, h4⟩ := ih users teams hrest
        refine ⟨extra, ?_, ?_, ?_, h4⟩
        · rw [h1, List.filter_cons_of_neg ht]
        · rw [List.filter_cons_of_pos (by simp [htf])]
          exact List.Sublist.cons _ h2
        · intro x hx hxt
          rcases List.mem_cons.1 hx with rfl | hx
          · right
            rw [hasUser_append, hu]
            rfl
          · exact h3 x hx hxt
      · rw [if_neg hu]
        obtain ⟨extra, h1, h2, h3, h4⟩ := ih (users ++ [r]) teams hrest
        refine ⟨r :: extra, ?_, ?_, ?_, ?_⟩
        · rw [h1, List.filter_cons_of_neg ht]
          simp
        · rw [List.filter_cons_of_pos (by simp [htf])]
          exact List.Sublist.cons₂ _ h2
        · intro x hx hxt
          rcases List.mem_cons.1 hx with rfl | hx
          · left; simp
          · rcases h3 x hx hxt with h | h
            · left; exact List.mem_cons_of_mem _ h
            · right
              rw [List.append_assoc] at h
              exact h
        · intro a e b hab
          cases a with
          | nil =>
            simp only [List.nil_append, List.cons.injEq] at hab
            rw [← hab.1, List.append_nil]
            simpa using hu
          | cons a0 a1 =>
            simp only [List.cons_append, List.cons.injEq] at hab
            have := h4 a1 e b hab.2
            rw [List.append_assoc] at this
            rw [← hab.1]
            exact this

/-- Claim C20: for an input whose team references name no other organization than the
owner of the repository, the query of `RepoResolveMetadataIDs` is: the first line;
one sub-selection for each user, the users being the assignees and then the
reviewers that are no team reference and not listed yet, in their order; when
there are labels, the block of the repository with one sub-selection for each
label; when there are teams, one block of the organization with one
sub-selection for the slug of each team reference; the closing line. The
sub-selection of the name with the number `i` in its list has the alias of the
number `i`, which below 1000 is the letter of the kind and the three digits of
`i`, so that the aliases of a kind increase strictly. -/
theorem resolveQuery_aliases_in_input_order (quote : GoString → GoString)
    (same : GoString → GoString → Bool) (repo : Repo) (input : RepoResolveInput)
    (hteams : ∀ r ∈ input.Reviewers, isTeamRef r = true →
      teamOfOwner repo.RepoOwner r = true) :
    ∃ extra teams,
      teams = (input.Reviewers.filter isTeamRef).map (fun r => (Cut '/' r).2.1)
      ∧ extra.Sublist (input.Reviewers.filter (fun r => !isTeamRef r))
      ∧ (∀ r ∈ input.Reviewers, isTeamRef r = false →
          r ∈ extra ∨ hasUser same (input.Assignees ++ extra) r = true)
      ∧ (∀ a e b, extra = a ++ e :: b → hasUser same (input.Assignees ++ a) e = false)
      ∧ resolveQuery quote same repo input
          = some (queryHead ++ linesOf (userLine quote) (input.Assignees ++ extra)
              ++ (if input.Labels = [] then []
                  else repositoryHead quote repo ++ linesOf (labelLine quote) input.Labels
                    ++ blockEnd)
              ++ (if teams = [] then []
                  else organizationHead quote repo ++ linesOf (teamLine quote) teams
                    ++ blockEnd)
              ++ blockEnd)
      ∧ (∀ (line : Nat → GoString → GoString) (names : List GoString),
          linesOf line names
            = ((List.range names.length).zip names).flatMap (fun p => line p.1 p.2))
      ∧ (∀ letter i, i < 1000 →
          aliasOf letter i = [letter, Nat.digitChar (i / 100), Nat.digitChar (i / 10 % 10),
            Nat.digitChar (i % 10)])
      ∧ (∀ letter i j, i < j → j < 1000 →
          List.Lex (fun a b : Char => a < b) (aliasOf letter i) (aliasOf letter j)) := by
  obtain ⟨extra, h1, h2, h3, h4⟩ :=
    splitReviewers_spec same repo.RepoOwner input.Reviewers input.Assignees [] hteams
  refine ⟨extra, _, rfl, h2, h3, h4, ?_, ?_, ?_, ?_⟩
  · unfold resolveQuery
    rw [h1]
    simp only [List.nil_append, writeLines_zero]
    by_cases hl : input.Labels = []
    · by_cases ht : (input.Reviewers.filter isTeamRef).map (fun r => (Cut '/' r).2.1) = []
      · simp [hl, ht]
      · have : 0 < ((input.Reviewers.filter isTeamRef).map (fun r => (Cut '/' r).2.1)).length :=
          List.length_pos.2 ht
        rw [if_pos this]
        simp [hl, ht]
    · have hlpos : input.Labels.length > 0 := List.length_pos.2 hl
      by_cases ht : (input.Reviewers.filter isTeamRef).map (fun r => (Cut '/' r).2.1) = []
      · simp [hl, ht, hlpos]
      · have : 0 < ((input.Reviewers.filter isTeamRef).map (fun r => (Cut '/' r).2.1)).length :=
          List.length_pos.2 ht
        rw [if_pos this]
        simp [hl, ht, hlpos]
  · intro line names
    unfold linesOf
    rw [List.enum_eq_zip_range]
    simp [List.flatMap]
  · intro letter i hi
    unfold aliasOf
    rw [pad3_of_lt i hi]
  · intro letter i j hij hj
    exact aliasOf_strict letter hj hij

set_option maxRecDepth 100000 in
theorem resolveQuery_aliases_in_input_order_witness :
    (∀ r ∈ testInput.Reviewers, isTeamRef r = true → teamOfOwner "OWNER".toList r = true)
    ∧ ∃ extra teams, teams = ["core".toList, "robots".toList]
      ∧ extra.Sublist ["monalisa".toList, "octocat".toList]
      ∧ resolveQuery plainQuote EqualFold ⟨"OWNER".toList, "REPO".toList⟩ testInput
          = some (queryHead ++ linesOf (userLine plainQuote) (testInput.Assignees ++ extra)
              ++ (if testInput.Labels = [] then []
                  else repositoryHead plainQuote ⟨"OWNER".toList, "REPO".toList⟩
                    ++ linesOf (labelLine plainQuote) testInput.Labels ++ blockEnd)
              ++ (if teams = [] then []
                  else organizationHead plainQuote ⟨"OWNER".toList, "REPO".toList⟩
                    ++ linesOf (teamLine plainQuote) teams ++ blockEnd)
              ++ blockEnd)
      ∧ resolveQuery plainQuote EqualFold ⟨"OWNER".toList, "REPO".toList⟩ testInput
          = some expectedQuery := by
  have hteams : ∀ r ∈ testInput.Reviewers, isTeamRef r = true →
      teamOfOwner "OWNER".toList r = true := by decide
  obtain ⟨extra, teams, ht, hsub, _, _, hq, _⟩ :=
    resolveQuery_aliases_in_input_order plainQuote EqualFold
      ⟨"OWNER".toList, "REPO".toList⟩ testInput hteams
  have hfilter : testInput.Reviewers.filter (fun r => !isTeamRef r)
      = ["monalisa".toList, "octocat".toList] := by decide
  rw [hfilter] at hsub
  exact ⟨hteams, extra, teams, ht.trans (by decide), hsub, hq, by decide⟩

/-! ## Project paths -/

theorem shortPath_segments (a b c d : GoString) (ha : '/' ∉ a) (hb : '/' ∉ b) (hc : '/' ∉ c)
    (hd : '/' ∉ d) :
    shortPath ('/' :: (a ++ '/' :: (b ++ '/' :: (c ++ '/' :: d))))
      = if c = "projects".toList then
          if a = "orgs".toList ∨ a = "users".toList then some (b ++ '/' :: d)
          else some (a ++ '/' :: b ++ '/' :: d)
        else none := by
  unfold shortPath
  simp only [Cut_append_sep '/' a _ ha, Cut_append_sep '/' b _ hb, Cut_append_sep '/' c _ hc]
  by_cases hp : c = "projects".toList
  · simp [hp, hd]
  · rw [if_neg hp, if_neg (fun h => hp h.2.2.2.1)]

/-- The short path of a resource path of one of the three forms. -/
theorem shortPath_of_form {resourcePath short : GoString} (h : PathForm resourcePath short) :
    shortPath resourcePath = some short := by
  cases h with
  | org org number ho hn =>
    have := shortPath_segments "orgs".toList org "projects".toList number (by decide) ho
      (by decide) hn
    simpa using this
  | user user number hu hn =>
    have := shortPath_segments "users".toList user "projects".toList number (by decide) hu
      (by decide) hn
    simpa using this
  | repo owner repo number ho hr hn h1 h2 =>
    have := shortPath_segments owner repo "projects".toList number ho hr (by decide) hn
    rw [if_pos rfl, if_neg (by rintro (h | h); exact h1 h; exact h2 h)] at this
    simpa using this

theorem findPath_some {α : Type} (key path : α → GoString) (name : GoString) :
    ∀ (l : List α) (resourcePath : GoString), findPath key path name l = some resourcePath →
      ∃ c ∈ l, key c = name ∧ path c = resourcePath := by
  intro l
  induction l with
  | nil => intro rp h; simp [findPath] at h
  | cons c rest ih =>
    intro rp h
    rw [findPath] at h
    by_cases hc : key c = name
    · rw [if_pos hc] at h
      exact ⟨c, by simp, hc, by simpa using h⟩
    · rw [if_neg hc] at h
      obtain ⟨x, hx, h1, h2⟩ := ih rp h
      exact ⟨x, List.mem_cons_of_mem _ hx, h1, h2⟩

theorem findPath_of_mem {α : Type} (key path : α → GoString) (name : GoString) :
    ∀ (l : List α), (∃ c ∈ l, key c = name) → ∃ resourcePath,
      findPath key path name l = some resourcePath := by
  intro l
  induction l with
  | nil => rintro ⟨c, hc, _⟩; simp at hc
  | cons c rest ih =>
    rintro ⟨x, hx, hk⟩
    rw [findPath]
    by_cases hc : key c = name
    · exact ⟨path c, by rw [if_pos hc]⟩
    · rw [if_neg hc]
      rcases List.mem_cons.1 hx with rfl | hx
      · exact absurd hk hc
      · exact ih ⟨x, hx, hk⟩

theorem projectPath_spec (projects : List RepoProject) (projectsV2 : List ProjectV2)
    (name : GoString)
    (h : (∃ p ∈ projects, p.Name = name) ∨ (∃ p ∈ projectsV2, p.Title = name)) :
    ∃ resourcePath, projectPath projects projectsV2 name = some resourcePath
      ∧ HasProject projects projectsV2 name resourcePath := by
  unfold projectPath
  cases h1 : findPath RepoProject.Name RepoProject.ResourcePath name projects with
  | some rp =>
    exact ⟨rp, rfl, Or.inl (findPath_some _ _ _ _ _ h1)⟩
  | none =>
    have hv2 : ∃ p ∈ projectsV2, p.Title = name := by
      rcases h with h | h
      · obtain ⟨rp, hrp⟩ := findPath_of_mem RepoProject.Name RepoProject.ResourcePath name
          projects h
        rw [h1] at hrp
        cases hrp
      · exact h
    obtain ⟨rp, hrp⟩ := findPath_of_mem ProjectV2.Title ProjectV2.ResourcePath name
      projectsV2 hv2
    exact ⟨rp, hrp, Or.inr (findPath_some _ _ _ _ _ hrp)⟩

theorem pathsLoop_ok (projects : List RepoProject) (projectsV2 : List ProjectV2)
    (hv1 : ∀ p ∈ projects, ∃ short, PathForm p.ResourcePath short)
    (hv2 : ∀ p ∈ projectsV2, ∃ short, PathForm p.ResourcePath short) :
    ∀ (names paths : List GoString),
    (∀ n ∈ names, (∃ p ∈ projects, p.Name = n) ∨ (∃ p ∈ projectsV2, p.Title = n)) →
    ∃ found, pathsLoop projects projectsV2 names paths = some (paths ++ found, none)
      ∧ List.Forall₂ (fun name path => ∃ resourcePath,
          HasProject projects projectsV2 name resourcePath ∧ PathForm resourcePath path)
          names found := by
  intro names
  induction names with
  | nil => intro paths _; exact ⟨[], by simp [pathsLoop], List.Forall₂.nil⟩
  | cons name rest ih =>
    intro paths h
    obtain ⟨rp, hrp, hhas⟩ := projectPath_spec projects projectsV2 name (h name (by simp))
    obtain ⟨short, hform⟩ : ∃ short, PathForm rp short := by
      rcases hhas with ⟨p, hp, _, hpath⟩ | ⟨p, hp, _, hpath⟩
      · rw [← hpath]; exact hv1 p hp
      · rw [← hpath]; exact hv2 p hp
    obtain ⟨found, hf, hall⟩ := ih (paths ++ [short])
      (fun n hn => h n (List.mem_cons_of_mem _ hn))
    refine ⟨short :: found, ?_, List.Forall₂.cons ⟨rp, hhas, hform⟩ hall⟩
    rw [pathsLoop, hrp]
    simp only [shortPath_of_form hform, hf, List.append_assoc, List.singleton_append]

/-- Claim C21: when every project has a resource path of one of the three forms and
every name is the name of a project, `ProjectsToPaths` returns no error and one
short path for each name, in the order of the names: the path at a position is
the short path of a project with the name at that position, which is `ORG/N` for
`/orgs/ORG/projects/N`, `USER/N` for `/users/USER/projects/N` and `OWNER/REPO/N`
for `/OWNER/REPO/projects/N`. -/
theorem ProjectsToPaths_short_paths (projects : List RepoProject)
    (projectsV2 : List ProjectV2) (names : List GoString)
    (hv1 : ∀ p ∈ projects, ∃ short, PathForm p.ResourcePath short)
    (hv2 : ∀ p ∈ projectsV2, ∃ short, PathForm p.ResourcePath short)
    (hknown : ∀ n ∈ names, (∃ p ∈ projects, p.Name = n) ∨ (∃ p ∈ projectsV2, p.Title = n)) :
    ∃ paths, ProjectsToPaths projects projectsV2 names = some (paths, none)
      ∧ paths.length = names.length
      ∧ List.Forall₂ (fun name path => ∃ resourcePath,
          HasProject projects projectsV2 name resourcePath ∧ PathForm resourcePath path)
          names paths
      ∧ ∀ resourcePath short, PathForm resourcePath short →
          shortPath resourcePath = some short := by
  obtain ⟨found, hf, hall⟩ := pathsLoop_ok projects projectsV2 hv1 hv2 names [] hknown
  refine ⟨found, by simpa [ProjectsToPaths] using hf, hall.length_eq.symm, hall, ?_⟩
  intro rp short h
  exact shortPath_of_form h

theorem ProjectsToPaths_short_paths_witness :
    ∃ paths, ProjectsToPaths testProjects testProjectsV2
        ["My Project".toList, "Org Project".toList, "My Project V2".toList] = some (paths, none)
      ∧ paths = ["OWNER/REPO/PROJECT_NUMBER".toList, "ORG/PROJECT_NUMBER".toList,
          "OWNER/REPO/PROJECT_NUMBER_2".toList] := by
  have hrepo : ∀ number : GoString, '/' ∉ number →
      PathForm ("/OWNER/REPO/projects/".toList ++ number) ("OWNER/REPO/".toList ++ number) :=
    fun number hn => PathForm.repo "OWNER".toList "REPO".toList number (by decide) (by decide)
      hn (by decide) (by decide)
  have horg : ∀ number : GoString, '/' ∉ number →
      PathForm ("/orgs/ORG/projects/".toList ++ number) ("ORG/".toList ++ number) :=
    fun number hn => PathForm.org "ORG".toList number (by decide) hn
  have hv1 : ∀ p ∈ testProjects, ∃ short, PathForm p.ResourcePath short := by
    intro p hp
    simp only [testProjects, List.mem_cons, List.mem_singleton, List.not_mem_nil,
      or_false] at hp
    rcases hp with rfl | rfl | rfl
    · exact ⟨_, hrepo "PROJECT_NUMBER".toList (by decide)⟩
    · exact ⟨_, horg "PROJECT_NUMBER".toList (by decide)⟩
    · exact ⟨_, horg "PROJECT_NUMBER_2".toList (by decide)⟩
  have hv2 : ∀ p ∈ testProjectsV2, ∃ short, PathForm p.ResourcePath short := by
    intro p hp
    simp only [testProjectsV2, List.mem_cons, List.mem_singleton, List.not_mem_nil,
      or_false] at hp
    rcases hp with rfl | rfl
    · exact ⟨_, hrepo "PROJECT_NUMBER_2".toList (by decide)⟩
    · exact ⟨_, horg "PROJECT_NUMBER_3".toList (by decide)⟩
  obtain ⟨paths, h, _⟩ := ProjectsToPaths_short_paths testProjects testProjectsV2
    ["My Project".toList, "Org Project".toList, "My Project V2".toList] hv1 hv2 (by decide)
  refine ⟨paths, h, ?_⟩
  have e : ProjectsToPaths testProjects testProjectsV2
      ["My Project".toList, "Org Project".toList, "My Project V2".toList]
    = some (["OWNER/REPO/PROJECT_NUMBER".toList, "ORG/PROJECT_NUMBER".toList,
        "OWNER/REPO/PROJECT_NUMBER_2".toList], none) := by decide
  rw [e] at h
  exact (Prod.mk.inj (Option.some.inj h)).1.symm

end Api

/-! ## The order of the reviewers -/

namespace PrView

open CmdApi

theorem less_iff (i j : reviewerState) :
    sortReviewerStates.less i j = true ↔
      (i.State ≠ requestedReviewState ∧ j.State = requestedReviewState)
      ∨ ((i.State = requestedReviewState ↔ j.State = requestedReviewState) ∧ i.Name < j.Name) := by
  unfold sortReviewerStates.less
  by_cases hi : i.State = requestedReviewState <;> by_cases hj : j.State = requestedReviewState <;>
    simp [hi, hj]

theorem less_eq_false_iff (i j : reviewerState) :
    sortReviewerStates.less j i = false ↔
      (i.State = requestedReviewState → j.State = requestedReviewState)
      ∧ ((i.State = requestedReviewState ↔ j.State = requestedReviewState) → i.Name ≤ j.Name) := by
  rw [← Bool.not_eq_true, less_iff]
  by_cases hi : i.State = requestedReviewState <;> by_cases hj : j.State = requestedReviewState <;>
    simp [hi, hj]

theorem less_total (a b : reviewerState) :
    sortReviewerStates.less b a = false ∨ sortReviewerStates.less a b = false := by
  rw [less_eq_false_iff, less_eq_false_iff]
  by_cases ha : a.State = requestedReviewState <;> by_cases hb : b.State = requestedReviewState <;>
    simp [ha, hb]
  · exact le_total _ _
  · exact le_total _ _

theorem less_trans (a b c : reviewerState) (hab : sortReviewerStates.less b a = false)
    (hbc : sortReviewerStates.less c b = false) : sortReviewerStates.less c a = false := by
  rw [less_eq_false_iff] at *
  by_cases ha : a.State = requestedReviewState <;> by_cases hb : b.State = requestedReviewState <;>
    by_cases hc : c.State = requestedReviewState <;> simp [ha, hb, hc] at hab hbc ⊢
  · exact le_trans hab hbc
  · exact le_trans hab hbc

/-- Function `sort.Slice` as it is defined here keeps to its contract, for the
comparison of `sortReviewerStates`. -/
theorem sortSlice_less (x : List reviewerState) :
    SortSlice sortReviewerStates.less x (sortSlice sortReviewerStates.less x) := by
  refine ⟨List.perm_insertionSort _ x, ?_⟩
  exact @List.sorted_insertionSort _ (fun a b => sortReviewerStates.less b a = false) _
    ⟨less_total⟩ ⟨less_trans⟩ x

/-- Claim C25: `sortReviewerStates` leaves a permutation of the list in which every
state that is not `REQUESTED` stands before every state that is, and in which the
names of each of the two groups do not decrease, in the order of the dictionary;
and so does every result that the contract of `sort.Slice` allows. -/
theorem sortReviewerStates_groups_and_orders (reviewerStates : List reviewerState) :
    (sortReviewerStates reviewerStates).Perm reviewerStates
    ∧ (sortReviewerStates reviewerStates).Pairwise (fun a b =>
        (a.State = requestedReviewState → b.State = requestedReviewState)
        ∧ ((a.State = requestedReviewState ↔ b.State = requestedReviewState) →
            a.Name ≤ b.Name))
    ∧ ∀ out, SortSlice sortReviewerStates.less reviewerStates out →
        out.Perm reviewerStates
        ∧ out.Pairwise (fun a b =>
            (a.State = requestedReviewState → b.State = requestedReviewState)
            ∧ ((a.State = requestedReviewState ↔ b.State = requestedReviewState) →
                a.Name ≤ b.Name)) := by
  have hall : ∀ out, SortSlice sortReviewerStates.less reviewerStates out →
      out.Perm reviewerStates
      ∧ out.Pairwise (fun a b =>
          (a.State = requestedReviewState → b.State = requestedReviewState)
          ∧ ((a.State = requestedReviewState ↔ b.State = requestedReviewState) →
              a.Name ≤ b.Name)) := by
    intro out h
    exact ⟨h.1, h.2.imp (fun {a b} hab => (less_eq_false_iff a b).1 hab)⟩
  have := hall _ (sortSlice_less reviewerStates)
  exact ⟨this.1, this.2, hall⟩

theorem sortReviewerStates_groups_and_orders_witness :
    sortReviewerStates [⟨"bob".toList, "REQUESTED".toList⟩, ⟨"carol".toList, "APPROVED".toList⟩,
        ⟨"alice".toList, "REQUESTED".toList⟩, ⟨"al".toList, "COMMENTED".toList⟩]
      = [⟨"al".toList, "COMMENTED".toList⟩, ⟨"carol".toList, "APPROVED".toList⟩,
         ⟨"alice".toList, "REQUESTED".toList⟩, ⟨"bob".toList, "REQUESTED".toList⟩]
    ∧ [⟨"al".toList, "COMMENTED".toList⟩, ⟨"carol".toList, "APPROVED".toList⟩,
        ⟨"alice".toList, "REQUESTED".toList⟩, (⟨"bob".toList, "REQUESTED".toList⟩ : reviewerState)].Perm
        [⟨"bob".toList, "REQUESTED".toList⟩, ⟨"carol".toList, "APPROVED".toList⟩,
         ⟨"alice".toList, "REQUESTED".toList⟩, ⟨"al".toList, "COMMENTED".toList⟩] := by
  have h := (sortReviewerStates_groups_and_orders
    [⟨"bob".toList, "REQUESTED".toList⟩, ⟨"carol".toList, "APPROVED".toList⟩,
      ⟨"alice".toList, "REQUESTED".toList⟩, ⟨"al".toList, "COMMENTED".toList⟩]).1
  have e : sortReviewerStates [⟨"bob".toList, "REQUESTED".toList⟩,
      ⟨"carol".toList, "APPROVED".toList⟩, ⟨"alice".toList, "REQUESTED".toList⟩,
      ⟨"al".toList, "COMMENTED".toList⟩]
    = [⟨"al".toList, "COMMENTED".toList⟩, ⟨"carol".toList, "APPROVED".toList⟩,
       ⟨"alice".toList, "REQUESTED".toList⟩, ⟨"bob".toList, "REQUESTED".toList⟩] := by decide
  refine ⟨e, ?_⟩
  rw [e] at h
  exact h

end PrView

/-! ## Capability detection -/

namespace FeatureDetection

open CmdApi

theorem hasField_iff (name : GoString) : ∀ (fields : List GoString) (flag : Bool),
    hasField name fields flag = true ↔ flag = true ∨ name ∈ fields := by
  intro fields
  induction fields with
  | nil => intro flag; simp [hasField]
  | cons field rest ih =>
    intro flag
    rw [hasField, ih]
    by_cases h : field = name
    · simp [h]
    · have h2 : ¬ name = field := fun e => h e.symm
      simp [h, h2]

theorem or_mem_skip (A : Prop) {name field : GoString} {rest : List GoString}
    (h : ¬ name = field) : (A ∨ name ∈ rest) ↔ (A ∨ name = field ∨ name ∈ rest) := by
  constructor
  · rintro (h1 | h1)
    · exact Or.inl h1
    · exact Or.inr (Or.inr h1)
  · rintro (h1 | h1 | h1)
    · exact Or.inl h1
    · exact absurd h1 h
    · exact Or.inr h1

theorem scanRepository_iff : ∀ (fields : List GoString) (features : RepositoryFeatures),
    ((scanRepository fields features).PullRequestTemplateQuery = true ↔
      features.PullRequestTemplateQuery = true ∨ "pullRequestTemplates".toList ∈ fields)
    ∧ ((scanRepository fields features).VisibilityField = true ↔
      features.VisibilityField = true ∨ "visibility".toList ∈ fields)
    ∧ ((scanRepository fields features).AutoMerge = true ↔
      features.AutoMerge = true ∨ "autoMergeAllowed".toList ∈ fields) := by
  intro fields
  induction fields with
  | nil => intro features; simp [scanRepository]
  | cons field rest ih =>
    intro features
    rw [scanRepository]
    by_cases h1 : field = "pullRequestTemplates".toList
    · rw [if_pos h1]
      obtain ⟨i1, i2, i3⟩ := ih { features with PullRequestTemplateQuery := true }
      rw [i1, i2, i3, h1]
      refine ⟨by simp, ?_, ?_⟩
      · have : ¬ "visibility".toList = "pullRequestTemplates".toList := by decide
        simp [this]
      · have : ¬ "autoMergeAllowed".toList = "pullRequestTemplates".toList := by decide
        simp [this]
    · rw [if_neg h1]
      have n1 : ¬ "pullRequestTemplates".toList = field := fun e => h1 e.symm
      by_cases h2 : field = "visibility".toList
      · rw [if_pos h2]
        obtain ⟨i1, i2, i3⟩ := ih { features with VisibilityField := true }
        rw [i1, i2, i3, h2]
        refine ⟨?_, by simp, ?_⟩
        · have : ¬ "pullRequestTemplates".toList = "visibility".toList := by decide
          simp [this]
        · have : ¬ "autoMergeAllowed".toList = "visibility".toList := by decide
          simp [this]
      · rw [if_neg h2]
        have n2 : ¬ "visibility".toList = field := fun e => h2 e.symm
        by_cases h3 : field = "autoMergeAllowed".toList
        · rw [if_pos h3]
          obtain ⟨i1, i2, i3⟩ := ih { features with AutoMerge := true }
          rw [i1, i2, i3, h3]
          refine ⟨?_, ?_, by simp⟩
          · have : ¬ "pullRequestTemplates".toList = "autoMergeAllowed".toList := by decide
            simp [this]
          · have : ¬ "visibility".toList = "autoMergeAllowed".toList := by decide
            simp [this]
        · rw [if_neg h3]
          have n3 : ¬ "autoMergeAllowed".toList = field := fun e => h3 e.symm
          obtain ⟨i1, i2, i3⟩ := ih features
          rw [i1, i2, i3, List.mem_cons, List.mem_cons, List.mem_cons]
          exact ⟨or_mem_skip _ n1, or_mem_skip _ n2, or_mem_skip _ n3⟩

/-- Claim C22 (as found in the tests): on `github.com` the pull request features follow
the probes, which are sent: with the responses of the case `github.com with no
merge queue` the merge queue is reported as missing, whatever field name stands
for it. -/
theorem PullRequestFeatures_probes_public_host :
    notGitHub "github.com".toList = false
    ∧ detector.PullRequestFeatures "isInMergeQueue".toList "checkRunCount".toList
        ⟨"github.com".toList, noMergeQueueClient⟩
      = ⟨{ MergeQueue := false, CheckRunAndStatusContextCounts := true, CheckRunEvent := true },
          none, 2⟩
    ∧ ∀ mergeQueueField countsField,
        (detector.PullRequestFeatures mergeQueueField countsField
          ⟨"github.com".toList, noMergeQueueClient⟩).features.MergeQueue = false :=
  ⟨by decide, by decide, fun _ _ => rfl⟩

/-- Claim C22 (amended): for a host that is not an enterprise host, `IssueFeatures` and
`RepositoryFeatures` send no request and report every feature of their group,
whatever the client would answer; `PullRequestFeatures` sends its two probes to
every host and reports what they give, the same for every host name. -/
theorem public_host_skips_issue_and_repository_probes (isEnterprise : GoString → Bool)
    (d : detector) (hpublic : isEnterprise d.host = false) :
    d.IssueFeatures isEnterprise = ⟨{ StateReason := true }, none, 0⟩
    ∧ d.RepositoryFeatures isEnterprise
        = ⟨{ PullRequestTemplateQuery := true, VisibilityField := true, AutoMerge := true },
            none, 0⟩
    ∧ ∀ mergeQueueField countsField host,
        (d.PullRequestFeatures mergeQueueField countsField).requests = 2
        ∧ d.PullRequestFeatures mergeQueueField countsField
            = detector.PullRequestFeatures mergeQueueField countsField
                { d with host := host } := by
  refine ⟨?_, ?_, ?_⟩
  · simp [detector.IssueFeatures, hpublic]
  · simp [detector.RepositoryFeatures, hpublic]
  · intro mq counts host
    exact ⟨rfl, rfl⟩

theorem public_host_skips_issue_and_repository_probes_witness :
    notGitHub "github.com".toList = false
    ∧ detector.IssueFeatures notGitHub ⟨"github.com".toList, emptyClient⟩
        = ⟨{ StateReason := true }, none, 0⟩
    ∧ detector.RepositoryFeatures notGitHub ⟨"github.com".toList, emptyClient⟩
        = ⟨{ PullRequestTemplateQuery := true, VisibilityField := true, AutoMerge := true },
            none, 0⟩ :=
  have h := public_host_skips_issue_and_repository_probes notGitHub
    ⟨"github.com".toList, emptyClient⟩ (by decide)
  ⟨by decide, h.1, h.2.1⟩

/-- Claim C23: for an enterprise host, when the probe of a group is an error or has no
field of the type, `IssueFeatures`, `RepositoryFeatures` and `PullRequestFeatures`
return no error and report no feature of the group. An error of the request and
a response without the type are such probes. -/
theorem empty_probe_disables_features (isEnterprise : GoString → Bool) (d : detector)
    (henterprise : isEnterprise d.host = true) :
    (EmptyProbe (d.httpClient "Issue_fields".toList) "Issue".toList →
      d.IssueFeatures isEnterprise = ⟨{ StateReason := false }, none, 1⟩)
    ∧ (EmptyProbe (d.httpClient "Repository_fields".toList) "Repository".toList →
      d.RepositoryFeatures isEnterprise
        = ⟨{ PullRequestTemplateQuery := false, VisibilityField := false,
              AutoMerge := false }, none, 1⟩)
    ∧ (∀ mergeQueueField countsField,
        EmptyProbe (d.httpClient "PullRequest_fields".toList) "PullRequest".toList →
        EmptyProbe (d.httpClient "PullRequest_fields".toList)
          "StatusCheckRollupContextConnection".toList →
        EmptyProbe (d.httpClient "PullRequest_fields2".toList) "WorkflowRun".toList →
        d.PullRequestFeatures mergeQueueField countsField
          = ⟨{ MergeQueue := false, CheckRunAndStatusContextCounts := false,
                CheckRunEvent := false }, none, 2⟩)
    ∧ (∀ (e : GoError) (typeName : GoString), EmptyProbe (Except.error e) typeName)
    ∧ (∀ (r : ProbeResponse) (typeName : GoString), r typeName = [] →
        EmptyProbe (Except.ok r) typeName) := by
  refine ⟨?_, ?_, ?_, ?_, ?_⟩
  · intro h
    unfold EmptyProbe at h
    unfold detector.IssueFeatures
    rw [henterprise, h]
    rfl
  · intro h
    unfold EmptyProbe at h
    unfold detector.RepositoryFeatures
    rw [henterprise, h]
    rfl
  · intro mq counts h1 h2 h3
    unfold EmptyProbe at h1 h2 h3
    unfold detector.PullRequestFeatures
    simp only
    rw [h1, h2, h3]
    rfl
  · intro e typeName
    rfl
  · intro r typeName h
    exact h

theorem empty_probe_disables_features_witness :
    notGitHub "git.my.org".toList = true
    ∧ detector.IssueFeatures notGitHub ⟨"git.my.org".toList, emptyClient⟩
        = ⟨{ StateReason := false }, none, 1⟩
    ∧ detector.RepositoryFeatures notGitHub ⟨"git.my.org".toList, emptyClient⟩
        = ⟨{ PullRequestTemplateQuery := false, VisibilityField := false,
              AutoMerge := false }, none, 1⟩
    ∧ detector.PullRequestFeatures "isInMergeQueue".toList "checkRunCount".toList
        ⟨"git.my.org".toList, emptyClient⟩
        = ⟨{ MergeQueue := false, CheckRunAndStatusContextCounts := false,
              CheckRunEvent := false }, none, 2⟩ :=
  have h := empty_probe_disables_features notGitHub ⟨"git.my.org".toList, emptyClient⟩
    (by decide)
  ⟨by decide, h.1 rfl, h.2.1 rfl, h.2.2.1 _ _ rfl rfl rfl⟩

/-- Claim C24: for an enterprise host and probes that are answered, each flag is set if
and only if the name of its field is among the field names that the probe gave for
its type, whatever the other names are; the flags of the pull request features
come from the two probes, `CheckRunEvent` from the type `WorkflowRun` of the
second. -/
theorem flag_iff_field_present (isEnterprise : GoString → Bool) (d : detector)
    (henterprise : isEnterprise d.host = true) :
    (∀ r, d.httpClient "Issue_fields".toList = Except.ok r →
      ((d.IssueFeatures isEnterprise).features.StateReason = true
        ↔ "stateReason".toList ∈ r "Issue".toList))
    ∧ (∀ r, d.httpClient "Repository_fields".toList = Except.ok r →
      ((d.RepositoryFeatures isEnterprise).features.PullRequestTemplateQuery = true
          ↔ "pullRequestTemplates".toList ∈ r "Repository".toList)
      ∧ ((d.RepositoryFeatures isEnterprise).features.VisibilityField = true
          ↔ "visibility".toList ∈ r "Repository".toList)
      ∧ ((d.RepositoryFeatures isEnterprise).features.AutoMerge = true
          ↔ "autoMergeAllowed".toList ∈ r "Repository".toList))
    ∧ (∀ mergeQueueField countsField r1 r2,
      d.httpClient "PullRequest_fields".toList = Except.ok r1 →
      d.httpClient "PullRequest_fields2".toList = Except.ok r2 →
      ((d.PullRequestFeatures mergeQueueField countsField).features.MergeQueue = true
          ↔ mergeQueueField ∈ r1 "PullRequest".toList)
      ∧ ((d.PullRequestFeatures mergeQueueField countsField).features.CheckRunAndStatusContextCounts
            = true
          ↔ countsField ∈ r1 "StatusCheckRollupContextConnection".toList)
      ∧ ((d.PullRequestFeatures mergeQueueField countsField).features.CheckRunEvent = true
          ↔ "event".toList ∈ r2 "WorkflowRun".toList)
      ∧ (d.PullRequestFeatures mergeQueueField countsField).err = none) := by
  refine ⟨?_, ?_, ?_⟩
  · intro r hr
    unfold detector.IssueFeatures
    rw [henterprise, hr]
    show hasField "stateReason".toList (r "Issue".toList) false = true ↔ _
    rw [hasField_iff]
    simp
  · intro r hr
    have := scanRepository_iff (r "Repository".toList) {}
    unfold detector.RepositoryFeatures
    rw [henterprise, hr]
    show ((scanRepository (r "Repository".toList) {}).PullRequestTemplateQuery = true ↔ _)
      ∧ ((scanRepository (r "Repository".toList) {}).VisibilityField = true ↔ _)
      ∧ ((scanRepository (r "Repository".toList) {}).AutoMerge = true ↔ _)
    obtain ⟨i1, i2, i3⟩ := this
    rw [i1, i2, i3]
    exact ⟨by simp, by simp, by simp⟩
  · intro mq counts r1 r2 h1 h2
    unfold detector.PullRequestFeatures
    simp only
    rw [h1, h2]
    show (hasField mq (r1 "PullRequest".toList) false = true ↔ _)
      ∧ (hasField counts (r1 "StatusCheckRollupContextConnection".toList) false = true ↔ _)
      ∧ (hasField "event".toList (r2 "WorkflowRun".toList) false = true ↔ _)
      ∧ _
    rw [hasField_iff, hasField_iff, hasField_iff]
    exact ⟨by simp, by simp, by simp, trivial⟩

theorem flag_iff_field_present_witness :
    notGitHub "git.my.org".toList = true
    ∧ (detector.IssueFeatures notGitHub ⟨"git.my.org".toList, fullClient⟩).features.StateReason
        = true
    ∧ (detector.RepositoryFeatures notGitHub ⟨"git.my.org".toList, fullClient⟩).features.AutoMerge
        = true
    ∧ (detector.PullRequestFeatures "isInMergeQueue".toList "checkRunCount".toList
        ⟨"git.my.org".toList, fullClient⟩).features.CheckRunEvent = true :=
  have h := flag_iff_field_present notGitHub ⟨"git.my.org".toList, fullClient⟩ (by decide)
  ⟨by decide, (h.1 _ rfl).2 (by decide), ((h.2.1 _ rfl).2.2).2 (by decide),
    (h.2.2 _ _ _ _ rfl rfl).2.2.1.2 (by decide)⟩

end FeatureDetection
